import Mathlib

/-!
Verification development for the KeyDev sliding-window history-graph engine
(reference implementation: data_manager.py and graph.py).

The embedding models:
  - timestamps as natural numbers (seconds); a calendar day spans `dayLen`
    consecutive timestamps, and `maxOfDay` normalizes a timestamp to the last
    instant of its day, exactly as util.max_of_day does;
  - change sets and code changes as records mirroring the ChangeSet and
    CodeChange classes;
  - the networkx graph as a pair of lists: nodes carrying their optional
    "kind" attribute, and undirected edges carrying the optional "date" and
    "kind" attributes; all networkx operations used by graph.py (add_node,
    add_edge with attribute update, remove_nodes_from, isolates,
    relabel_nodes with node merging) are reproduced on this representation;
  - the DataManager and HistoryGraph as explicit state records with pure
    transition functions; Python exceptions (SlidingNotPossible, assertion
    failures, ZeroDivisionError) become Option results.
-/

namespace KeyDev

/-- Length of one calendar day in timestamp units (seconds per day). -/
def dayLen : Nat := 86400

/-- The function util.max_of_day: replace the sub-day component of a timestamp
by the last instant of that day. -/
def maxOfDay (t : Nat) : Nat := t / dayLen * dayLen + (dayLen - 1)

/-- A single file-level change (class CodeChange): path, change type
(one of "ADD", "DELETE", "MODIFY", "RENAME"), and the old path for renames. -/
structure CodeChange where
  filePath : String
  changeType : String
  oldFilePath : Option String
deriving DecidableEq, Repr

/-- A commit-level change set (class ChangeSet).  The date field stores the
already-normalized (max_of_day) commit timestamp, as DataManager builds it. -/
structure ChangeSet where
  commitHash : String
  author : String
  date : Nat
  issues : List String
  codeChanges : List CodeChange
  numFilesInProject : Nat
deriving DecidableEq, Repr

/-! ## The mutable labeled graph (networkx.Graph as used by graph.py) -/

/-- An undirected edge with its attribute dictionary: endpoints, the optional
"date" attribute and the optional "kind" attribute. -/
structure Edge where
  u : String
  v : String
  edate : Option Nat
  ekind : Option String
deriving DecidableEq, Repr

/-- The graph: node list (name with optional "kind" attribute, in insertion
order) and edge list (in insertion order). -/
structure Graph where
  nodes : List (String × Option String)
  edges : List Edge
deriving DecidableEq, Repr

/-- The empty graph (nx.Graph()). -/
def Graph.empty : Graph := ⟨[], []⟩

/-- Whether a node of the given name is present. -/
def nodeMem (ns : List (String × Option String)) (a : String) : Bool :=
  ns.any (fun p => decide (p.1 = a))

/-- Update the attribute dictionary of node a with kind k, or append the node
if absent.  A `some` kind overwrites, a `none` kind keeps the stored one,
mirroring Python dict update with an empty or a {kind: _} dictionary. -/
def mergeNode (ns : List (String × Option String)) (a : String) (k : Option String) :
    List (String × Option String) :=
  match ns with
  | [] => [(a, k)]
  | (b, k') :: rest =>
    if b = a then (b, match k with | some x => some x | none => k') :: rest
    else (b, k') :: mergeNode rest a k

/-- nx add_node(a, kind=k). -/
def Graph.addNode (G : Graph) (a : String) (k : String) : Graph :=
  { G with nodes := mergeNode G.nodes a (some k) }

/-- Add a node with an empty attribute dictionary if it is absent (what
nx add_edge does to a missing endpoint). -/
def Graph.ensureNode (G : Graph) (a : String) : Graph :=
  { G with nodes := mergeNode G.nodes a none }

/-- Whether the edge e connects x and y (in either orientation). -/
def Edge.isPair (e : Edge) (x y : String) : Prop :=
  (e.u = x ∧ e.v = y) ∨ (e.u = y ∧ e.v = x)

instance (e : Edge) (x y : String) : Decidable (e.isPair x y) := by
  unfold Edge.isPair
  infer_instance

/-- Replace the attributes of the edge between u and v, or append the edge if
absent (nx add_edge attribute update). -/
def upsertEdge (es : List Edge) (u v : String) (dt : Option Nat) (ek : Option String) :
    List Edge :=
  match es with
  | [] => [⟨u, v, dt, ek⟩]
  | e :: rest =>
    if e.isPair u v then ⟨e.u, e.v, dt, ek⟩ :: rest
    else e :: upsertEdge rest u v dt ek

/-- nx add_edge(u, v, date=dt, kind=ek): create missing endpoints, then insert
or update the edge. -/
def Graph.addEdge (G : Graph) (u v : String) (dt : Option Nat) (ek : Option String) :
    Graph :=
  let G1 := (G.ensureNode u).ensureNode v
  { G1 with edges := upsertEdge G1.edges u v dt ek }

/-- nx remove_nodes_from: drop the listed nodes (missing ones silently
ignored) and every edge incident to one of them. -/
def Graph.removeNodesFrom (G : Graph) (ns : List String) : Graph :=
  { nodes := G.nodes.filter (fun p => decide (p.1 ∉ ns)),
    edges := G.edges.filter (fun e => decide (e.u ∉ ns ∧ e.v ∉ ns)) }

/-- Whether node a has at least one incident edge. -/
def Graph.hasIncident (G : Graph) (a : String) : Bool :=
  G.edges.any (fun e => decide (e.u = a ∨ e.v = a))

/-- nx.isolates: the nodes with no incident edge. -/
def Graph.isolates (G : Graph) : List String :=
  (G.nodes.map Prod.fst).filter (fun a => !(G.hasIncident a))

/-- HistoryGraph._remove_nodes: for a non-empty list, remove the listed nodes
and then remove every node left without an edge. -/
def Graph.removeNodes (G : Graph) (ns : List String) : Graph :=
  if ns = [] then G
  else
    let G1 := G.removeNodesFrom ns
    G1.removeNodesFrom G1.isolates

/-- Look up a key in a rename mapping (Python dict lookup; keys are unique by
construction of the mapping). -/
def mapName (m : List (String × String)) (a : String) : String :=
  match m.find? (fun p => decide (p.1 = a)) with
  | some p => p.2
  | none => a

/-- nx.relabel_nodes with copy=True: rebuild the node list under the (applied
simultaneously) mapping, merging attribute dictionaries of nodes that collide,
then rebuild the edge list the same way. -/
def Graph.renameNodes (G : Graph) (m : List (String × String)) : Graph :=
  if m = [] then G
  else
    { nodes := G.nodes.foldl (fun acc p => mergeNode acc (mapName m p.1) p.2) [],
      edges := G.edges.foldl
        (fun acc e => upsertEdge acc (mapName m e.u) (mapName m e.v) e.edate e.ekind) [] }

/-- Insert a key/value pair into a Python dict modeled as an association list:
overwrite the value at an existing key, else append. -/
def upsertPair (m : List (String × String)) (a b : String) : List (String × String) :=
  match m with
  | [] => [(a, b)]
  | (x, y) :: rest => if x = a then (x, b) :: rest else (x, y) :: upsertPair rest a b

/-! ## HistoryGraph._add_change_sets and friends -/

/-- The add/modify file targets of a change set (the code changes that are
neither DELETE nor RENAME), in order. -/
def filesAddModify (cs : ChangeSet) : List String :=
  (cs.codeChanges.filter
    (fun cc => decide (cc.changeType ≠ "DELETE" ∧ cc.changeType ≠ "RENAME"))).map
    (fun cc => cc.filePath)

/-- The delete targets of a change set, in order. -/
def filesDelete (cs : ChangeSet) : List String :=
  (cs.codeChanges.filter (fun cc => decide (cc.changeType = "DELETE"))).map
    (fun cc => cc.filePath)

/-- The rename mapping of a change set: a dict from old path to new path,
built in code-change order with overwriting. -/
def renameDict (cs : ChangeSet) : List (String × String) :=
  cs.codeChanges.foldl
    (fun m cc =>
      if cc.changeType = "RENAME" then upsertPair m (cc.oldFilePath.getD "") cc.filePath
      else m) []

/-- The body of the per-change-set loop of HistoryGraph._add_change_sets:
apply renames, apply deletions, then (unless the change set is large) add the
ChangeSet and Developer nodes, the authored edge, and the File/Issue nodes and
edges. -/
def applyChangeSet (lim : Nat) (G : Graph) (cs : ChangeSet) : Graph :=
  let fam := filesAddModify cs
  let G1 := G.renameNodes (renameDict cs)
  let G2 := G1.removeNodes (filesDelete cs)
  if fam.length > lim then G2
  else
    let G3 := G2.addNode cs.commitHash "ChangeSet"
    let G4 := G3.addNode cs.author "Developer"
    let G5 := G4.addEdge cs.author cs.commitHash none none
    let G6 := fam.foldl (fun g f => g.addNode f "File") G5
    let G7 := fam.foldl (fun g f => g.addEdge cs.commitHash f (some cs.date) (some "include")) G6
    let G8 := cs.issues.foldl (fun g i => g.addNode i "Issue") G7
    cs.issues.foldl (fun g i => g.addEdge cs.commitHash i (some cs.date) (some "link")) G8

/-- HistoryGraph._add_change_sets. -/
def addChangeSets (lim : Nat) (G : Graph) (css : List ChangeSet) : Graph :=
  css.foldl (applyChangeSet lim) G

/-- HistoryGraph._remove_change_sets: remove the change-set nodes, pruning
nodes left unconnected. -/
def removeChangeSets (G : Graph) (css : List ChangeSet) : Graph :=
  G.removeNodes (css.map (fun cs => cs.commitHash))

/-! ## DataManager -/

/-- Append a value to the bucket of a key in a defaultdict(list) modeled as an
association list: extend an existing bucket, else append a new key. -/
def dictAdd {α β : Type} [DecidableEq α] (m : List (α × List β)) (d : α) (x : β) :
    List (α × List β) :=
  match m with
  | [] => [(d, [x])]
  | (k, l) :: rest =>
    if k = d then (k, l ++ [x]) :: rest else (k, l) :: dictAdd rest d x

/-- Append a change set to the bucket of its date. -/
def bucketAdd (m : List (Nat × List ChangeSet)) (d : Nat) (cs : ChangeSet) :
    List (Nat × List ChangeSet) :=
  dictAdd m d cs

/-- Touch the bucket of a date (bare defaultdict access): create an empty
bucket if the key is missing. -/
def bucketTouch (m : List (Nat × List ChangeSet)) (d : Nat) :
    List (Nat × List ChangeSet) :=
  match m with
  | [] => [(d, [])]
  | (k, l) :: rest =>
    if k = d then (k, l) :: rest else (k, l) :: bucketTouch rest d

/-- The gap-filling loop: touch every date from d (exclusive of last) upward
in one-day steps while d < last. -/
def fillGaps (m : List (Nat × List ChangeSet)) (d last : Nat) :
    List (Nat × List ChangeSet) :=
  if d < last then fillGaps (bucketTouch m d) (d + dayLen) last else m
termination_by last - d
decreasing_by
  have h1 : 0 < dayLen := by decide
  omega

/-- util.sort_dict (by key, ascending): stable sort of the association list by
key. -/
def sortByKey (m : List (Nat × List ChangeSet)) : List (Nat × List ChangeSet) :=
  m.mergeSort (fun a b => a.1 ≤ b.1)

/-- A change set with its date normalized to the last instant of its day, as
DataManager stores it. -/
def normCs (cs : ChangeSet) : ChangeSet :=
  { cs with date := maxOfDay cs.date }

/-- The first stage of DataManager._generate_date_to_change_sets: bucket every
change set by the last instant of its commit day, in input order. -/
def buildBuckets (input : List ChangeSet) : List (Nat × List ChangeSet) :=
  input.foldl (fun m cs => bucketAdd m (maxOfDay cs.date) (normCs cs)) []

/-- DataManager._generate_date_to_change_sets on an already-parsed input list:
bucket every change set by the last instant of its commit day (in input
order), fill the gaps between the first inserted date and the last inserted
date, and sort by date.  The resulting change sets carry the normalized date.
Fails (IndexError on dates[-1]) when the input is empty. -/
def genTimeline (input : List ChangeSet) : Option (List (Nat × List ChangeSet)) :=
  match buildBuckets input with
  | [] => none
  | b0 :: rest =>
    let last := (((b0 :: rest).map Prod.fst).getLast?).getD 0
    some (sortByKey (fillGaps (b0 :: rest) b0.1 last))

/-- DataManager state: the date-bucketed timeline, the window size, and the
optional window bounds. -/
structure DMState where
  dateToCs : List (Nat × List ChangeSet)
  windowSize : Nat
  firstDate : Option Nat
  lastDate : Option Nat
deriving DecidableEq, Repr

/-- DataManager construction from a parsed dataset. -/
def mkDataManager (input : List ChangeSet) (w : Nat) : Option DMState :=
  (genTimeline input).map (fun tl => ⟨tl, w, none, none⟩)

/-- Key membership in the timeline. -/
def hasDate (d : DMState) (k : Nat) : Bool :=
  d.dateToCs.any (fun p => decide (p.1 = k))

/-- Bucket lookup in the timeline (empty for a missing key). -/
def bucketOf (d : DMState) (k : Nat) : List ChangeSet :=
  match d.dateToCs.find? (fun p => decide (p.1 = k)) with
  | some p => p.2
  | none => []

/-- DataManager.get_num_possible_iterations. -/
def numPossibleIterations (d : DMState) : Int :=
  (d.dateToCs.length : Int) - d.windowSize + 1

/-- DataManager.get_initial_window: set first to the earliest bucketed date
and last to first + (window - 1) days; fail (assertion) when last is not a
bucketed date; return the concatenation of all buckets up to last, together
with the updated state. -/
def getInitialWindow (d : DMState) : Option (List ChangeSet × DMState) :=
  match d.dateToCs with
  | [] => none
  | b0 :: _ =>
    let first := b0.1
    let last := first + (d.windowSize - 1) * dayLen
    if hasDate d last then
      some (((d.dateToCs.takeWhile (fun p => p.1 ≤ last)).map Prod.snd).flatten,
        { d with firstDate := some first, lastDate := some last })
    else none

/-- DataManager.can_slide: the day after the last included date is a bucketed
date. -/
def canSlide (d : DMState) : Bool :=
  match d.lastDate with
  | some l => hasDate d (l + dayLen)
  | none => false

/-- DataManager.forward_one_day: raise SlidingNotPossible (None) when sliding
is impossible, otherwise return (change sets to add, change sets to remove)
and shift both bounds one day forward. -/
def forwardOneDay (d : DMState) : Option ((List ChangeSet × List ChangeSet) × DMState) :=
  if canSlide d then
    match d.firstDate, d.lastDate with
    | some f, some l =>
      some ((bucketOf d (l + dayLen), bucketOf d f),
        { d with firstDate := some (f + dayLen), lastDate := some (l + dayLen) })
    | _, _ => none
  else none

/-! ## HistoryGraph: distance, reachability, analytics -/

/-- Configuration of a HistoryGraph (constructor keyword arguments). -/
structure Config where
  graphRange : Nat
  distanceLimit : ℚ
  numFilesLimit : Nat
  scoreThreshold : ℚ
deriving DecidableEq, Repr

/-- HistoryGraph._which_day: days passed from the first included date to the
edge date, inclusive (timedelta .days uses floor division). -/
def whichDay (firstDate edgeDate : Nat) : Int :=
  Int.fdiv ((edgeDate : Int) - (firstDate : Int)) (dayLen : Int) + 1

/-- HistoryGraph._calculate_distance: zero for an authored edge (date None);
otherwise the reciprocal of recency, with the zero-recency branch producing
float infinity, modeled as None. -/
def calcDistance (w : Nat) (firstDate : Nat) (edt : Option Nat) : Option ℚ :=
  match edt with
  | none => some 0
  | some ed =>
    let recency : ℚ := (whichDay firstDate ed : ℚ) / (w : ℚ)
    if recency = 0 then none else some (1 / recency)

/-- Adjacency of a node: the other endpoint of every incident edge, in edge
insertion order. -/
def neighbors (G : Graph) (a : String) : List String :=
  G.edges.foldr
    (fun e acc => if e.u = a then e.v :: acc else if e.v = a then e.u :: acc else acc)
    []

/-- The date attribute of the edge between two nodes. -/
def edgeDateOf (G : Graph) (x y : String) : Option Nat :=
  match G.edges.find? (fun e => decide (e.isPair x y)) with
  | some e => e.edate
  | none => none

/-- The kind attribute of a node. -/
def nodeKind (G : Graph) (a : String) : Option String :=
  match G.nodes.find? (fun p => decide (p.1 = a)) with
  | some p => p.2
  | none => none

/-- All node names occurring anywhere in the graph (as node entries or edge
endpoints), without duplicates; used only to ground the DFS termination. -/
def mentioned (G : Graph) : List String :=
  (G.nodes.map Prod.fst ++ G.edges.map Edge.u ++ G.edges.map Edge.v).dedup

theorem mem_neighbors_aux (es : List Edge) (a c : String)
    (hc : c ∈ es.foldr
      (fun e acc => if e.u = a then e.v :: acc else if e.v = a then e.u :: acc else acc)
      []) :
    c ∈ es.map Edge.u ∨ c ∈ es.map Edge.v := by
  induction es with
  | nil => simp at hc
  | cons e es ih =>
    simp only [List.foldr_cons] at hc
    simp only [List.map_cons, List.mem_cons]
    by_cases h1 : e.u = a
    · rw [if_pos h1] at hc
      rcases List.mem_cons.mp hc with h | h
      · right; left; exact h
      · rcases ih h with h' | h'
        · left; right; exact h'
        · right; right; exact h'
    · rw [if_neg h1] at hc
      by_cases h2 : e.v = a
      · rw [if_pos h2] at hc
        rcases List.mem_cons.mp hc with h | h
        · left; left; exact h
        · rcases ih h with h' | h'
          · left; right; exact h'
          · right; right; exact h'
      · rw [if_neg h2] at hc
        rcases ih hc with h' | h'
        · left; right; exact h'
        · right; right; exact h'

theorem neighbors_subset_mentioned (G : Graph) (a : String) :
    ∀ c ∈ neighbors G a, c ∈ mentioned G := by
  intro c hc
  unfold mentioned
  rw [List.mem_dedup]
  rcases mem_neighbors_aux G.edges a c hc with h | h
  · simp [h]
  · simp [h]

theorem neighbors_nil_of_not_mentioned (G : Graph) (a c : String)
    (h : c ∉ mentioned G) : c ∉ neighbors G a := by
  intro hc
  exact h (neighbors_subset_mentioned G a c hc)

theorem filter_visited_mono (l visited : List String) (c : String) :
    (l.filter (fun a => decide (a ∉ visited ++ [c]))).length ≤
      (l.filter (fun a => decide (a ∉ visited))).length := by
  apply List.Sublist.length_le
  apply List.monotone_filter_right
  intro a ha
  simp only [decide_eq_true_eq, List.mem_append] at ha ⊢
  tauto

theorem length_filter_not_mem_append (l : List String) (visited : List String)
    (c : String) (hc : c ∈ l) (hnv : c ∉ visited) :
    (l.filter (fun a => decide (a ∉ visited ++ [c]))).length <
      (l.filter (fun a => decide (a ∉ visited))).length := by
  induction l with
  | nil => simp at hc
  | cons x xs ih =>
    simp only [List.filter_cons]
    by_cases hx : x = c
    · subst hx
      have h1 : (decide (x ∉ visited ++ [x])) = false := by simp
      have h2 : (decide (x ∉ visited)) = true := by simpa using hnv
      rw [h1, h2]
      simp only [Bool.false_eq_true, if_false, if_true, List.length_cons]
      have := filter_visited_mono xs visited x
      omega
    · have hcx : c ∈ xs := by
        rcases List.mem_cons.mp hc with h | h
        · exact absurd h.symm hx
        · exact h
      have hlt := ih hcx
      by_cases hv : x ∈ visited
      · have h1 : (decide (x ∉ visited ++ [c])) = false := by simp [hv]
        have h2 : (decide (x ∉ visited)) = false := by simp [hv]
        rw [h1, h2]
        simp only [Bool.false_eq_true, if_false]
        exact hlt
      · have h1 : (decide (x ∉ visited ++ [c])) = true := by simp [hv, hx]
        have h2 : (decide (x ∉ visited)) = true := by simp [hv]
        rw [h1, h2]
        simp only [if_true, List.length_cons]
        omega

theorem length_filter_not_mem_append_eq (l : List String) (visited : List String)
    (c : String) (hc : c ∉ l) :
    (l.filter (fun a => decide (a ∉ visited ++ [c]))) =
      (l.filter (fun a => decide (a ∉ visited))) := by
  apply List.filter_congr
  intro a ha
  have hac : a ≠ c := fun h => hc (h ▸ ha)
  simp [List.mem_append, hac]

theorem neighbors_ne_nil_aux (es : List Edge) (a : String)
    (h : es.foldr
      (fun e acc => if e.u = a then e.v :: acc else if e.v = a then e.u :: acc else acc)
      [] ≠ []) :
    a ∈ es.map Edge.u ∨ a ∈ es.map Edge.v := by
  induction es with
  | nil => simp at h
  | cons e es ih =>
    simp only [List.foldr_cons] at h
    simp only [List.map_cons, List.mem_cons]
    by_cases h1 : e.u = a
    · left; left; exact h1.symm
    · rw [if_neg h1] at h
      by_cases h2 : e.v = a
      · right; left; exact h2.symm
      · rw [if_neg h2] at h
        rcases ih h with h' | h'
        · left; right; exact h'
        · right; right; exact h'

theorem neighbors_nil_of_unmentioned (G : Graph) (a : String)
    (h : a ∉ mentioned G) : neighbors G a = [] := by
  by_contra hne
  apply h
  unfold mentioned
  rw [List.mem_dedup]
  rcases neighbors_ne_nil_aux G.edges a hne with h' | h'
  · simp [h']
  · simp [h']

/-- Number of mentioned node names not yet visited (first component of the
DFS termination measure). -/
def unvisitedCount (G : Graph) (visited : List String) : Nat :=
  ((mentioned G).filter (fun a => decide (a ∉ visited))).length

/-- secondary DFS termination weight: twice the pending neighbor count plus
the stack depth. -/
def stackWeight (stack : List (String × ℚ × List String)) : Nat :=
  2 * (stack.map (fun fr => fr.2.2.length)).sum + stack.length

/-- The while loop of HistoryGraph._find_reachable_files: a manual stack of
(parent node, accumulated distance, remaining neighbor iterator) frames.  A
child already visited, too distant, or of Developer kind is skipped; a child
of File kind is recorded; every surviving child is pushed with its neighbor
iterator. -/
def dfsLoop (G : Graph) (w fd : Nat) (lim : ℚ) (visited : List String)
    (acc : List String) (stack : List (String × ℚ × List String)) : List String :=
  match stack with
  | [] => acc
  | (parent, dist, children) :: rest =>
    match children with
    | [] => dfsLoop G w fd lim visited acc rest
    | child :: more =>
      let stack' := (parent, dist, more) :: rest
      if child ∈ visited then dfsLoop G w fd lim visited acc stack'
      else
        match calcDistance w fd (edgeDateOf G parent child) with
        | none => dfsLoop G w fd lim visited acc stack'
        | some dd =>
          let d2 := dist + dd
          if lim < d2 then dfsLoop G w fd lim visited acc stack'
          else if nodeKind G child = some "Developer" then
            dfsLoop G w fd lim visited acc stack'
          else
            let acc' := if nodeKind G child = some "File" then acc ++ [child] else acc
            dfsLoop G w fd lim (visited ++ [child]) acc'
              ((child, d2, neighbors G child) :: stack')
termination_by (unvisitedCount G visited, stackWeight stack)
decreasing_by
  all_goals first
  | (apply Prod.Lex.right
     simp only [stackWeight, List.map_cons, List.sum_cons, List.length_cons,
       List.length_nil]
     omega)
  | (by_cases hm : child ∈ mentioned G
     · apply Prod.Lex.left
       show (((mentioned G).filter (fun a => decide (a ∉ visited ++ [child]))).length <
         ((mentioned G).filter (fun a => decide (a ∉ visited))).length)
       exact length_filter_not_mem_append (mentioned G) visited child hm (by assumption)
     · have h1 : unvisitedCount G (visited ++ [child]) = unvisitedCount G visited := by
         unfold unvisitedCount
         rw [length_filter_not_mem_append_eq (mentioned G) visited child hm]
       rw [h1]
       apply Prod.Lex.right
       have h2 : neighbors G child = [] := neighbors_nil_of_unmentioned G child hm
       simp only [stackWeight, List.map_cons, List.sum_cons, List.length_cons, h2,
         List.length_nil]
       omega)

/-- HistoryGraph._find_reachable_files: DFS from the developer node. -/
def findReachableFiles (G : Graph) (w fd : Nat) (lim : ℚ) (developer : String) :
    List String :=
  dfsLoop G w fd lim [developer] [] [(developer, 0, neighbors G developer)]

/-- Per-window memoized data (_current_data), invalidated on every slide. -/
structure CacheData where
  devG : Option (List ((String × String) × ℚ))
  devToReachableFiles : Option (List (String × List String))
  devToRareFiles : Option (List (String × List String))
  fileToDevs : Option (List (String × List String))
  nodeKinds : Option (List (String × Option String))
  jacks : Option (List (String × ℚ))
  mavens : Option (List (String × ℚ))
  connectors : Option (List (String × ℚ))
deriving DecidableEq, Repr

/-- The all-None cache. -/
def CacheData.empty : CacheData :=
  ⟨none, none, none, none, none, none, none, none⟩

/-- HistoryGraph state: configuration, data manager, artifact graph, the
project-wide file count baseline, and the memoized per-window data. -/
structure HGState where
  cfg : Config
  dm : DMState
  G : Graph
  numFilesInProject : Nat
  cache : CacheData
deriving DecidableEq, Repr

/-- HistoryGraph construction: build the data manager, materialize the
initial window, record the file-count baseline of its last change set, and
add the whole initial window to an empty graph. -/
def mkHistoryGraph (cfg : Config) (input : List ChangeSet) : Option HGState :=
  (mkDataManager input cfg.graphRange).bind fun dm =>
    (getInitialWindow dm).bind fun p =>
      match p.1.getLast? with
      | none => none
      | some lastCs =>
        some ⟨cfg, p.2, addChangeSets cfg.numFilesLimit Graph.empty p.1,
          lastCs.numFilesInProject, CacheData.empty⟩

/-- HistoryGraph.forward_graph_one_day: on SlidingNotPossible return False
and leave the state untouched; otherwise remove the departing change sets,
add the entering ones, update the file-count baseline when any were added,
and clear all memoized data. -/
def forwardGraphOneDay (s : HGState) : Bool × HGState :=
  match forwardOneDay s.dm with
  | none => (false, s)
  | some ((csAdd, csRemove), dm') =>
    let G1 := removeChangeSets s.G csRemove
    let G2 := addChangeSets s.cfg.numFilesLimit G1 csAdd
    let nf := (match csAdd.getLast? with
      | some cs => cs.numFilesInProject
      | none => s.numFilesInProject)
    (true, { s with
              dm := dm',
              G := G2,
              numFilesInProject := nf,
              cache := CacheData.empty })

/-- HistoryGraph._filter_nodes_by_kind. -/
def filterNodesByKind (G : Graph) (kind : String) : List String :=
  (G.nodes.filter (fun p => decide (p.2 = some kind))).map Prod.fst

/-- HistoryGraph.get_developers. -/
def getDevelopers (s : HGState) : List String :=
  filterNodesByKind s.G "Developer"

/-- HistoryGraph.get_files. -/
def getFiles (s : HGState) : List String :=
  filterNodesByKind s.G "File"

/-- HistoryGraph.get_dev_to_reachable_files (recomputed form): one DFS per
developer, in developer order. -/
def devToReachableFilesOf (s : HGState) : List (String × List String) :=
  (getDevelopers s).map
    (fun d => (d, findReachableFiles s.G s.cfg.graphRange (s.dm.firstDate.getD 0)
      s.cfg.distanceLimit d))

/-- HistoryGraph.get_file_to_devs (recomputed form). -/
def fileToDevsOf (s : HGState) : List (String × List String) :=
  (devToReachableFilesOf s).foldl
    (fun acc p => p.2.foldl (fun acc2 f => dictAdd acc2 f p.1) acc) []

/-- HistoryGraph.get_dev_to_rare_files (recomputed form): the files reached
by exactly one developer, bucketed per that developer. -/
def devToRareFilesOf (s : HGState) : List (String × List String) :=
  (fileToDevsOf s).foldl
    (fun acc p => match p.2 with
      | [d] => dictAdd acc d p.1
      | _ => acc) []

/-- HistoryGraph.get_num_rare_files. -/
def numRareFilesOf (s : HGState) : Nat :=
  ((devToRareFilesOf s).map (fun p => p.2.length)).sum

/-- HistoryGraph._sort_and_filter: stable sort by score descending, then keep
the entries whose score is at least the threshold. -/
def sortAndFilter (threshold : ℚ) (tbl : List (String × ℚ)) : List (String × ℚ) :=
  (tbl.mergeSort (fun a b => decide (b.2 ≤ a.2))).filter (fun p => decide (threshold ≤ p.2))

/-- The dev-to-file-coverage table built by HistoryGraph.get_jacks before
sorting and filtering; None models the ZeroDivisionError raised when the
file-count baseline is zero and the loop body runs. -/
def devToFileCoverage (s : HGState) : Option (List (String × ℚ)) :=
  let dtf := devToReachableFilesOf s
  if dtf = [] then some []
  else if s.numFilesInProject = 0 then none
  else some (dtf.map (fun p => (p.1, (p.2.length : ℚ) / (s.numFilesInProject : ℚ))))

/-- HistoryGraph.get_jacks. -/
def getJacks (s : HGState) : Option (List (String × ℚ)) :=
  (devToFileCoverage s).map (sortAndFilter s.cfg.scoreThreshold)

/-- The dev-to-mavenness table built by HistoryGraph.get_mavens before
sorting and filtering; None models the ZeroDivisionError raised when the
total rare-file count is zero and the loop body runs. -/
def devToMavenness (s : HGState) : Option (List (String × ℚ)) :=
  let dtr := devToRareFilesOf s
  if dtr = [] then some []
  else if numRareFilesOf s = 0 then none
  else some (dtr.map (fun p => (p.1, (p.2.length : ℚ) / (numRareFilesOf s : ℚ))))

/-- HistoryGraph.get_mavens. -/
def getMavens (s : HGState) : Option (List (String × ℚ)) :=
  (devToMavenness s).map (sortAndFilter s.cfg.scoreThreshold)

/-! ## Simple paths and the developer collaboration graph -/

/-- Depth-first enumeration of the simple paths that extend `path` (whose
last node is `cur`) by at most `b` further edges and end on a node of
`tgts`; the traversal does not stop at target nodes (nx.all_simple_paths). -/
def spAux (G : Graph) (tgts : List String) (path : List String) (cur : String) :
    Nat → List (List String)
  | 0 => []
  | b + 1 =>
    (neighbors G cur).foldr
      (fun ch acc =>
        (if ch ∈ path then []
         else
           (if ch ∈ tgts then [path ++ [ch]] else []) ++
             spAux G tgts (path ++ [ch]) ch b) ++ acc)
      []

/-- nx.all_simple_paths from a source to a set of targets with a cutoff on
the edge count. -/
def allSimplePaths (G : Graph) (src : String) (tgts : List String) (cutoff : Nat) :
    List (List String) :=
  spAux G tgts [src] src cutoff

/-- The path lengths recorded by _calculate_rsrd_distances under the ordered
pair (a, b): the lengths of the enumerated simple paths from a (towards the
other developers) that end at b, with cutoff 4. -/
def devPairLens (G : Graph) (devs : List String) (a b : String) : List Nat :=
  ((allSimplePaths G a (devs.filter (fun d => decide (d ≠ a))) 4).filter
    (fun p => decide (p.getLast? = some b))).map (fun p => p.length - 1)

/-- The RSRD value computed for one ordered developer pair: None when no path
was recorded; otherwise the reciprocal of the sum of reciprocal lengths
(guarded by the srd != 0 test). -/
def rsrdEntry (G : Graph) (devs : List String) (a b : String) : Option ℚ :=
  let lens := devPairLens G devs a b
  if lens = [] then none
  else
    let srd : ℚ := (lens.map (fun d : Nat => (1 : ℚ) / (d : ℚ))).sum
    if srd = 0 then none else some (1 / srd)

/-- itertools.combinations over a list: all ordered pairs (l[i], l[j]) with
i < j, in enumeration order. -/
def pairsOf {α : Type} : List α → List (α × α)
  | [] => []
  | x :: xs => xs.map (fun y => (x, y)) ++ pairsOf xs

/-- HistoryGraph._calculate_rsrd_distances: the RSRD dictionary over the
developer pairs. -/
def calcRsrd (s : HGState) : List ((String × String) × ℚ) :=
  let devs := (getDevelopers s).dedup
  (pairsOf devs).filterMap
    (fun p => (rsrdEntry s.G devs p.1 p.2).map (fun r => (p, r)))

/-- HistoryGraph.get_developer_graph: the edge list of the developer graph,
keeping the pairs with positive distance. -/
def getDeveloperGraph (s : HGState) : List ((String × String) × ℚ) :=
  (calcRsrd s).filter (fun e => decide (0 < e.2))

/-- Symmetric lookup of a pair in the developer graph edge list. -/
def devGLookup (es : List ((String × String) × ℚ)) (a b : String) : Option ℚ :=
  (es.find? (fun t => decide ((t.1.1 = a ∧ t.1.2 = b) ∨ (t.1.1 = b ∧ t.1.2 = a)))).map
    (fun t => t.2)

/-! ## Supporting lemmas: membership in the primitive graph operations -/

theorem mergeNode_mem_name (ns : List (String × Option String)) (a : String)
    (k : Option String) :
    ∀ p ∈ mergeNode ns a k, p ∈ ns ∨ p.1 = a := by
  induction ns with
  | nil =>
    intro p hp
    simp only [mergeNode, List.mem_singleton] at hp
    right; rw [hp]
  | cons q qs ih =>
    intro p hp
    simp only [mergeNode] at hp
    by_cases hq : q.1 = a
    · rw [if_pos hq] at hp
      rcases List.mem_cons.mp hp with h | h
      · right; rw [h]; exact hq
      · left; exact List.mem_cons_of_mem q h
    · rw [if_neg hq] at hp
      rcases List.mem_cons.mp hp with h | h
      · left; rw [h]; exact List.mem_cons_self q qs
      · rcases ih p h with h' | h'
        · left; exact List.mem_cons_of_mem q h'
        · right; exact h'

theorem upsertEdge_mem (es : List Edge) (u v : String) (dt : Option Nat)
    (ek : Option String) :
    ∀ e ∈ upsertEdge es u v dt ek,
      e ∈ es ∨ (∃ e₀ ∈ es, e.u = e₀.u ∧ e.v = e₀.v ∧ e.edate = dt ∧ e.ekind = ek) ∨
        (e.u = u ∧ e.v = v ∧ e.edate = dt ∧ e.ekind = ek) := by
  induction es with
  | nil =>
    intro e he
    simp only [upsertEdge, List.mem_singleton] at he
    right; right; rw [he]; exact ⟨rfl, rfl, rfl, rfl⟩
  | cons e₀ es ih =>
    intro e he
    simp only [upsertEdge] at he
    by_cases hp : e₀.isPair u v
    · rw [if_pos hp] at he
      rcases List.mem_cons.mp he with h | h
      · right; left
        exact ⟨e₀, List.mem_cons_self e₀ es, by rw [h], by rw [h], by rw [h], by rw [h]⟩
      · left; exact List.mem_cons_of_mem e₀ h
    · rw [if_neg hp] at he
      rcases List.mem_cons.mp he with h | h
      · left; rw [h]; exact List.mem_cons_self e₀ es
      · rcases ih e h with h' | h' | h'
        · left; exact List.mem_cons_of_mem e₀ h'
        · right; left
          obtain ⟨e₁, he₁, hh⟩ := h'
          exact ⟨e₁, List.mem_cons_of_mem e₀ he₁, hh⟩
        · right; right; exact h'

theorem removeNodesFrom_nodes_subset (G : Graph) (ns : List String) :
    ∀ p ∈ (G.removeNodesFrom ns).nodes, p ∈ G.nodes := by
  intro p hp
  exact List.mem_of_mem_filter hp

theorem removeNodesFrom_edges_subset (G : Graph) (ns : List String) :
    ∀ e ∈ (G.removeNodesFrom ns).edges, e ∈ G.edges := by
  intro e he
  exact List.mem_of_mem_filter he

theorem removeNodes_nodes_subset (G : Graph) (ns : List String) :
    ∀ p ∈ (G.removeNodes ns).nodes, p ∈ G.nodes := by
  intro p hp
  unfold Graph.removeNodes at hp
  by_cases h : ns = []
  · rw [if_pos h] at hp; exact hp
  · rw [if_neg h] at hp
    exact removeNodesFrom_nodes_subset _ _ p (removeNodesFrom_nodes_subset _ _ p hp)

theorem removeNodes_edges_subset (G : Graph) (ns : List String) :
    ∀ e ∈ (G.removeNodes ns).edges, e ∈ G.edges := by
  intro e he
  unfold Graph.removeNodes at he
  by_cases h : ns = []
  · rw [if_pos h] at he; exact he
  · rw [if_neg h] at he
    exact removeNodesFrom_edges_subset _ _ e (removeNodesFrom_edges_subset _ _ e he)

theorem mapName_nil (a : String) : mapName [] a = a := rfl

theorem foldl_mergeNode_mem (m : List (String × String))
    (l : List (String × Option String)) (init : List (String × Option String)) :
    ∀ p ∈ l.foldl (fun acc q => mergeNode acc (mapName m q.1) q.2) init,
      p ∈ init ∨ ∃ q ∈ l, p.1 = mapName m q.1 := by
  induction l generalizing init with
  | nil => intro p hp; left; exact hp
  | cons q qs ih =>
    intro p hp
    simp only [List.foldl_cons] at hp
    rcases ih (mergeNode init (mapName m q.1) q.2) p hp with h | h
    · rcases mergeNode_mem_name init (mapName m q.1) q.2 p h with h' | h'
      · left; exact h'
      · right; exact ⟨q, List.mem_cons_self q qs, h'⟩
    · obtain ⟨q', hq', hh⟩ := h
      right; exact ⟨q', List.mem_cons_of_mem q hq', hh⟩

theorem renameNodes_nodes_subset (G : Graph) (m : List (String × String)) :
    ∀ p ∈ (G.renameNodes m).nodes, ∃ q ∈ G.nodes, p.1 = mapName m q.1 := by
  intro p hp
  unfold Graph.renameNodes at hp
  by_cases h : m = []
  · rw [if_pos h] at hp
    subst h
    exact ⟨p, hp, rfl⟩
  · rw [if_neg h] at hp
    rcases foldl_mergeNode_mem m G.nodes [] p hp with h' | h'
    · simp at h'
    · exact h'

theorem upsertEdge_pres (P1 : String → String → Prop)
    (P2 : Option Nat → Option String → Prop) (es : List Edge) (u v : String)
    (dt : Option Nat) (ek : Option String)
    (hes : ∀ e ∈ es, P1 e.u e.v ∧ P2 e.edate e.ekind)
    (hu : P1 u v) (ha : P2 dt ek) :
    ∀ e ∈ upsertEdge es u v dt ek, P1 e.u e.v ∧ P2 e.edate e.ekind := by
  intro e he
  rcases upsertEdge_mem es u v dt ek e he with h | h | h
  · exact hes e h
  · obtain ⟨e₀, he₀, h1, h2, h3, h4⟩ := h
    refine ⟨?_, ?_⟩
    · rw [h1, h2]; exact (hes e₀ he₀).1
    · rw [h3, h4]; exact ha
  · obtain ⟨h1, h2, h3, h4⟩ := h
    refine ⟨?_, ?_⟩
    · rw [h1, h2]; exact hu
    · rw [h3, h4]; exact ha

theorem foldl_upsert_pres (P1 : String → String → Prop)
    (P2 : Option Nat → Option String → Prop) (m : List (String × String))
    (l : List Edge) (init : List Edge)
    (hinit : ∀ e ∈ init, P1 e.u e.v ∧ P2 e.edate e.ekind)
    (hl : ∀ e ∈ l, P1 (mapName m e.u) (mapName m e.v) ∧ P2 e.edate e.ekind) :
    ∀ e ∈ l.foldl
      (fun acc e0 => upsertEdge acc (mapName m e0.u) (mapName m e0.v) e0.edate e0.ekind)
      init, P1 e.u e.v ∧ P2 e.edate e.ekind := by
  induction l generalizing init with
  | nil => intro e he; exact hinit e he
  | cons e0 es ih =>
    intro e he
    simp only [List.foldl_cons] at he
    refine ih _ ?_ (fun e' he' => hl e' (List.mem_cons_of_mem e0 he')) e he
    exact upsertEdge_pres P1 P2 init (mapName m e0.u) (mapName m e0.v) e0.edate e0.ekind
      hinit (hl e0 (List.mem_cons_self e0 es)).1 (hl e0 (List.mem_cons_self e0 es)).2

theorem renameNodes_edges_subset (G : Graph) (m : List (String × String)) :
    ∀ e ∈ (G.renameNodes m).edges,
      (∃ e₁ ∈ G.edges, e.u = mapName m e₁.u ∧ e.v = mapName m e₁.v) ∧
        (∃ e₂ ∈ G.edges, e.edate = e₂.edate ∧ e.ekind = e₂.ekind) := by
  intro e he
  unfold Graph.renameNodes at he
  by_cases h : m = []
  · rw [if_pos h] at he
    subst h
    exact ⟨⟨e, he, rfl, rfl⟩, ⟨e, he, rfl, rfl⟩⟩
  · rw [if_neg h] at he
    refine foldl_upsert_pres
      (fun x y => ∃ e₁ ∈ G.edges, x = mapName m e₁.u ∧ y = mapName m e₁.v)
      (fun dt ek => ∃ e₂ ∈ G.edges, dt = e₂.edate ∧ ek = e₂.ekind)
      m G.edges [] (by simp) ?_ e he
    intro e' he'
    exact ⟨⟨e', he', rfl, rfl⟩, ⟨e', he', rfl, rfl⟩⟩

/-! ## Claim C4 -/

/-- C4: whenever the window manager cannot advance (the day after last_date
is not a bucketed date), forward_graph_one_day returns False and performs no
mutation whatsoever: the full HistoryGraph state (window bounds, graph,
file-count baseline, and all memoized per-window structures) is unchanged. -/
theorem c4_failed_advance_no_mutation (s : HGState) (l : Nat)
    (hl : s.dm.lastDate = some l) (hnext : hasDate s.dm (l + dayLen) = false) :
    forwardGraphOneDay s = (false, s) := by
  have hcs : canSlide s.dm = false := by
    unfold canSlide
    rw [hl]
    exact hnext
  unfold forwardGraphOneDay forwardOneDay
  rw [hcs]
  simp

/-- Witness for C4 at a concrete state: a one-day timeline whose window is
exhausted. -/
def c4State : HGState :=
  ⟨⟨1, 10, 50, 5 / 1000000⟩,
   ⟨[(dayLen - 1, [])], 1, some (dayLen - 1), some (dayLen - 1)⟩,
   Graph.empty, 0, CacheData.empty⟩

theorem c4_witness :
    c4State.dm.lastDate = some (dayLen - 1) ∧
      hasDate c4State.dm (dayLen - 1 + dayLen) = false ∧
      forwardGraphOneDay c4State = (false, c4State) := by
  refine ⟨rfl, by decide, ?_⟩
  exact c4_failed_advance_no_mutation c4State (dayLen - 1) rfl (by decide)

/-! ## Claim C5 -/

/-- C5: a change set whose add/modify file-target count exceeds the
large-change-set limit contributes no graph content at all: processing it is
exactly the application of its renames followed by its deletions, every node
of the result is a (possibly renamed) pre-existing node, and every edge of
the result has the endpoints of a (possibly renamed) pre-existing edge and
the attributes of a pre-existing edge; in particular no ChangeSet node,
Developer node, authored, touches or links edge is created for it. -/
theorem c5_large_change_set_skipped (lim : Nat) (G : Graph) (cs : ChangeSet)
    (hbig : lim < (filesAddModify cs).length) :
    applyChangeSet lim G cs =
        (G.renameNodes (renameDict cs)).removeNodes (filesDelete cs) ∧
      (∀ p ∈ (applyChangeSet lim G cs).nodes,
        ∃ q ∈ G.nodes, p.1 = mapName (renameDict cs) q.1) ∧
      (∀ e ∈ (applyChangeSet lim G cs).edges,
        (∃ e₁ ∈ G.edges,
          e.u = mapName (renameDict cs) e₁.u ∧ e.v = mapName (renameDict cs) e₁.v) ∧
        (∃ e₂ ∈ G.edges, e.edate = e₂.edate ∧ e.ekind = e₂.ekind)) := by
  have heq : applyChangeSet lim G cs =
      (G.renameNodes (renameDict cs)).removeNodes (filesDelete cs) := by
    unfold applyChangeSet
    rw [if_pos hbig]
  refine ⟨heq, ?_, ?_⟩
  · intro p hp
    rw [heq] at hp
    exact renameNodes_nodes_subset G (renameDict cs) p
      (removeNodes_nodes_subset _ _ p hp)
  · intro e he
    rw [heq] at he
    exact renameNodes_edges_subset G (renameDict cs) e
      (removeNodes_edges_subset _ _ e he)

/-- Witness change set for C5: two modified files against limit 1, together
with one rename and one delete. -/
def c5Cs : ChangeSet :=
  ⟨"C9", "d9", dayLen - 1, [],
   [⟨"A", "MODIFY", none⟩, ⟨"B", "MODIFY", none⟩, ⟨"R2", "RENAME", some "R1"⟩,
    ⟨"D1", "DELETE", none⟩], 4⟩

/-- Witness graph for C5. -/
def c5G : Graph :=
  ⟨[("R1", some "File"), ("D1", some "File"), ("C0", some "ChangeSet"),
    ("d0", some "Developer")],
   [⟨"d0", "C0", none, none⟩, ⟨"C0", "R1", some (dayLen - 1), some "include"⟩,
    ⟨"C0", "D1", some (dayLen - 1), some "include"⟩]⟩

theorem c5_witness :
    1 < (filesAddModify c5Cs).length ∧
      applyChangeSet 1 c5G c5Cs =
        (c5G.renameNodes (renameDict c5Cs)).removeNodes (filesDelete c5Cs) := by
  refine ⟨by decide, ?_⟩
  exact (c5_large_change_set_skipped 1 c5G c5Cs (by decide)).1

/-! ## Claims C9 and C8: maven scores -/

theorem foldl_pres {α β : Type} (P : β → Prop) (step : β → α → β)
    (h : ∀ b a, P b → P (step b a)) :
    ∀ (l : List α) (init : β), P init → P (l.foldl step init) := by
  intro l
  induction l with
  | nil => intro init h0; exact h0
  | cons a l ih =>
    intro init h0
    simp only [List.foldl_cons]
    exact ih (step init a) (h init a h0)

theorem dictAdd_snd_ne_nil {α β : Type} [DecidableEq α] (m : List (α × List β))
    (k : α) (x : β) (h : ∀ p ∈ m, p.2 ≠ []) :
    ∀ p ∈ dictAdd m k x, p.2 ≠ [] := by
  induction m with
  | nil =>
    intro p hp
    simp only [dictAdd, List.mem_singleton] at hp
    rw [hp]
    simp
  | cons q qs ih =>
    intro p hp
    simp only [dictAdd] at hp
    by_cases hq : q.1 = k
    · rw [if_pos hq] at hp
      rcases List.mem_cons.mp hp with h' | h'
      · rw [h']
        simp
      · exact h p (List.mem_cons_of_mem q h')
    · rw [if_neg hq] at hp
      rcases List.mem_cons.mp hp with h' | h'
      · rw [h']
        exact h q (List.mem_cons_self q qs)
      · exact ih (fun r hr => h r (List.mem_cons_of_mem q hr)) p h'

theorem fileToDevsOf_snd_ne_nil (s : HGState) :
    ∀ p ∈ fileToDevsOf s, p.2 ≠ [] := by
  unfold fileToDevsOf
  refine foldl_pres
    (fun acc : List (String × List String) => ∀ p ∈ acc, p.2 ≠ []) _ ?_ _ [] (by simp)
  intro acc q hacc
  refine foldl_pres
    (fun acc2 : List (String × List String) => ∀ p ∈ acc2, p.2 ≠ []) _ ?_ _ acc hacc
  intro acc2 f hacc2
  exact dictAdd_snd_ne_nil acc2 f q.1 hacc2

theorem devToRareFilesOf_snd_ne_nil (s : HGState) :
    ∀ p ∈ devToRareFilesOf s, p.2 ≠ [] := by
  unfold devToRareFilesOf
  refine foldl_pres
    (fun acc : List (String × List String) => ∀ p ∈ acc, p.2 ≠ []) _ ?_ _ [] (by simp)
  intro acc q hacc
  cases hq : q.2 with
  | nil => exact hacc
  | cons d ds =>
    cases ds with
    | nil => exact dictAdd_snd_ne_nil acc d q.1 hacc
    | cons d' ds' => exact hacc

/-- C9: when no file is rare window-wide, get_mavens returns the empty score
table (rather than failing with a division-by-zero error, which None would
model). -/
theorem c9_zero_rare_files_empty_mavens (s : HGState)
    (h : numRareFilesOf s = 0) : getMavens s = some [] := by
  have hdtr : devToRareFilesOf s = [] := by
    cases hd : devToRareFilesOf s with
    | nil => rfl
    | cons p rest =>
      exfalso
      have hne := devToRareFilesOf_snd_ne_nil s p (hd ▸ List.mem_cons_self p rest)
      have hlen : 0 < p.2.length := List.length_pos.mpr hne
      rw [numRareFilesOf, hd] at h
      simp only [List.map_cons, List.sum_cons] at h
      omega
  unfold getMavens devToMavenness
  rw [hdtr]
  simp [sortAndFilter]

/-- Witness state for C9: two developers each authoring a commit that touches
the same file, so the file is reached by both and nothing is rare. -/
def c9State : HGState :=
  ⟨⟨1, 10, 50, 5 / 1000000⟩,
   ⟨[(dayLen - 1,
      [⟨"C1", "d1", dayLen - 1, [], [⟨"F1", "ADD", none⟩], 1⟩,
       ⟨"C2", "d2", dayLen - 1, [], [⟨"F1", "MODIFY", none⟩], 1⟩])], 1,
     some (dayLen - 1), some (dayLen - 1)⟩,
   ⟨[("C1", some "ChangeSet"), ("d1", some "Developer"), ("F1", some "File"),
     ("C2", some "ChangeSet"), ("d2", some "Developer")],
    [⟨"d1", "C1", none, none⟩, ⟨"C1", "F1", some (dayLen - 1), some "include"⟩,
     ⟨"d2", "C2", none, none⟩, ⟨"C2", "F1", some (dayLen - 1), some "include"⟩]⟩,
   1, CacheData.empty⟩

theorem c9_witness :
    numRareFilesOf c9State = 0 ∧ getMavens c9State = some [] := by
  have h : numRareFilesOf c9State = 0 := by
    simp [numRareFilesOf, devToRareFilesOf, fileToDevsOf, devToReachableFilesOf,
      getDevelopers, filterNodesByKind, findReachableFiles, dfsLoop, neighbors,
      calcDistance, whichDay, edgeDateOf, nodeKind, c9State, dayLen, dictAdd,
      Edge.isPair, Function.comp]
    norm_num [dictAdd]
  exact ⟨h, c9_zero_rare_files_empty_mavens c9State h⟩

/-- C8: when the total number of rare files is positive, the maven scores of
all developers, taken before sorting and threshold filtering, sum to exactly
one. -/
theorem c8_maven_scores_sum_one (s : HGState) (h : 0 < numRareFilesOf s) :
    ∃ tbl, devToMavenness s = some tbl ∧ (tbl.map (fun p => p.2)).sum = 1 := by
  have hdtr : devToRareFilesOf s ≠ [] := by
    intro he
    rw [numRareFilesOf, he] at h
    simp at h
  have hN : ((numRareFilesOf s : ℕ) : ℚ) ≠ 0 := Nat.cast_ne_zero.mpr h.ne'
  refine ⟨(devToRareFilesOf s).map
    (fun p => (p.1, (p.2.length : ℚ) / (numRareFilesOf s : ℚ))), ?_, ?_⟩
  · unfold devToMavenness
    rw [if_neg hdtr, if_neg h.ne']
  · rw [List.map_map]
    have hcomp :
        ((fun p : String × ℚ => p.2) ∘
          (fun p : String × List String =>
            (p.1, (p.2.length : ℚ) / (numRareFilesOf s : ℚ)))) =
        (fun p : String × List String =>
          (p.2.length : ℚ) * ((numRareFilesOf s : ℚ))⁻¹) := by
      funext p
      simp [div_eq_mul_inv]
    rw [hcomp, List.sum_map_mul_right]
    have hsum : ((devToRareFilesOf s).map
        (fun p : String × List String => (p.2.length : ℚ))).sum =
        ((numRareFilesOf s : ℕ) : ℚ) := by
      rw [numRareFilesOf, Nat.cast_list_sum, List.map_map]
      congr 1
    rw [hsum, mul_inv_cancel₀ hN]

/-- Witness state for C8: a single developer reaching a single file, which is
therefore rare; its maven score is 1 and the table sums to 1. -/
def c8State : HGState :=
  ⟨⟨1, 10, 50, 5 / 1000000⟩,
   ⟨[(dayLen - 1, [⟨"C1", "d1", dayLen - 1, [], [⟨"F1", "ADD", none⟩], 1⟩])], 1,
     some (dayLen - 1), some (dayLen - 1)⟩,
   ⟨[("C1", some "ChangeSet"), ("d1", some "Developer"), ("F1", some "File")],
    [⟨"d1", "C1", none, none⟩, ⟨"C1", "F1", some (dayLen - 1), some "include"⟩]⟩,
   1, CacheData.empty⟩

theorem c8_witness :
    0 < numRareFilesOf c8State ∧
      ∃ tbl, devToMavenness c8State = some tbl ∧
        (tbl.map (fun p => p.2)).sum = 1 := by
  have h : numRareFilesOf c8State = 1 := by
    simp [numRareFilesOf, devToRareFilesOf, fileToDevsOf, devToReachableFilesOf,
      getDevelopers, filterNodesByKind, findReachableFiles, dfsLoop, neighbors,
      calcDistance, whichDay, edgeDateOf, nodeKind, c8State, dayLen, dictAdd,
      Edge.isPair, Function.comp]
    norm_num [dictAdd]
  have hpos : 0 < numRareFilesOf c8State := by rw [h]; norm_num
  exact ⟨hpos, c8_maven_scores_sum_one c8State hpos⟩

/-! ## Claim C2: lemmas about bucket construction -/

theorem dictAdd_ne_nil {α β : Type} [DecidableEq α] (m : List (α × List β))
    (k : α) (x : β) : dictAdd m k x ≠ [] := by
  cases m with
  | nil => simp [dictAdd]
  | cons q qs =>
    simp only [dictAdd]
    by_cases hq : q.1 = k
    · rw [if_pos hq]; simp
    · rw [if_neg hq]; simp

theorem dictAdd_keys {α β : Type} [DecidableEq α] (m : List (α × List β))
    (k : α) (x : β) :
    (dictAdd m k x).map Prod.fst =
      if k ∈ m.map Prod.fst then m.map Prod.fst else m.map Prod.fst ++ [k] := by
  induction m with
  | nil => simp [dictAdd]
  | cons q qs ih =>
    simp only [dictAdd, List.map_cons]
    by_cases hq : q.1 = k
    · rw [if_pos hq, if_pos (by simp [hq])]
      simp
    · rw [if_neg hq]
      simp only [List.map_cons, ih]
      by_cases hk : k ∈ qs.map Prod.fst
      · rw [if_pos hk, if_pos (by simp [hk])]
      · rw [if_neg hk, if_neg (by
          simp only [List.mem_cons]
          rintro (h | h)
          · exact hq h.symm
          · exact hk h)]
        simp

theorem dictAdd_keys_mem {α β : Type} [DecidableEq α] (m : List (α × List β))
    (k : α) (x : β) (k' : α) :
    k' ∈ (dictAdd m k x).map Prod.fst ↔ k' ∈ m.map Prod.fst ∨ k' = k := by
  rw [dictAdd_keys]
  by_cases hk : k ∈ m.map Prod.fst
  · rw [if_pos hk]
    constructor
    · intro h; exact Or.inl h
    · rintro (h | h)
      · exact h
      · rw [h]; exact hk
  · rw [if_neg hk]
    simp

theorem dictAdd_keys_nodup {α β : Type} [DecidableEq α] (m : List (α × List β))
    (k : α) (x : β) (h : (m.map Prod.fst).Nodup) :
    ((dictAdd m k x).map Prod.fst).Nodup := by
  rw [dictAdd_keys]
  by_cases hk : k ∈ m.map Prod.fst
  · rw [if_pos hk]; exact h
  · rw [if_neg hk]
    rw [List.nodup_append]
    exact ⟨h, List.nodup_singleton k, by simpa using hk⟩

theorem dictAdd_head_key {α β : Type} [DecidableEq α] (q : α × List β)
    (qs : List (α × List β)) (k : α) (x : β) :
    ((dictAdd (q :: qs) k x).map Prod.fst).head? = some q.1 := by
  have h := dictAdd_keys (q :: qs) k x
  rw [h]
  by_cases hk : k ∈ (q :: qs).map Prod.fst
  · rw [if_pos hk]; simp
  · rw [if_neg hk]; simp

theorem dictAdd_mem_cases {α β : Type} [DecidableEq α] (m : List (α × List β))
    (k : α) (x : β) (hnd : (m.map Prod.fst).Nodup) :
    ∀ kv ∈ dictAdd m k x,
      (kv ∈ m ∧ kv.1 ≠ k) ∨ (∃ l, (k, l) ∈ m ∧ kv = (k, l ++ [x])) ∨
        (kv = (k, [x]) ∧ k ∉ m.map Prod.fst) := by
  induction m with
  | nil =>
    intro kv hkv
    simp only [dictAdd, List.mem_singleton] at hkv
    right; right
    exact ⟨hkv, by simp⟩
  | cons q qs ih =>
    intro kv hkv
    simp only [dictAdd] at hkv
    simp only [List.map_cons, List.nodup_cons] at hnd
    by_cases hq : q.1 = k
    · rw [if_pos hq] at hkv
      rcases List.mem_cons.mp hkv with h | h
      · right; left
        refine ⟨q.2, ?_, ?_⟩
        · rw [← hq]; exact List.mem_cons_self q qs
        · rw [h, hq]
      · left
        refine ⟨List.mem_cons_of_mem q h, ?_⟩
        intro hk
        apply hnd.1
        rw [← hq] at hk
        rw [← hk]
        exact List.mem_map_of_mem Prod.fst h
    · rw [if_neg hq] at hkv
      rcases List.mem_cons.mp hkv with h | h
      · left
        exact ⟨h ▸ List.mem_cons_self q qs, by rw [h]; exact hq⟩
      · rcases ih hnd.2 kv h with h' | h' | h'
        · left; exact ⟨List.mem_cons_of_mem q h'.1, h'.2⟩
        · right; left
          obtain ⟨l, hl, he⟩ := h'
          exact ⟨l, List.mem_cons_of_mem q hl, he⟩
        · right; right
          refine ⟨h'.1, ?_⟩
          simp only [List.map_cons, List.mem_cons]
          rintro (hh | hh)
          · exact hq hh.symm
          · exact h'.2 hh

/-- The per-change-set step of buildBuckets. -/
def bbStep (m : List (Nat × List ChangeSet)) (cs : ChangeSet) :
    List (Nat × List ChangeSet) :=
  bucketAdd m (maxOfDay cs.date) (normCs cs)

theorem buildBuckets_eq_foldl (input : List ChangeSet) :
    buildBuckets input = input.foldl bbStep [] := rfl

theorem foldl_bbStep_ne_nil (css : List ChangeSet) (m : List (Nat × List ChangeSet))
    (hm : m ≠ []) : css.foldl bbStep m ≠ [] := by
  induction css generalizing m with
  | nil => exact hm
  | cons c rest ih =>
    simp only [List.foldl_cons]
    exact ih _ (dictAdd_ne_nil _ _ _)

theorem buildBuckets_ne_nil (c : ChangeSet) (css : List ChangeSet) :
    buildBuckets (c :: css) ≠ [] := by
  rw [buildBuckets_eq_foldl]
  simp only [List.foldl_cons]
  exact foldl_bbStep_ne_nil css _ (dictAdd_ne_nil _ _ _)

theorem foldl_bbStep_keys_mem (css : List ChangeSet) (m : List (Nat × List ChangeSet))
    (k : Nat) :
    k ∈ (css.foldl bbStep m).map Prod.fst ↔
      k ∈ m.map Prod.fst ∨ ∃ cs ∈ css, maxOfDay cs.date = k := by
  induction css generalizing m with
  | nil => simp
  | cons c rest ih =>
    simp only [List.foldl_cons]
    rw [ih]
    unfold bbStep bucketAdd
    rw [dictAdd_keys_mem]
    constructor
    · rintro ((h | h) | h)
      · exact Or.inl h
      · exact Or.inr ⟨c, List.mem_cons_self c rest, h.symm⟩
      · obtain ⟨cs, hcs, he⟩ := h
        exact Or.inr ⟨cs, List.mem_cons_of_mem c hcs, he⟩
    · rintro (h | h)
      · exact Or.inl (Or.inl h)
      · obtain ⟨cs, hcs, he⟩ := h
        rcases List.mem_cons.mp hcs with h' | h'
        · exact Or.inl (Or.inr (by rw [← h', he]))
        · exact Or.inr ⟨cs, h', he⟩

theorem buildBuckets_keys_mem (css : List ChangeSet) (k : Nat) :
    k ∈ (buildBuckets css).map Prod.fst ↔ ∃ cs ∈ css, maxOfDay cs.date = k := by
  rw [buildBuckets_eq_foldl, foldl_bbStep_keys_mem]
  simp

theorem foldl_bbStep_keys_nodup (css : List ChangeSet)
    (m : List (Nat × List ChangeSet)) (h : (m.map Prod.fst).Nodup) :
    ((css.foldl bbStep m).map Prod.fst).Nodup := by
  induction css generalizing m with
  | nil => exact h
  | cons c rest ih =>
    simp only [List.foldl_cons]
    exact ih _ (dictAdd_keys_nodup _ _ _ h)

theorem buildBuckets_keys_nodup (css : List ChangeSet) :
    ((buildBuckets css).map Prod.fst).Nodup := by
  rw [buildBuckets_eq_foldl]
  exact foldl_bbStep_keys_nodup css [] (by simp)

theorem foldl_bbStep_head_key (css : List ChangeSet) (q : Nat × List ChangeSet)
    (qs : List (Nat × List ChangeSet)) :
    ((css.foldl bbStep (q :: qs)).map Prod.fst).head? = some q.1 := by
  induction css generalizing q qs with
  | nil => simp
  | cons c rest ih =>
    simp only [List.foldl_cons]
    have hne := dictAdd_ne_nil (q :: qs) (maxOfDay c.date) (normCs c)
    have hh := dictAdd_head_key q qs (maxOfDay c.date) (normCs c)
    cases hd : dictAdd (q :: qs) (maxOfDay c.date) (normCs c) with
    | nil => exact absurd hd hne
    | cons q' qs' =>
      rw [hd] at hh
      simp only [List.map_cons, List.head?_cons, Option.some.injEq] at hh
      have hd' : bbStep (q :: qs) c = q' :: qs' := by
        unfold bbStep bucketAdd
        exact hd
      rw [hd', ih q' qs', hh]

theorem buildBuckets_head_key (c : ChangeSet) (css : List ChangeSet) :
    ((buildBuckets (c :: css)).map Prod.fst).head? = some (maxOfDay c.date) := by
  rw [buildBuckets_eq_foldl]
  simp only [List.foldl_cons]
  have : bbStep [] c = [(maxOfDay c.date, [normCs c])] := rfl
  rw [this]
  exact foldl_bbStep_head_key css (maxOfDay c.date, [normCs c]) []

theorem foldl_bbStep_content (css : List ChangeSet)
    (m : List (Nat × List ChangeSet)) (f : Nat → List ChangeSet)
    (hnd : (m.map Prod.fst).Nodup)
    (hm : ∀ kv ∈ m, kv.2 = f kv.1)
    (hmiss : ∀ k, k ∉ m.map Prod.fst → f k = []) :
    ∀ kv ∈ css.foldl bbStep m,
      kv.2 = f kv.1 ++
        (css.filter (fun cs => decide (maxOfDay cs.date = kv.1))).map normCs := by
  induction css generalizing m f with
  | nil =>
    intro kv hkv
    simp only [List.filter_nil, List.map_nil, List.append_nil, List.foldl_nil] at *
    exact hm kv hkv
  | cons c rest ih =>
    intro kv hkv
    simp only [List.foldl_cons] at hkv
    have key_c := maxOfDay c.date
    have hstep :
        kv.2 = (fun k => f k ++ if maxOfDay c.date = k then [normCs c] else []) kv.1 ++
          (rest.filter (fun cs => decide (maxOfDay cs.date = kv.1))).map normCs := by
      refine ih (bbStep m c)
        (fun k => f k ++ if maxOfDay c.date = k then [normCs c] else []) ?_ ?_ ?_ kv hkv
      · exact dictAdd_keys_nodup _ _ _ hnd
      · intro kv' hkv'
        show kv'.2 = f kv'.1 ++ if maxOfDay c.date = kv'.1 then [normCs c] else []
        rcases dictAdd_mem_cases m (maxOfDay c.date) (normCs c) hnd kv' hkv'
          with h | h | h
        · rw [hm kv' h.1, if_neg (fun he => h.2 he.symm)]
          simp
        · obtain ⟨l, hl, he⟩ := h
          have hlf : l = f (maxOfDay c.date) := hm (maxOfDay c.date, l) hl
          rw [he, ← hlf]
          simp
        · rw [h.1, hmiss _ h.2]
          simp
      · intro k hk
        show f k ++ (if maxOfDay c.date = k then [normCs c] else []) = []
        have h1 : k ∉ m.map Prod.fst := by
          intro hc
          apply hk
          show k ∈ (dictAdd m (maxOfDay c.date) (normCs c)).map Prod.fst
          rw [dictAdd_keys_mem]
          exact Or.inl hc
        have h2 : k ≠ maxOfDay c.date := by
          intro hc
          apply hk
          show k ∈ (dictAdd m (maxOfDay c.date) (normCs c)).map Prod.fst
          rw [dictAdd_keys_mem]
          exact Or.inr hc
        rw [hmiss k h1, if_neg (fun he => h2 he.symm)]
        simp
    rw [hstep]
    simp only [List.filter_cons]
    by_cases hc : maxOfDay c.date = kv.1
    · rw [if_pos hc]
      rw [if_pos (by simpa using hc)]
      simp [normCs, List.append_assoc]
    · rw [if_neg hc]
      rw [if_neg (by simpa using hc)]
      simp

theorem buildBuckets_content (css : List ChangeSet) :
    ∀ kv ∈ buildBuckets css,
      kv.2 = (css.filter (fun cs => decide (maxOfDay cs.date = kv.1))).map normCs := by
  intro kv hkv
  have := foldl_bbStep_content css [] (fun _ => []) (by simp) (by simp) (by simp)
    kv (by rwa [buildBuckets_eq_foldl] at hkv)
  simpa using this

theorem maxOfDay_mono {a b : Nat} (h : a ≤ b) : maxOfDay a ≤ maxOfDay b := by
  simp only [maxOfDay, dayLen]
  have := Nat.div_le_div_right (c := 86400) h
  omega

theorem pairwise_rel_getLast? {α : Type} (r : α → α → Prop)
    (hrefl : ∀ a, r a a) (l : List α) (hp : l.Pairwise r) (x : α) (hx : x ∈ l)
    (y : α) (hy : l.getLast? = some y) : r x y := by
  induction l with
  | nil => simp at hx
  | cons a rest ih =>
    cases rest with
    | nil =>
      simp at hx hy
      rw [hx, ← hy]
      exact hrefl a
    | cons b rest' =>
      rw [List.getLast?_cons_cons] at hy
      have hyl : y ∈ b :: rest' := by
        have := List.mem_of_mem_getLast? hy
        exact this
      rcases List.mem_cons.mp hx with h | h
      · rw [h]
        exact (List.pairwise_cons.mp hp).1 y hyl
      · exact ih (List.pairwise_cons.mp hp).2 h hy

theorem foldl_bbStep_keys_sorted (css : List ChangeSet)
    (m : List (Nat × List ChangeSet))
    (hs : (m.map Prod.fst).Pairwise (· < ·))
    (hb : ∀ k ∈ m.map Prod.fst, ∀ cs ∈ css, k ≤ maxOfDay cs.date)
    (hcss : css.Pairwise (fun a b => a.date ≤ b.date)) :
    ((css.foldl bbStep m).map Prod.fst).Pairwise (· < ·) := by
  induction css generalizing m with
  | nil => exact hs
  | cons c rest ih =>
    simp only [List.foldl_cons]
    have hkeys := dictAdd_keys m (maxOfDay c.date) (normCs c)
    have hkeys' : (bbStep m c).map Prod.fst =
        if maxOfDay c.date ∈ m.map Prod.fst then m.map Prod.fst
        else m.map Prod.fst ++ [maxOfDay c.date] := hkeys
    refine ih (bbStep m c) ?_ ?_ (List.pairwise_cons.mp hcss).2
    · rw [hkeys']
      by_cases hin : maxOfDay c.date ∈ m.map Prod.fst
      · rw [if_pos hin]; exact hs
      · rw [if_neg hin]
        rw [List.pairwise_append]
        refine ⟨hs, List.pairwise_singleton _ _, ?_⟩
        intro a ha b hb'
        rw [List.mem_singleton] at hb'
        rw [hb']
        have hle := hb a ha c (List.mem_cons_self c rest)
        have hne : a ≠ maxOfDay c.date := fun he => hin (he ▸ ha)
        omega
    · intro k hk cs hcs
      rw [hkeys'] at hk
      have hk' : k ∈ m.map Prod.fst ∨ k = maxOfDay c.date := by
        by_cases hin : maxOfDay c.date ∈ m.map Prod.fst
        · rw [if_pos hin] at hk; exact Or.inl hk
        · rw [if_neg hin] at hk
          rcases List.mem_append.mp hk with h | h
          · exact Or.inl h
          · exact Or.inr (List.mem_singleton.mp h)
      rcases hk' with h | h
      · exact hb k h cs (List.mem_cons_of_mem c hcs)
      · rw [h]
        exact maxOfDay_mono ((List.pairwise_cons.mp hcss).1 cs hcs)

theorem buildBuckets_keys_sorted (css : List ChangeSet)
    (hcss : css.Pairwise (fun a b => a.date ≤ b.date)) :
    ((buildBuckets css).map Prod.fst).Pairwise (· < ·) := by
  rw [buildBuckets_eq_foldl]
  exact foldl_bbStep_keys_sorted css [] (by simp) (by simp) hcss

theorem buildBuckets_keys_le_max (css : List ChangeSet)
    (hcss : css.Pairwise (fun a b => a.date ≤ b.date))
    (cl : ChangeSet) (hcl : css.getLast? = some cl) :
    ∀ k ∈ (buildBuckets css).map Prod.fst, k ≤ maxOfDay cl.date := by
  intro k hk
  obtain ⟨cs, hcs, he⟩ := (buildBuckets_keys_mem css k).mp hk
  rw [← he]
  refine maxOfDay_mono ?_
  exact pairwise_rel_getLast? (fun a b : ChangeSet => a.date ≤ b.date)
    (fun a => le_refl _) css hcss cs hcs cl hcl

theorem buildBuckets_max_mem (css : List ChangeSet)
    (cl : ChangeSet) (hcl : css.getLast? = some cl) :
    maxOfDay cl.date ∈ (buildBuckets css).map Prod.fst := by
  rw [buildBuckets_keys_mem]
  exact ⟨cl, List.mem_of_mem_getLast? hcl, rfl⟩

theorem buildBuckets_getLast_key (css : List ChangeSet)
    (hcss : css.Pairwise (fun a b => a.date ≤ b.date))
    (cl : ChangeSet) (hcl : css.getLast? = some cl) :
    ((buildBuckets css).map Prod.fst).getLast? = some (maxOfDay cl.date) := by
  have hne : css ≠ [] := by
    intro h; rw [h] at hcl; simp at hcl
  obtain ⟨c, rest, hcr⟩ := List.exists_cons_of_ne_nil hne
  have hbne : buildBuckets css ≠ [] := by
    rw [hcr]; exact buildBuckets_ne_nil c rest
  have hkne : (buildBuckets css).map Prod.fst ≠ [] := by
    simpa using hbne
  obtain ⟨y, hy⟩ : ∃ y, ((buildBuckets css).map Prod.fst).getLast? = some y := by
    cases hgl : ((buildBuckets css).map Prod.fst).getLast? with
    | none => exact absurd (List.getLast?_eq_none_iff.mp hgl) hkne
    | some y => exact ⟨y, rfl⟩
  have hymem : y ∈ (buildBuckets css).map Prod.fst := List.mem_of_mem_getLast? hy
  have h1 : y ≤ maxOfDay cl.date :=
    buildBuckets_keys_le_max css hcss cl hcl y hymem
  have h2 : maxOfDay cl.date ≤ y := by
    refine pairwise_rel_getLast? (fun a b : Nat => a ≤ b) (fun a => le_refl _)
      ((buildBuckets css).map Prod.fst) ?_ (maxOfDay cl.date)
      (buildBuckets_max_mem css cl hcl) y hy
    exact (buildBuckets_keys_sorted css hcss).imp (fun h => le_of_lt h)
  rw [hy]
  congr 1
  omega

theorem bucketTouch_eq_of_mem (m : List (Nat × List ChangeSet)) (d : Nat)
    (h : d ∈ m.map Prod.fst) : bucketTouch m d = m := by
  induction m with
  | nil => simp at h
  | cons q qs ih =>
    simp only [bucketTouch]
    by_cases hq : q.1 = d
    · rw [if_pos hq]
    · rw [if_neg hq]
      simp only [List.map_cons, List.mem_cons] at h
      rcases h with h | h
      · exact absurd h.symm hq
      · rw [ih h]

theorem bucketTouch_eq_of_not_mem (m : List (Nat × List ChangeSet)) (d : Nat)
    (h : d ∉ m.map Prod.fst) : bucketTouch m d = m ++ [(d, [])] := by
  induction m with
  | nil => simp [bucketTouch]
  | cons q qs ih =>
    simp only [List.map_cons, List.mem_cons] at h
    push_neg at h
    simp only [bucketTouch]
    rw [if_neg (fun he => h.1 he.symm)]
    rw [ih h.2]
    simp

theorem bucketTouch_keys_mem (m : List (Nat × List ChangeSet)) (d k : Nat) :
    k ∈ (bucketTouch m d).map Prod.fst ↔ k ∈ m.map Prod.fst ∨ k = d := by
  by_cases h : d ∈ m.map Prod.fst
  · rw [bucketTouch_eq_of_mem m d h]
    constructor
    · exact Or.inl
    · rintro (h' | h')
      · exact h'
      · rw [h']; exact h
  · rw [bucketTouch_eq_of_not_mem m d h]
    simp

theorem bucketTouch_keys_nodup (m : List (Nat × List ChangeSet)) (d : Nat)
    (h : (m.map Prod.fst).Nodup) : ((bucketTouch m d).map Prod.fst).Nodup := by
  by_cases hm : d ∈ m.map Prod.fst
  · rw [bucketTouch_eq_of_mem m d hm]; exact h
  · rw [bucketTouch_eq_of_not_mem m d hm]
    simp only [List.map_append, List.map_cons, List.map_nil]
    rw [List.nodup_append]
    exact ⟨h, List.nodup_singleton d, by simpa using hm⟩

theorem bucketTouch_mem_cases (m : List (Nat × List ChangeSet)) (d : Nat) :
    ∀ kv ∈ bucketTouch m d, kv ∈ m ∨ kv.2 = [] := by
  intro kv hkv
  by_cases hm : d ∈ m.map Prod.fst
  · rw [bucketTouch_eq_of_mem m d hm] at hkv
    exact Or.inl hkv
  · rw [bucketTouch_eq_of_not_mem m d hm] at hkv
    rcases List.mem_append.mp hkv with h | h
    · exact Or.inl h
    · right
      rw [List.mem_singleton.mp h]

theorem fillGaps_keys_mem (m : List (Nat × List ChangeSet)) (d last k : Nat) :
    k ∈ (fillGaps m d last).map Prod.fst ↔
      k ∈ m.map Prod.fst ∨ ∃ i, k = d + i * dayLen ∧ k < last := by
  induction m, d, last using fillGaps.induct with
  | case1 m d last hlt ih =>
    rw [fillGaps, if_pos hlt]
    rw [ih]
    rw [bucketTouch_keys_mem]
    constructor
    · rintro ((h | h) | ⟨i, hi, hk⟩)
      · exact Or.inl h
      · exact Or.inr ⟨0, by simpa using h, by omega⟩
      · refine Or.inr ⟨i + 1, ?_, hk⟩
        simp only [dayLen] at hi ⊢
        omega
    · rintro (h | ⟨i, hi, hk⟩)
      · exact Or.inl (Or.inl h)
      · cases i with
        | zero => exact Or.inl (Or.inr (by simpa using hi))
        | succ j =>
          refine Or.inr ⟨j, ?_, hk⟩
          simp only [dayLen] at hi ⊢
          omega
  | case2 m d last hge =>
    rw [fillGaps, if_neg hge]
    constructor
    · exact Or.inl
    · rintro (h | ⟨i, hi, hk⟩)
      · exact h
      · exfalso
        simp only [dayLen] at hi
        omega

theorem fillGaps_keys_nodup (m : List (Nat × List ChangeSet)) (d last : Nat)
    (h : (m.map Prod.fst).Nodup) :
    ((fillGaps m d last).map Prod.fst).Nodup := by
  induction m, d, last using fillGaps.induct with
  | case1 m d last hlt ih =>
    rw [fillGaps, if_pos hlt]
    exact ih (bucketTouch_keys_nodup m d h)
  | case2 m d last hge =>
    rw [fillGaps, if_neg hge]
    exact h

theorem fillGaps_mem_cases (m : List (Nat × List ChangeSet)) (d last : Nat) :
    ∀ kv ∈ fillGaps m d last,
      kv ∈ m ∨ (kv.2 = [] ∧ kv.1 ∉ m.map Prod.fst) := by
  induction m, d, last using fillGaps.induct with
  | case1 m d last hlt ih =>
    intro kv hkv
    rw [fillGaps, if_pos hlt] at hkv
    rcases ih kv hkv with h | h
    · by_cases hm : d ∈ m.map Prod.fst
      · rw [bucketTouch_eq_of_mem m d hm] at h
        exact Or.inl h
      · rw [bucketTouch_eq_of_not_mem m d hm] at h
        rcases List.mem_append.mp h with h' | h'
        · exact Or.inl h'
        · right
          have he := List.mem_singleton.mp h'
          rw [he]
          exact ⟨rfl, hm⟩
    · right
      refine ⟨h.1, fun hc => h.2 ?_⟩
      rw [bucketTouch_keys_mem]
      exact Or.inl hc
  | case2 m d last hge =>
    intro kv hkv
    rw [fillGaps, if_neg hge] at hkv
    exact Or.inl hkv

theorem maxOfDay_mod (t : Nat) : maxOfDay t % dayLen = dayLen - 1 := by
  simp only [maxOfDay, dayLen]
  omega

/-- The contiguous ascending list of day keys m0, m0 + 1 day, ..., N entries. -/
def dayRange (m0 N : Nat) : List Nat :=
  (List.range N).map (fun i => m0 + i * dayLen)

theorem dayRange_mem (m0 N k : Nat) :
    k ∈ dayRange m0 N ↔ ∃ i < N, k = m0 + i * dayLen := by
  simp only [dayRange, List.mem_map, List.mem_range]
  constructor
  · rintro ⟨i, hi, he⟩
    exact ⟨i, hi, he.symm⟩
  · rintro ⟨i, hi, he⟩
    exact ⟨i, hi, he.symm⟩

theorem dayRange_sorted (m0 N : Nat) : (dayRange m0 N).Pairwise (· < ·) := by
  unfold dayRange
  refine List.Pairwise.map _ ?_ (List.pairwise_lt_range N)
  intro a b hab
  simp only [dayLen]
  omega

theorem dayRange_nodup (m0 N : Nat) : (dayRange m0 N).Nodup :=
  (dayRange_sorted m0 N).imp (fun h => Nat.ne_of_lt h)

theorem buildBuckets_keys_ge_min (c0 : ChangeSet) (rest : List ChangeSet)
    (hsort : (c0 :: rest).Pairwise (fun a b => a.date ≤ b.date)) :
    ∀ k ∈ (buildBuckets (c0 :: rest)).map Prod.fst, maxOfDay c0.date ≤ k := by
  intro k hk
  obtain ⟨cs, hcs, he⟩ := (buildBuckets_keys_mem _ k).mp hk
  rw [← he]
  refine maxOfDay_mono ?_
  rcases List.mem_cons.mp hcs with h | h
  · rw [h]
  · exact (List.pairwise_cons.mp hsort).1 cs h

/-- Timeline specification for chronologically ordered input: keys form the
contiguous ascending day range and buckets hold exactly the change sets of
their day in input order. -/
theorem timeline_spec_sorted (css : List ChangeSet)
    (c0 cl : ChangeSet) (hhead : css.head? = some c0)
    (hlast : css.getLast? = some cl)
    (hsort : css.Pairwise (fun a b => a.date ≤ b.date)) :
    ∃ tl, genTimeline css = some tl ∧
      tl.map Prod.fst = dayRange (maxOfDay c0.date)
        ((maxOfDay cl.date - maxOfDay c0.date) / dayLen + 1) ∧
      ∀ kv ∈ tl,
        kv.2 = (css.filter (fun cs => decide (maxOfDay cs.date = kv.1))).map normCs := by
  obtain ⟨rest, hcss⟩ : ∃ rest, css = c0 :: rest := by
    cases css with
    | nil => simp at hhead
    | cons a l =>
      simp only [List.head?_cons, Option.some.injEq] at hhead
      exact ⟨l, by rw [hhead]⟩
  have hbbne : buildBuckets css ≠ [] := by
    rw [hcss]; exact buildBuckets_ne_nil c0 rest
  cases hbb : buildBuckets css with
  | nil => exact absurd hbb hbbne
  | cons b0 bs =>
    set m0 := maxOfDay c0.date with hm0
    set mx := maxOfDay cl.date with hmx
    set N := (mx - m0) / dayLen + 1 with hN
    have hb0 : b0.1 = m0 := by
      have h1 := buildBuckets_head_key c0 rest
      rw [← hcss, hbb] at h1
      simp only [List.map_cons, List.head?_cons, Option.some.injEq] at h1
      exact h1
    have hgl : (((b0 :: bs).map Prod.fst).getLast?).getD 0 = mx := by
      have h1 := buildBuckets_getLast_key css hsort cl hlast
      rw [hbb] at h1
      rw [h1]
      rfl
    have htl : genTimeline css = some (sortByKey (fillGaps (b0 :: bs) m0 mx)) := by
      unfold genTimeline
      rw [hbb]
      show some (sortByKey (fillGaps (b0 :: bs) b0.1
        (((b0 :: bs).map Prod.fst).getLast?.getD 0))) =
        some (sortByKey (fillGaps (b0 :: bs) m0 mx))
      rw [hb0, hgl]
    refine ⟨_, htl, ?_, ?_⟩
    · -- key list equality
      have hnodupF : ((fillGaps (b0 :: bs) m0 mx).map Prod.fst).Nodup := by
        refine fillGaps_keys_nodup _ _ _ ?_
        rw [← hbb]
        exact buildBuckets_keys_nodup css
      have hmemF : ∀ k, k ∈ (fillGaps (b0 :: bs) m0 mx).map Prod.fst ↔
          k ∈ dayRange m0 N := by
        intro k
        rw [fillGaps_keys_mem, dayRange_mem]
        have hbbmem : ∀ k', k' ∈ (b0 :: bs).map Prod.fst ↔
            ∃ cs ∈ css, maxOfDay cs.date = k' := by
          intro k'
          rw [← hbb]
          exact buildBuckets_keys_mem css k'
        constructor
        · rintro (h | ⟨i, hi, hk⟩)
          · -- an original bucket key
            have hge : m0 ≤ k := by
              rw [hm0]
              refine buildBuckets_keys_ge_min c0 rest ?_ k ?_
              · rw [← hcss]; exact hsort
              · rw [← hcss, hbb]; exact h
            have hle : k ≤ mx := by
              rw [hmx]
              refine buildBuckets_keys_le_max css hsort cl hlast k ?_
              rw [hbb]; exact h
            obtain ⟨cs, _, he⟩ := (hbbmem k).mp h
            have hmod : k % dayLen = dayLen - 1 := by
              rw [← he]; exact maxOfDay_mod cs.date
            have hmod0 : m0 % dayLen = dayLen - 1 := maxOfDay_mod c0.date
            refine ⟨(k - m0) / dayLen, ?_, ?_⟩
            · simp only [hN, dayLen] at *
              omega
            · simp only [dayLen] at *
              omega
          · refine ⟨i, ?_, hi⟩
            have hge : m0 ≤ mx := by
              rw [hm0, hmx]
              exact maxOfDay_mono (pairwise_rel_getLast?
                (fun a b : ChangeSet => a.date ≤ b.date) (fun a => le_refl _)
                css hsort c0 (by rw [hcss]; exact List.mem_cons_self c0 rest)
                cl hlast)
            simp only [hN, dayLen] at *
            omega
        · rintro ⟨i, hi, he⟩
          have hmod0 : m0 % dayLen = dayLen - 1 := maxOfDay_mod c0.date
          have hmodx : mx % dayLen = dayLen - 1 := maxOfDay_mod cl.date
          have hge : m0 ≤ mx := by
            rw [hm0, hmx]
            exact maxOfDay_mono (pairwise_rel_getLast?
              (fun a b : ChangeSet => a.date ≤ b.date) (fun a => le_refl _)
              css hsort c0 (by rw [hcss]; exact List.mem_cons_self c0 rest)
              cl hlast)
          have hle : k ≤ mx := by
            simp only [hN, dayLen] at *
            omega
          by_cases hkx : k < mx
          · exact Or.inr ⟨i, he, hkx⟩
          · have hkeq : k = mx := by omega
            left
            rw [hbbmem k, hkeq, hmx]
            exact ⟨cl, List.mem_of_mem_getLast? hlast, rfl⟩
      have hperm1 : ((sortByKey (fillGaps (b0 :: bs) m0 mx)).map Prod.fst).Perm
          ((fillGaps (b0 :: bs) m0 mx).map Prod.fst) :=
        (List.mergeSort_perm _ _).map Prod.fst
      have hperm2 : ((fillGaps (b0 :: bs) m0 mx).map Prod.fst).Perm (dayRange m0 N) := by
        refine List.perm_of_nodup_nodup_toFinset_eq hnodupF (dayRange_nodup m0 N) ?_
        ext k
        simp only [List.mem_toFinset]
        exact hmemF k
      have hsorted1 : ((sortByKey (fillGaps (b0 :: bs) m0 mx)).map Prod.fst).Pairwise
          (· ≤ ·) := by
        have htrans : ∀ (a b c : Nat × List ChangeSet),
            (decide (a.1 ≤ b.1)) = true → (decide (b.1 ≤ c.1)) = true →
              (decide (a.1 ≤ c.1)) = true := by
          intro a b c hab hbc
          simp only [decide_eq_true_eq] at *
          omega
        have htot : ∀ (a b : Nat × List ChangeSet),
            ((decide (a.1 ≤ b.1)) || (decide (b.1 ≤ a.1))) = true := by
          intro a b
          simp only [Bool.or_eq_true, decide_eq_true_eq]
          omega
        have hs := List.sorted_mergeSort htrans htot (fillGaps (b0 :: bs) m0 mx)
        rw [List.pairwise_map]
        unfold sortByKey
        refine hs.imp ?_
        intro a b hab
        simpa using hab
      refine List.eq_of_perm_of_sorted (hperm1.trans hperm2) hsorted1 ?_
      exact (dayRange_sorted m0 N).imp (fun h => le_of_lt h)
    · -- bucket contents
      intro kv hkv
      have hkvF : kv ∈ fillGaps (b0 :: bs) m0 mx :=
        (List.mergeSort_perm _ _).mem_iff.mp hkv
      rcases fillGaps_mem_cases (b0 :: bs) m0 mx kv hkvF with h | h
      · rw [← hbb] at h
        exact buildBuckets_content css kv h
      · rw [h.1]
        have hnotkey : kv.1 ∉ (buildBuckets css).map Prod.fst := by
          rw [hbb]; exact h.2
        have hfil : css.filter (fun cs => decide (maxOfDay cs.date = kv.1)) = [] := by
          rw [List.filter_eq_nil_iff]
          intro cs hcs
          simp only [decide_eq_true_eq]
          intro he
          exact hnotkey ((buildBuckets_keys_mem css kv.1).mpr ⟨cs, hcs, he⟩)
        rw [hfil]
        simp

/-- C2, amended to chronologically ordered input: the timeline keys are
exactly the contiguous one-day-spaced ascending range from the earliest to
the latest normalized commit date (gap days included), and every bucket holds
exactly the change sets of its calendar day, in input order and with the
normalized date, gap days mapping to the empty list. -/
theorem c2_timeline_contiguous_sorted_input (css : List ChangeSet)
    (c0 cl : ChangeSet) (hhead : css.head? = some c0)
    (hlast : css.getLast? = some cl)
    (hsort : css.Pairwise (fun a b => a.date ≤ b.date)) :
    ∃ tl, genTimeline css = some tl ∧
      tl.map Prod.fst = dayRange (maxOfDay c0.date)
        ((maxOfDay cl.date - maxOfDay c0.date) / dayLen + 1) ∧
      ∀ kv ∈ tl,
        kv.2 = (css.filter (fun cs => decide (maxOfDay cs.date = kv.1))).map normCs :=
  timeline_spec_sorted css c0 cl hhead hlast hsort

/-- Counterexample input for C2 as stated: two change sets given out of
chronological order (day 2 first, then day 0), with no commit on day 1. -/
def c2csA : ChangeSet := ⟨"CA", "dA", 2 * dayLen, [], [⟨"X", "ADD", none⟩], 1⟩

/-- The second, earlier change set of the C2 counterexample input. -/
def c2csB : ChangeSet := ⟨"CB", "dB", 0, [], [⟨"Y", "ADD", none⟩], 1⟩

/-- C2 counterexample: on the unordered input [c2csA, c2csB] the timeline is
built, the earliest bucketed date (day 0) and the latest (day 2) are keys,
but the date one day after the earliest (day 1) is missing: the keys are not
contiguous, contradicting the claim for arbitrarily ordered input.  The gap
filling walks from the first to the last INSERTED key (day 2 down), not from
the earliest to the latest date. -/
theorem c2_counterexample :
    ∃ tl, genTimeline [c2csA, c2csB] = some tl ∧
      maxOfDay c2csB.date ∈ tl.map Prod.fst ∧
      maxOfDay c2csA.date ∈ tl.map Prod.fst ∧
      maxOfDay c2csB.date < maxOfDay c2csB.date + dayLen ∧
      maxOfDay c2csB.date + dayLen < maxOfDay c2csA.date ∧
      maxOfDay c2csB.date + dayLen ∉ tl.map Prod.fst := by
  refine ⟨[(maxOfDay c2csB.date, [normCs c2csB]), (maxOfDay c2csA.date, [normCs c2csA])],
    ?_, ?_, ?_, ?_, ?_, ?_⟩
  · show genTimeline [c2csA, c2csB] = _
    unfold genTimeline buildBuckets
    simp only [List.foldl_cons, List.foldl_nil, bucketAdd, dictAdd, c2csA, c2csB,
      normCs, maxOfDay, dayLen]
    norm_num
    rw [fillGaps, if_neg (by norm_num)]
    simp [sortByKey, List.mergeSort]
  · simp [c2csA, c2csB, maxOfDay, dayLen]
  · simp [c2csA, c2csB, maxOfDay, dayLen]
  · simp [c2csA, c2csB, maxOfDay, dayLen]
  · simp [c2csA, c2csB, maxOfDay, dayLen]
  · simp [c2csA, c2csB, maxOfDay, dayLen]

/-- Witness for the amended C2 theorem at a concrete sorted input: two change
sets two days apart produce the three-day contiguous timeline. -/
theorem c2_witness :
    ([c2csB, c2csA].head? = some c2csB ∧ [c2csB, c2csA].getLast? = some c2csA ∧
      ([c2csB, c2csA] : List ChangeSet).Pairwise (fun a b => a.date ≤ b.date)) ∧
    ∃ tl, genTimeline [c2csB, c2csA] = some tl ∧
      tl.map Prod.fst = dayRange (maxOfDay c2csB.date)
        ((maxOfDay c2csA.date - maxOfDay c2csB.date) / dayLen + 1) ∧
      ∀ kv ∈ tl,
        kv.2 = ([c2csB, c2csA].filter
          (fun cs => decide (maxOfDay cs.date = kv.1))).map normCs := by
  refine ⟨⟨rfl, rfl, ?_⟩, ?_⟩
  · refine List.pairwise_cons.mpr ⟨?_, ?_⟩
    · intro b hb
      rw [List.mem_singleton.mp hb]
      simp [c2csA, c2csB, dayLen]
    · simp
  · exact c2_timeline_contiguous_sorted_input [c2csB, c2csA] c2csB c2csA rfl rfl
      (by
        refine List.pairwise_cons.mpr ⟨?_, ?_⟩
        · intro b hb
          rw [List.mem_singleton.mp hb]
          simp [c2csA, c2csB, dayLen]
        · simp)

/-! ## Claim C3: iteration count and number of successful advances -/

theorem hasDate_iff (tl : List (Nat × List ChangeSet)) (w : Nat)
    (f l : Option Nat) (k : Nat) :
    hasDate ⟨tl, w, f, l⟩ k = true ↔ k ∈ tl.map Prod.fst := by
  unfold hasDate
  rw [List.any_eq_true]
  constructor
  · rintro ⟨p, hp, he⟩
    simp only [decide_eq_true_eq] at he
    rw [← he]
    exact List.mem_map_of_mem Prod.fst hp
  · intro h
    obtain ⟨p, hp, he⟩ := List.mem_map.mp h
    exact ⟨p, hp, by simp [he]⟩

theorem dayRange_mem_iff (m0 N j : Nat) :
    m0 + j * dayLen ∈ dayRange m0 N ↔ j < N := by
  rw [dayRange_mem]
  constructor
  · rintro ⟨i, hi, he⟩
    simp only [dayLen] at he
    omega
  · intro h
    exact ⟨j, h, rfl⟩

/-- Iterated forward_one_day: the state after k successful slides, or None as
soon as one raises SlidingNotPossible. -/
def dmIter : Nat → DMState → Option DMState
  | 0, d => some d
  | k + 1, d =>
    match forwardOneDay d with
    | some p => dmIter k p.2
    | none => none

theorem dmIter_peel (a : Nat) (d d' : DMState) (h : dmIter a d = some d') :
    ∀ c, dmIter (a + c) d = dmIter c d' := by
  induction a generalizing d with
  | zero =>
    simp only [dmIter, Option.some.injEq] at h
    rw [h]
    intro c
    simp
  | succ a ih =>
    intro c
    rw [show a + 1 + c = (a + c) + 1 from by omega]
    simp only [dmIter] at h ⊢
    cases hf : forwardOneDay d with
    | none => rw [hf] at h; simp at h
    | some p =>
      rw [hf] at h
      exact ih p.2 h c

/-- The window state after k slides from the initial position. -/
def dmAt (tl : List (Nat × List ChangeSet)) (w m0 k : Nat) : DMState :=
  ⟨tl, w, some (m0 + k * dayLen), some (m0 + (w - 1 + k) * dayLen)⟩

theorem dmAt_canSlide (tl : List (Nat × List ChangeSet)) (w m0 N k : Nat)
    (hkeys : tl.map Prod.fst = dayRange m0 N) (hw : 1 ≤ w) :
    canSlide (dmAt tl w m0 k) = true ↔ w + k < N := by
  unfold canSlide dmAt
  rw [hasDate_iff, hkeys]
  have h1 : (w - 1 + k) + 1 = w + k := by omega
  have harith : m0 + (w - 1 + k) * dayLen + dayLen = m0 + (w + k) * dayLen := by
    calc m0 + (w - 1 + k) * dayLen + dayLen
        = m0 + ((w - 1 + k) + 1) * dayLen := by ring
      _ = m0 + (w + k) * dayLen := by rw [h1]
  rw [harith, dayRange_mem_iff]

theorem dmAt_forward (tl : List (Nat × List ChangeSet)) (w m0 N k : Nat)
    (hkeys : tl.map Prod.fst = dayRange m0 N) (hw : 1 ≤ w) (hlt : w + k < N) :
    ∃ add rem, forwardOneDay (dmAt tl w m0 k) =
      some ((add, rem), dmAt tl w m0 (k + 1)) := by
  have hcan : canSlide (dmAt tl w m0 k) = true :=
    (dmAt_canSlide tl w m0 N k hkeys hw).mpr hlt
  refine ⟨bucketOf (dmAt tl w m0 k) (m0 + (w - 1 + k) * dayLen + dayLen),
    bucketOf (dmAt tl w m0 k) (m0 + k * dayLen), ?_⟩
  unfold forwardOneDay
  rw [hcan]
  show some ((bucketOf (dmAt tl w m0 k) (m0 + (w - 1 + k) * dayLen + dayLen),
      bucketOf (dmAt tl w m0 k) (m0 + k * dayLen)),
    (⟨tl, w, some (m0 + k * dayLen + dayLen),
      some (m0 + (w - 1 + k) * dayLen + dayLen)⟩ : DMState)) = _
  rw [show m0 + k * dayLen + dayLen = m0 + (k + 1) * dayLen from by ring]
  rw [show m0 + (w - 1 + k) * dayLen + dayLen = m0 + (w - 1 + (k + 1)) * dayLen from
    by ring]
  rfl

theorem dmIter_state (tl : List (Nat × List ChangeSet)) (w m0 N : Nat)
    (hkeys : tl.map Prod.fst = dayRange m0 N) (hw : 1 ≤ w) (hwN : w ≤ N) :
    ∀ k, k ≤ N - w → dmIter k (dmAt tl w m0 0) = some (dmAt tl w m0 k) := by
  intro k
  induction k with
  | zero => intro h; simp [dmIter]
  | succ k ih =>
    intro h
    have hk : k ≤ N - w := by omega
    have hlt : w + k < N := by omega
    obtain ⟨add, rem, hfwd⟩ := dmAt_forward tl w m0 N k hkeys hw hlt
    rw [show k + 1 = k + 1 from rfl]
    rw [dmIter_peel k _ _ (ih hk) 1]
    simp only [dmIter]
    rw [hfwd]

theorem dmIter_isSome_iff (tl : List (Nat × List ChangeSet)) (w m0 N : Nat)
    (hkeys : tl.map Prod.fst = dayRange m0 N) (hw : 1 ≤ w) (hwN : w ≤ N) :
    ∀ k, (dmIter k (dmAt tl w m0 0)).isSome = true ↔ k ≤ N - w := by
  intro k
  constructor
  · intro hs
    by_contra hgt
    push_neg at hgt
    have hk : k = (N - w) + ((k - (N - w) - 1) + 1) := by omega
    rw [hk, dmIter_peel (N - w) _ _ (dmIter_state tl w m0 N hkeys hw hwN (N - w)
      (le_refl _))] at hs
    simp only [dmIter] at hs
    have hcs : canSlide (dmAt tl w m0 (N - w)) = false := by
      cases h : canSlide (dmAt tl w m0 (N - w)) with
      | false => rfl
      | true =>
        exfalso
        have := (dmAt_canSlide tl w m0 N (N - w) hkeys hw).mp h
        omega
    have hfwd : forwardOneDay (dmAt tl w m0 (N - w)) = none := by
      unfold forwardOneDay
      rw [hcs]
      simp
    rw [hfwd] at hs
    simp at hs
  · intro hk
    rw [dmIter_state tl w m0 N hkeys hw hwN k hk]
    rfl

theorem dayRange_length (m0 N : Nat) : (dayRange m0 N).length = N := by
  simp [dayRange]

theorem dayRange_head? (m0 N : Nat) (h : 1 ≤ N) :
    (dayRange m0 N).head? = some m0 := by
  obtain ⟨n, hn⟩ : ∃ n, N = n + 1 := ⟨N - 1, by omega⟩
  subst hn
  unfold dayRange
  rw [List.range_succ_eq_map]
  simp

/-- C3: for a valid dataset (non-empty, chronologically ordered, spanning at
least window_size_days bucketed days), the number of possible iterations is
the number of distinct bucketed dates minus the window size plus one, and
from the initial window exactly IterationCount - 1 forward_one_day calls
succeed before the next one raises SlidingNotPossible: the k-fold iterate is
defined exactly for k up to (bucketed dates - window size). -/
theorem c3_iteration_count (css : List ChangeSet) (c0 cl : ChangeSet)
    (hhead : css.head? = some c0) (hlast : css.getLast? = some cl)
    (hsort : css.Pairwise (fun a b => a.date ≤ b.date))
    (w : Nat) (hw : 1 ≤ w) (tl : List (Nat × List ChangeSet))
    (htl : genTimeline css = some tl) (hspan : w ≤ tl.length) :
    ∃ csList d1, getInitialWindow ⟨tl, w, none, none⟩ = some (csList, d1) ∧
      numPossibleIterations d1 = (tl.length : Int) - w + 1 ∧
      ∀ k, (dmIter k d1).isSome = true ↔ k ≤ tl.length - w := by
  obtain ⟨tl', htl', hkeys, _⟩ := timeline_spec_sorted css c0 cl hhead hlast hsort
  rw [htl'] at htl
  have htleq : tl' = tl := Option.some.inj htl
  rw [htleq] at hkeys
  set m0 := maxOfDay c0.date with hm0
  set N := (maxOfDay cl.date - m0) / dayLen + 1 with hN
  have hlen : tl.length = N := by
    have := congrArg List.length hkeys
    rwa [List.length_map, dayRange_length] at this
  have hwN : w ≤ N := by omega
  have hN1 : 1 ≤ N := by omega
  cases htlc : tl with
  | nil =>
    exfalso
    rw [htlc] at hlen
    simp at hlen
    omega
  | cons b0 bs =>
    subst htlc
    have hb0 : b0.1 = m0 := by
      have h1 := congrArg List.head? hkeys
      rw [dayRange_head? m0 N hN1] at h1
      simp only [List.map_cons, List.head?_cons, Option.some.injEq] at h1
      exact h1
    have hhd : hasDate ⟨b0 :: bs, w, none, none⟩ (b0.1 + (w - 1) * dayLen) = true := by
      rw [hasDate_iff, hkeys, hb0, dayRange_mem_iff]
      omega
    have hinit : getInitialWindow ⟨b0 :: bs, w, none, none⟩ =
        if hasDate ⟨b0 :: bs, w, none, none⟩ (b0.1 + (w - 1) * dayLen) = true then
          some ((((b0 :: bs).takeWhile
            (fun p => decide (p.1 ≤ b0.1 + (w - 1) * dayLen))).map Prod.snd).flatten,
            ⟨b0 :: bs, w, some b0.1, some (b0.1 + (w - 1) * dayLen)⟩)
        else none := rfl
    rw [hhd, if_pos rfl] at hinit
    refine ⟨_, _, hinit, rfl, ?_⟩
    have hstate : (⟨b0 :: bs, w, some b0.1,
        some (b0.1 + (w - 1) * dayLen)⟩ : DMState) = dmAt (b0 :: bs) w m0 0 := by
      unfold dmAt
      rw [hb0]
      rw [show m0 + 0 * dayLen = m0 from by ring]
      rw [show w - 1 + 0 = w - 1 from by ring]
    rw [hstate, hlen]
    exact dmIter_isSome_iff (b0 :: bs) w m0 N hkeys hw hwN

/-- The concrete three-day timeline of the C3 witness. -/
def c3tl : List (Nat × List ChangeSet) :=
  [(dayLen - 1, [normCs c2csB]), (2 * dayLen - 1, []), (3 * dayLen - 1, [normCs c2csA])]

theorem c3_witness :
    ([c2csB, c2csA].head? = some c2csB ∧ [c2csB, c2csA].getLast? = some c2csA ∧
      ([c2csB, c2csA] : List ChangeSet).Pairwise (fun a b => a.date ≤ b.date) ∧
      1 ≤ 2 ∧ genTimeline [c2csB, c2csA] = some c3tl ∧ 2 ≤ c3tl.length) ∧
    (∃ csList d1, getInitialWindow ⟨c3tl, 2, none, none⟩ = some (csList, d1) ∧
      numPossibleIterations d1 = (c3tl.length : Int) - 2 + 1 ∧
      ∀ k, (dmIter k d1).isSome = true ↔ k ≤ c3tl.length - 2) := by
  have hpw : ([c2csB, c2csA] : List ChangeSet).Pairwise
      (fun a b => a.date ≤ b.date) := by
    refine List.pairwise_cons.mpr ⟨?_, ?_⟩
    · intro b hb
      rw [List.mem_singleton.mp hb]
      simp [c2csA, c2csB, dayLen]
    · simp
  have htl : genTimeline [c2csB, c2csA] = some c3tl := by
    simp [genTimeline, buildBuckets, bbStep, bucketAdd, dictAdd, c2csA, c2csB,
      normCs, maxOfDay, dayLen, fillGaps, bucketTouch, sortByKey, List.mergeSort,
      c3tl]
  refine ⟨⟨rfl, rfl, hpw, by norm_num, htl, by simp [c3tl]⟩, ?_⟩
  exact c3_iteration_count [c2csB, c2csA] c2csB c2csA rfl rfl hpw 2 (by norm_num)
    c3tl htl (by simp [c3tl])

/-! ## Claim C6: rename semantics -/

theorem mergeNode_append_of_not_mem (ns : List (String × Option String))
    (a : String) (k : Option String) (h : a ∉ ns.map Prod.fst) :
    mergeNode ns a k = ns ++ [(a, k)] := by
  induction ns with
  | nil => simp [mergeNode]
  | cons q qs ih =>
    simp only [List.map_cons, List.mem_cons] at h
    push_neg at h
    simp only [mergeNode]
    rw [if_neg (fun he => h.1 he.symm)]
    rw [ih h.2]
    simp

theorem upsertEdge_append_of_no_pair (es : List Edge) (u v : String)
    (dt : Option Nat) (ek : Option String)
    (h : ∀ e ∈ es, ¬ e.isPair u v) :
    upsertEdge es u v dt ek = es ++ [⟨u, v, dt, ek⟩] := by
  induction es with
  | nil => simp [upsertEdge]
  | cons e es ih =>
    simp only [upsertEdge]
    rw [if_neg (h e (List.mem_cons_self e es))]
    rw [ih (fun e' he' => h e' (List.mem_cons_of_mem e he'))]
    simp

theorem foldl_merge_eq_append (f : String → String)
    (ns : List (String × Option String)) (init : List (String × Option String))
    (hdisj : ∀ b ∈ init.map Prod.fst, ∀ p ∈ ns, b ≠ f p.1)
    (hpw : (ns.map (fun p => f p.1)).Pairwise (· ≠ ·)) :
    ns.foldl (fun acc p => mergeNode acc (f p.1) p.2) init =
      init ++ ns.map (fun p => (f p.1, p.2)) := by
  induction ns generalizing init with
  | nil => simp
  | cons p ps ih =>
    simp only [List.foldl_cons, List.map_cons]
    have hnm : f p.1 ∉ init.map Prod.fst := by
      intro hc
      exact hdisj (f p.1) hc p (List.mem_cons_self p ps) rfl
    rw [mergeNode_append_of_not_mem init (f p.1) p.2 hnm]
    simp only [List.map_cons] at hpw
    have hpwc := List.pairwise_cons.mp hpw
    rw [ih (init ++ [(f p.1, p.2)]) ?_ hpwc.2]
    · simp
    · intro b hb q hq
      simp only [List.map_append, List.map_cons, List.map_nil, List.mem_append,
        List.mem_singleton] at hb
      rcases hb with hb | hb
      · exact hdisj b hb q (List.mem_cons_of_mem p hq)
      · rw [hb]
        exact hpwc.1 (f q.1) (List.mem_map_of_mem (fun r => f r.1) hq)

theorem foldl_upsert_eq_append (f : String → String) (es : List Edge)
    (init : List Edge)
    (hdisj : ∀ e' ∈ init, ∀ e ∈ es, ¬ e'.isPair (f e.u) (f e.v))
    (hpw : (es.map (fun e => Edge.mk (f e.u) (f e.v) e.edate e.ekind)).Pairwise
      (fun e1 e2 => ¬ e1.isPair e2.u e2.v)) :
    es.foldl (fun acc e => upsertEdge acc (f e.u) (f e.v) e.edate e.ekind) init =
      init ++ es.map (fun e => Edge.mk (f e.u) (f e.v) e.edate e.ekind) := by
  induction es generalizing init with
  | nil => simp
  | cons e es ih =>
    simp only [List.foldl_cons, List.map_cons]
    rw [upsertEdge_append_of_no_pair init (f e.u) (f e.v) e.edate e.ekind
      (fun e' he' => hdisj e' he' e (List.mem_cons_self e es))]
    simp only [List.map_cons] at hpw
    have hpwc := List.pairwise_cons.mp hpw
    have hih := ih (init ++ [Edge.mk (f e.u) (f e.v) e.edate e.ekind]) ?_ hpwc.2
    · rw [hih]
      simp
    · intro e' he' e2 he2
      rcases List.mem_append.mp he' with h | h
      · exact hdisj e' h e2 (List.mem_cons_of_mem e he2)
      · rw [List.mem_singleton.mp h]
        exact hpwc.1 (Edge.mk (f e2.u) (f e2.v) e2.edate e2.ekind)
          (List.mem_map_of_mem _ he2)

theorem mapName_single (a b x : String) :
    mapName [(a, b)] x = if x = a then b else x := by
  unfold mapName
  by_cases h : x = a
  · rw [if_pos h]
    simp [List.find?, h]
  · rw [if_neg h]
    simp only [List.find?]
    rw [show (decide (((a, b) : String × String).1 = x)) = false from by
      simp only [decide_eq_false_iff_not]
      exact fun he => h he.symm]

/-- Well-formedness of a graph as networkx maintains it: node names are
unique, edge endpoint pairs are unique (as unordered pairs), and every edge
endpoint is a node. -/
def WFGraph (G : Graph) : Prop :=
  (G.nodes.map Prod.fst).Nodup ∧
  (G.edges.Pairwise (fun e1 e2 => ¬ e1.isPair e2.u e2.v)) ∧
  (∀ e ∈ G.edges, e.u ∈ G.nodes.map Prod.fst ∧ e.v ∈ G.nodes.map Prod.fst)

/-- C6, amended with the proviso that the new name is not already a node of
the graph: renaming a File node present in the graph rewrites exactly that
node name, in the node list and in every edge endpoint, keeping every node
kind, every edge and every date/kind edge attribute; in particular the
renamed node keeps exactly the (relabeled) incident edges of the old node,
no edge is added or removed (the edge count is preserved), and all other
nodes and edges are untouched. -/
theorem c6_rename_relabels_in_place (G : Graph) (old new : String)
    (hwf : WFGraph G) (_hold : (old, some "File") ∈ G.nodes)
    (hnew : new ∉ G.nodes.map Prod.fst) :
    (G.renameNodes [(old, new)]).nodes =
        G.nodes.map (fun p => ((if p.1 = old then new else p.1), p.2)) ∧
      (G.renameNodes [(old, new)]).edges =
        G.edges.map (fun e => Edge.mk (if e.u = old then new else e.u)
          (if e.v = old then new else e.v) e.edate e.ekind) ∧
      (G.renameNodes [(old, new)]).edges.length = G.edges.length := by
  obtain ⟨hnd, hpwe, hcl⟩ := hwf
  have hmap : ∀ x, mapName [(old, new)] x = if x = old then new else x :=
    mapName_single old new
  have hinj : ∀ x ∈ G.nodes.map Prod.fst, ∀ y ∈ G.nodes.map Prod.fst,
      (if x = old then new else x) = (if y = old then new else y) → x = y := by
    intro x hx y hy he
    by_cases h1 : x = old
    · by_cases h2 : y = old
      · rw [h1, h2]
      · rw [if_pos h1, if_neg h2] at he
        exact absurd (he ▸ hy) hnew
    · by_cases h2 : y = old
      · rw [if_neg h1, if_pos h2] at he
        exact absurd (he.symm ▸ hx) hnew
      · rw [if_neg h1, if_neg h2] at he
        exact he
  have hne : ([(old, new)] : List (String × String)) ≠ [] := by simp
  have hnodes : (G.renameNodes [(old, new)]).nodes =
      G.nodes.map (fun p => ((if p.1 = old then new else p.1), p.2)) := by
    unfold Graph.renameNodes
    rw [if_neg hne]
    show G.nodes.foldl
      (fun acc p => mergeNode acc (mapName [(old, new)] p.1) p.2) [] = _
    rw [foldl_merge_eq_append (fun x => mapName [(old, new)] x) G.nodes []
      (by simp) ?_]
    · rw [List.nil_append]
      refine List.map_congr_left ?_
      intro p hp
      rw [hmap p.1]
    · have hmapeq : (G.nodes.map (fun p => mapName [(old, new)] p.1)) =
          (G.nodes.map Prod.fst).map (fun x => if x = old then new else x) := by
        rw [List.map_map]
        refine List.map_congr_left ?_
        intro p hp
        simp only [Function.comp]
        rw [hmap p.1]
      rw [hmapeq, List.pairwise_map]
      refine List.Pairwise.imp_of_mem ?_ hnd
      intro a b ha hb hab he
      exact hab (hinj a ha b hb he)
  have hedges : (G.renameNodes [(old, new)]).edges =
      G.edges.map (fun e => Edge.mk (if e.u = old then new else e.u)
        (if e.v = old then new else e.v) e.edate e.ekind) := by
    unfold Graph.renameNodes
    rw [if_neg hne]
    show G.edges.foldl (fun acc e => upsertEdge acc (mapName [(old, new)] e.u)
      (mapName [(old, new)] e.v) e.edate e.ekind) [] = _
    rw [foldl_upsert_eq_append (fun x => mapName [(old, new)] x) G.edges []
      (by simp) ?_]
    · rw [List.nil_append]
      refine List.map_congr_left ?_
      intro e he
      rw [hmap e.u, hmap e.v]
    · rw [List.pairwise_map]
      refine List.Pairwise.imp_of_mem ?_ hpwe
      intro e1 e2 he1 he2 hnp hp
      apply hnp
      unfold Edge.isPair at hp ⊢
      simp only [] at hp
      obtain ⟨hu1, hv1⟩ := hcl e1 he1
      obtain ⟨hu2, hv2⟩ := hcl e2 he2
      rw [hmap e1.u, hmap e1.v, hmap e2.u, hmap e2.v] at hp
      rcases hp with ⟨h1, h2⟩ | ⟨h1, h2⟩
      · exact Or.inl ⟨hinj e1.u hu1 e2.u hu2 h1, hinj e1.v hv1 e2.v hv2 h2⟩
      · exact Or.inr ⟨hinj e1.u hu1 e2.v hv2 h1, hinj e1.v hv1 e2.u hu2 h2⟩
  refine ⟨hnodes, hedges, ?_⟩
  rw [hedges, List.length_map]

/-- The concrete graph of the C6 counterexample: files a and b, change sets
c and d, and one touches edge to each file. -/
def c6G : Graph :=
  ⟨[("a", some "File"), ("b", some "File"), ("c", some "ChangeSet"),
    ("d", some "ChangeSet")],
   [⟨"c", "a", some 1, some "include"⟩, ⟨"d", "b", some 2, some "include"⟩]⟩

/-- C6 counterexample: renaming file a to the already-existing node name b
merges the two File nodes; the renamed node b then carries the edge from d,
which is not the relabeling of any edge that was incident to a, so the
renamed node does not keep exactly the incident edges the old node had. -/
theorem c6_counterexample :
    ("a", some "File") ∈ c6G.nodes ∧
      (⟨"d", "b", some 2, some "include"⟩ : Edge) ∈
        (c6G.renameNodes [("a", "b")]).edges ∧
      (∀ e ∈ c6G.edges, ¬ e.isPair "d" "a") := by
  refine ⟨by decide, ?_, by decide⟩
  show (⟨"d", "b", some 2, some "include"⟩ : Edge) ∈
    (c6G.renameNodes [("a", "b")]).edges
  decide

/-- Witness graph for the amended C6: one file, one change set, one touches
edge; file a is renamed to the fresh name b. -/
def c6W : Graph :=
  ⟨[("a", some "File"), ("c", some "ChangeSet")],
   [⟨"c", "a", some 1, some "include"⟩]⟩

theorem c6_witness :
    (WFGraph c6W ∧ ("a", some "File") ∈ c6W.nodes ∧
      "b" ∉ c6W.nodes.map Prod.fst) ∧
    ((c6W.renameNodes [("a", "b")]).nodes =
        c6W.nodes.map (fun p => ((if p.1 = "a" then "b" else p.1), p.2)) ∧
      (c6W.renameNodes [("a", "b")]).edges =
        c6W.edges.map (fun e => Edge.mk (if e.u = "a" then "b" else e.u)
          (if e.v = "a" then "b" else e.v) e.edate e.ekind) ∧
      (c6W.renameNodes [("a", "b")]).edges.length = c6W.edges.length) := by
  have hwf : WFGraph c6W := ⟨by decide, by decide, by decide⟩
  exact ⟨⟨hwf, by decide, by decide⟩,
    c6_rename_relabels_in_place c6W "a" "b" hwf (by decide) (by decide)⟩

/-! ## Claim C10: jack scores -/

theorem nodeKind_file_mem (G : Graph) (f : String)
    (h : nodeKind G f = some "File") : f ∈ filterNodesByKind G "File" := by
  unfold nodeKind at h
  cases hf : G.nodes.find? (fun p => decide (p.1 = f)) with
  | none => rw [hf] at h; simp at h
  | some p =>
    rw [hf] at h
    have hp1 : p.1 = f := by
      have := List.find?_some hf
      simpa using this
    have hpm : p ∈ G.nodes := List.mem_of_find?_eq_some hf
    unfold filterNodesByKind
    rw [← hp1]
    refine List.mem_map_of_mem Prod.fst ?_
    rw [List.mem_filter]
    refine ⟨hpm, ?_⟩
    have hp2 : p.2 = some "File" := h
    simp [hp2]

theorem dfsLoop_nodup_files (G : Graph) (w fd : Nat) (lim : ℚ) :
    ∀ (visited acc : List String) (stack : List (String × ℚ × List String)),
      acc.Nodup → (∀ f ∈ acc, f ∈ visited) →
      (∀ f ∈ acc, nodeKind G f = some "File") →
      ((dfsLoop G w fd lim visited acc stack).Nodup ∧
        ∀ f ∈ dfsLoop G w fd lim visited acc stack, nodeKind G f = some "File") := by
  intro visited acc stack
  induction visited, acc, stack using dfsLoop.induct G w fd lim with
  | case1 visited acc =>
    intro h1 h2 h3
    rw [dfsLoop]
    exact ⟨h1, h3⟩
  | case2 visited acc parent dist rest ih =>
    intro h1 h2 h3
    rw [dfsLoop]
    exact ih h1 h2 h3
  | case3 visited acc parent dist rest child more s hvis ih =>
    intro h1 h2 h3
    rw [dfsLoop]
    simp only [if_pos hvis]
    exact ih h1 h2 h3
  | case4 visited acc parent dist rest child more s hvis hcalc ih =>
    intro h1 h2 h3
    rw [dfsLoop]
    simp only [if_neg hvis, hcalc]
    exact ih h1 h2 h3
  | case5 visited acc parent dist rest child more s hvis dd hcalc d2v hlim ih =>
    intro h1 h2 h3
    rw [dfsLoop]
    simp only [if_neg hvis, hcalc]
    have hd2 : d2v = dist + dd := rfl
    rw [hd2] at hlim
    simp only [if_pos hlim]
    exact ih h1 h2 h3
  | case6 visited acc parent dist rest child more s hvis dd hcalc d2v hlim hdev ih =>
    intro h1 h2 h3
    rw [dfsLoop]
    simp only [if_neg hvis, hcalc]
    have hd2 : d2v = dist + dd := rfl
    rw [hd2] at hlim
    simp only [if_neg hlim, if_pos hdev]
    exact ih h1 h2 h3
  | case7 visited acc parent dist rest child more s hvis dd hcalc d2v hlim hdev accv ih =>
    intro h1 h2 h3
    rw [dfsLoop]
    simp only [if_neg hvis, hcalc]
    have hd2 : d2v = dist + dd := rfl
    rw [hd2] at hlim
    simp only [if_neg hlim, if_neg hdev]
    by_cases hk : nodeKind G child = some "File"
    · rw [if_pos hk]
      have ha : accv = acc ++ [child] := dif_pos hk
      rw [ha, hd2] at ih
      refine ih ?_ ?_ ?_
      · rw [List.nodup_append]
        refine ⟨h1, List.nodup_singleton child, ?_⟩
        intro a hax
        simp only [List.mem_singleton]
        intro he
        exact hvis (he ▸ h2 a hax)
      · intro f hf
        rcases List.mem_append.mp hf with h | h
        · exact List.mem_append.mpr (Or.inl (h2 f h))
        · rw [List.mem_singleton.mp h]
          exact List.mem_append.mpr (Or.inr (by simp))
      · intro f hf
        rcases List.mem_append.mp hf with h | h
        · exact h3 f h
        · rw [List.mem_singleton.mp h]
          exact hk
    · rw [if_neg hk]
      have ha : accv = acc := dif_neg hk
      rw [ha, hd2] at ih
      refine ih h1 ?_ h3
      intro f hf
      exact List.mem_append.mpr (Or.inl (h2 f hf))

theorem findReachableFiles_card (G : Graph) (w fd : Nat) (lim : ℚ) (d : String) :
    (findReachableFiles G w fd lim d).length ≤
      (filterNodesByKind G "File").length := by
  obtain ⟨hnd, hfk⟩ := dfsLoop_nodup_files G w fd lim [d] []
    [(d, 0, neighbors G d)] (by simp) (by simp) (by simp)

  have hsub : findReachableFiles G w fd lim d ⊆ filterNodesByKind G "File" := by
    intro f hf
    exact nodeKind_file_mem G f (hfk f hf)
  exact (hnd.subperm hsub).length_le

/-- C10, amended with the proviso that the project-file-count baseline is
positive and at least the number of File nodes in the graph: the jack table
is computed without failure and every developer's file-coverage score lies in
[0, 1]. -/
theorem c10_jack_scores_in_unit_interval (s : HGState)
    (hpos : 0 < s.numFilesInProject)
    (hbase : (filterNodesByKind s.G "File").length ≤ s.numFilesInProject) :
    ∃ tbl, devToFileCoverage s = some tbl ∧
      (∀ p ∈ tbl, 0 ≤ p.2 ∧ p.2 ≤ 1) ∧ (getJacks s).isSome = true := by
  by_cases hdtf : devToReachableFilesOf s = []
  · refine ⟨[], ?_, by simp, ?_⟩
    · unfold devToFileCoverage
      rw [if_pos hdtf]
    · unfold getJacks devToFileCoverage
      rw [if_pos hdtf]
      simp
  · have hcov : devToFileCoverage s = some ((devToReachableFilesOf s).map
        (fun p => (p.1, (p.2.length : ℚ) / (s.numFilesInProject : ℚ)))) := by
      unfold devToFileCoverage
      rw [if_neg hdtf, if_neg hpos.ne']
    refine ⟨_, hcov, ?_, ?_⟩
    · intro p hp
      obtain ⟨q, hq, he⟩ := List.mem_map.mp hp
      have hqlen : q.2.length ≤ s.numFilesInProject := by
        obtain ⟨d, hd, he2⟩ := List.mem_map.mp hq
        have : q.2 = findReachableFiles s.G s.cfg.graphRange
            (s.dm.firstDate.getD 0) s.cfg.distanceLimit d := by
          rw [← he2]
        rw [this]
        exact le_trans (findReachableFiles_card _ _ _ _ d) hbase
      rw [← he]
      constructor
      · positivity
      · rw [div_le_one (by exact_mod_cast hpos)]
        exact_mod_cast hqlen
    · unfold getJacks
      rw [hcov]
      simp

/-- A change set adding two files while recording a project file count of
one: the baseline the jack score divides by. -/
def c10cs : ChangeSet :=
  ⟨"C1", "d1", 0, [], [⟨"F1", "ADD", none⟩, ⟨"F2", "ADD", none⟩], 1⟩

/-- The HistoryGraph state produced by the initial window over [c10cs] with a
one-day window. -/
def c10BadState : HGState :=
  ⟨⟨1, 10, 50, 5 / 1000000⟩,
   ⟨[(dayLen - 1, [normCs c10cs])], 1, some (dayLen - 1), some (dayLen - 1)⟩,
   ⟨[("C1", some "ChangeSet"), ("d1", some "Developer"), ("F1", some "File"),
     ("F2", some "File")],
    [⟨"d1", "C1", none, none⟩, ⟨"C1", "F1", some (dayLen - 1), some "include"⟩,
     ⟨"C1", "F2", some (dayLen - 1), some "include"⟩]⟩,
   1, CacheData.empty⟩

/-- C10 counterexample: a valid window position (the initial window of a
one-day history) in which the sole developer reaches two files while the
project-file-count baseline taken from the last added change set is one, so
the jack score is 2, outside [0, 1]. -/
theorem c10_counterexample :
    mkHistoryGraph ⟨1, 10, 50, 5 / 1000000⟩ [c10cs] = some c10BadState ∧
      ∃ tbl, devToFileCoverage c10BadState = some tbl ∧
        ∃ p ∈ tbl, ¬ (0 ≤ p.2 ∧ p.2 ≤ 1) := by
  refine ⟨?_, ?_⟩
  · unfold mkHistoryGraph mkDataManager genTimeline buildBuckets
    simp only [List.foldl_cons, List.foldl_nil, bucketAdd, dictAdd, c10cs,
      normCs, maxOfDay, dayLen]
    norm_num
    rw [fillGaps, if_neg (by norm_num)]
    simp only [sortByKey, List.mergeSort, getInitialWindow, hasDate,
      Option.bind_eq_bind, Option.some_bind]
    norm_num
    simp [addChangeSets, applyChangeSet, renameDict, filesDelete,
      filesAddModify, Graph.renameNodes, Graph.removeNodes, Graph.addNode,
      Graph.ensureNode, Graph.addEdge, upsertEdge, mergeNode, Graph.empty,
      Edge.isPair, c10BadState, c10cs, normCs, maxOfDay, dayLen, mapName]
    norm_num
  · refine ⟨[("d1", 2)], ?_, ("d1", 2), by simp, by norm_num⟩
    have h : devToReachableFilesOf c10BadState = [("d1", ["F1", "F2"])] := by
      simp [devToReachableFilesOf, getDevelopers, filterNodesByKind,
        findReachableFiles, dfsLoop, neighbors, calcDistance, whichDay,
        edgeDateOf, nodeKind, c10BadState, dayLen, Edge.isPair, normCs, c10cs,
        maxOfDay, Function.comp]
    unfold devToFileCoverage
    rw [h]
    norm_num [c10BadState]

/-- Witness state for the amended C10: identical history but with a
consistent baseline of two project files. -/
def c10State : HGState :=
  ⟨⟨1, 10, 50, 5 / 1000000⟩,
   ⟨[(dayLen - 1,
      [⟨"C1", "d1", dayLen - 1, [],
        [⟨"F1", "ADD", none⟩, ⟨"F2", "ADD", none⟩], 2⟩])], 1,
     some (dayLen - 1), some (dayLen - 1)⟩,
   ⟨[("C1", some "ChangeSet"), ("d1", some "Developer"), ("F1", some "File"),
     ("F2", some "File")],
    [⟨"d1", "C1", none, none⟩, ⟨"C1", "F1", some (dayLen - 1), some "include"⟩,
     ⟨"C1", "F2", some (dayLen - 1), some "include"⟩]⟩,
   2, CacheData.empty⟩

theorem c10_witness :
    (0 < c10State.numFilesInProject ∧
      (filterNodesByKind c10State.G "File").length ≤ c10State.numFilesInProject) ∧
    ∃ tbl, devToFileCoverage c10State = some tbl ∧
      (∀ p ∈ tbl, 0 ≤ p.2 ∧ p.2 ≤ 1) ∧ (getJacks c10State).isSome = true := by
  have h1 : 0 < c10State.numFilesInProject := by norm_num [c10State]
  have h2 : (filterNodesByKind c10State.G "File").length ≤
      c10State.numFilesInProject := by
    simp [filterNodesByKind, c10State]
  exact ⟨⟨h1, h2⟩, c10_jack_scores_in_unit_interval c10State h1 h2⟩

/-! ## Claim C7: simple paths and the developer collaboration graph -/

theorem mem_foldr_append {A B : Type} (f : A -> List B) (l : List A) (p : B) :
    (p ∈ l.foldr (fun x acc => f x ++ acc) []) ↔ ∃ x ∈ l, p ∈ f x := by
  induction l with
  | nil => simp
  | cons x xs ih => simp [ih]

theorem neighbors_mem_iff_aux (es : List Edge) (a c : String) :
    (c ∈ es.foldr
      (fun e acc => if e.u = a then e.v :: acc else if e.v = a then e.u :: acc else acc)
      []) ↔ ∃ e ∈ es, e.isPair a c := by
  induction es with
  | nil => simp
  | cons e es ih =>
    simp only [List.foldr_cons]
    by_cases h1 : e.u = a
    · rw [if_pos h1]
      constructor
      · intro hc
        rcases List.mem_cons.mp hc with h | h
        · exact ⟨e, by simp, Or.inl ⟨h1, h.symm⟩⟩
        · obtain ⟨e2, he2, hp⟩ := ih.mp h
          exact ⟨e2, by simp [he2], hp⟩
      · rintro ⟨e2, he2, hp⟩
        rcases List.mem_cons.mp he2 with he | he
        · subst he
          rcases hp with ⟨hu, hv⟩ | ⟨hu, hv⟩
          · exact List.mem_cons.mpr (Or.inl hv.symm)
          · refine List.mem_cons.mpr (Or.inl ?_)
            rw [hv, ← hu, h1]
        · exact List.mem_cons.mpr (Or.inr (ih.mpr ⟨e2, he, hp⟩))
    · rw [if_neg h1]
      by_cases h2 : e.v = a
      · rw [if_pos h2]
        constructor
        · intro hc
          rcases List.mem_cons.mp hc with h | h
          · exact ⟨e, by simp, Or.inr ⟨h.symm, h2⟩⟩
          · obtain ⟨e2, he2, hp⟩ := ih.mp h
            exact ⟨e2, by simp [he2], hp⟩
        · rintro ⟨e2, he2, hp⟩
          rcases List.mem_cons.mp he2 with he | he
          · subst he
            rcases hp with ⟨hu, hv⟩ | ⟨hu, hv⟩
            · exact absurd hu h1
            · exact List.mem_cons.mpr (Or.inl hu.symm)
          · exact List.mem_cons.mpr (Or.inr (ih.mpr ⟨e2, he, hp⟩))
      · rw [if_neg h2]
        rw [ih]
        constructor
        · rintro ⟨e2, he2, hp⟩
          exact ⟨e2, by simp [he2], hp⟩
        · rintro ⟨e2, he2, hp⟩
          rcases List.mem_cons.mp he2 with he | he
          · subst he
            rcases hp with ⟨hu, hv⟩ | ⟨hu, hv⟩
            · exact absurd hu h1
            · exact absurd hv h2
          · exact ⟨e2, he, hp⟩

theorem mem_neighbors_iff (G : Graph) (a c : String) :
    c ∈ neighbors G a ↔ ∃ e ∈ G.edges, e.isPair a c :=
  neighbors_mem_iff_aux G.edges a c

theorem neighbors_symm (G : Graph) (a c : String) :
    c ∈ neighbors G a ↔ a ∈ neighbors G c := by
  rw [mem_neighbors_iff, mem_neighbors_iff]
  constructor
  · rintro ⟨e, he, hp⟩
    refine ⟨e, he, ?_⟩
    rcases hp with ⟨h1, h2⟩ | ⟨h1, h2⟩
    · exact Or.inr ⟨h1, h2⟩
    · exact Or.inl ⟨h1, h2⟩
  · rintro ⟨e, he, hp⟩
    refine ⟨e, he, ?_⟩
    rcases hp with ⟨h1, h2⟩ | ⟨h1, h2⟩
    · exact Or.inr ⟨h1, h2⟩
    · exact Or.inl ⟨h1, h2⟩

theorem neighbors_nodup_aux (a : String) : ∀ (es : List Edge),
    es.Pairwise (fun e1 e2 => ¬ e1.isPair e2.u e2.v) →
    (es.foldr
      (fun e acc => if e.u = a then e.v :: acc else if e.v = a then e.u :: acc else acc)
      []).Nodup := by
  intro es
  induction es with
  | nil => simp
  | cons e es ih =>
    intro hp
    rw [List.pairwise_cons] at hp
    obtain ⟨hhead, htail⟩ := hp
    simp only [List.foldr_cons]
    by_cases h1 : e.u = a
    · rw [if_pos h1]
      refine List.nodup_cons.mpr ⟨?_, ih htail⟩
      intro hmem
      obtain ⟨e2, he2, hp2⟩ := (neighbors_mem_iff_aux es a e.v).mp hmem
      apply hhead e2 he2
      rcases hp2 with ⟨hu, hv⟩ | ⟨hu, hv⟩
      · exact Or.inl ⟨by rw [h1, hu], hv.symm⟩
      · exact Or.inr ⟨by rw [h1, hv], hu.symm⟩
    · rw [if_neg h1]
      by_cases h2 : e.v = a
      · rw [if_pos h2]
        refine List.nodup_cons.mpr ⟨?_, ih htail⟩
        intro hmem
        obtain ⟨e2, he2, hp2⟩ := (neighbors_mem_iff_aux es a e.u).mp hmem
        apply hhead e2 he2
        rcases hp2 with ⟨hu, hv⟩ | ⟨hu, hv⟩
        · exact Or.inr ⟨hv.symm, by rw [h2, hu]⟩
        · exact Or.inl ⟨hu.symm, by rw [h2, hv]⟩
      · rw [if_neg h2]
        exact ih htail

theorem neighbors_nodup (G : Graph)
    (h : G.edges.Pairwise (fun e1 e2 => ¬ e1.isPair e2.u e2.v)) (a : String) :
    (neighbors G a).Nodup :=
  neighbors_nodup_aux a G.edges h

theorem spAux_mem_iff (G : Graph) (tgts : List String) :
    ∀ (n : Nat) (path : List String) (cur : String) (p : List String),
      p ∈ spAux G tgts path cur n ↔
        ∃ ext, p = path ++ ext ∧ ext ≠ [] ∧ ext.length ≤ n ∧
          (∀ x ∈ ext, x ∉ path) ∧ ext.Nodup ∧
          List.Chain (fun u v => v ∈ neighbors G u) cur ext ∧
          ∃ t, ext.getLast? = some t ∧ t ∈ tgts := by
  intro n
  induction n with
  | zero =>
    intro path cur p
    rw [spAux]
    constructor
    · intro h
      simp at h
    · rintro ⟨ext, _, hne, hlen, _⟩
      exact absurd (List.length_eq_zero.mp (Nat.le_zero.mp hlen)) hne
  | succ n ih =>
    intro path cur p
    rw [spAux]
    rw [mem_foldr_append]
    constructor
    · rintro ⟨ch, hch, hp⟩
      by_cases hchp : ch ∈ path
      · rw [if_pos hchp] at hp
        simp at hp
      · rw [if_neg hchp] at hp
        rcases List.mem_append.mp hp with hp1 | hp2
        · by_cases ht : ch ∈ tgts
          · rw [if_pos ht, List.mem_singleton] at hp1
            refine ⟨[ch], hp1, by simp, by simp, ?_,
              List.nodup_singleton ch, List.Chain.cons hch List.Chain.nil,
              ch, by simp, ht⟩
            intro x hx
            rw [List.mem_singleton.mp hx]
            exact hchp
          · rw [if_neg ht] at hp1
            simp at hp1
        · obtain ⟨ext2, he, hne, hlen, hnp, hnd, hchain, t, hlast, htg⟩ :=
            (ih (path ++ [ch]) ch p).mp hp2
          refine ⟨ch :: ext2, by rw [he]; simp, by simp, ?_, ?_, ?_,
            List.Chain.cons hch hchain, t, ?_, htg⟩
          · simpa using Nat.succ_le_succ hlen
          · intro x hx
            rcases List.mem_cons.mp hx with hx | hx
            · rw [hx]; exact hchp
            · intro hxp
              exact hnp x hx (List.mem_append.mpr (Or.inl hxp))
          · refine List.nodup_cons.mpr ⟨?_, hnd⟩
            intro hc
            exact hnp ch hc (by simp)
          · cases ext2 with
            | nil => exact absurd rfl hne
            | cons y ys =>
              rw [List.getLast?_cons_cons]
              exact hlast
    · rintro ⟨ext, hpe, hne, hlen, hnp, hnd, hchain, t, hlast, htg⟩
      cases ext with
      | nil => exact absurd rfl hne
      | cons e0 rest =>
        cases hchain with
        | cons hadj hchain2 =>
          refine ⟨e0, hadj, ?_⟩
          have he0p : e0 ∉ path := hnp e0 (by simp)
          rw [if_neg he0p]
          cases rest with
          | nil =>
            have hte : t = e0 := by
              simp only [List.getLast?_singleton, Option.some_inj] at hlast
              exact hlast.symm
            refine List.mem_append.mpr (Or.inl ?_)
            rw [if_pos (hte ▸ htg), List.mem_singleton]
            exact hpe
          | cons e1 rest2 =>
            refine List.mem_append.mpr (Or.inr ?_)
            rw [ih (path ++ [e0]) e0 p]
            refine ⟨e1 :: rest2, by rw [hpe]; simp, by simp, ?_, ?_,
              (List.nodup_cons.mp hnd).2, hchain2, t, ?_, htg⟩
            · have : (e0 :: e1 :: rest2).length ≤ n + 1 := hlen
              simp only [List.length_cons] at this ⊢
              omega
            · intro x hx hxm
              rcases List.mem_append.mp hxm with hxp | hxe
              · exact hnp x (List.mem_cons.mpr (Or.inr hx)) hxp
              · rw [List.mem_singleton.mp hxe] at hx
                exact (List.nodup_cons.mp hnd).1 hx
            · rw [List.getLast?_cons_cons] at hlast
              exact hlast

theorem nodup_foldr_append {A B : Type} (f : A -> List B) :
    ∀ (l : List A), l.Nodup → (∀ x ∈ l, (f x).Nodup) →
      (∀ x ∈ l, ∀ y ∈ l, x ≠ y → ∀ p ∈ f x, p ∉ f y) →
      (l.foldr (fun x acc => f x ++ acc) []).Nodup := by
  intro l
  induction l with
  | nil =>
    intro _ _ _
    simp
  | cons x xs ih =>
    intro hnd hfx hdisj
    simp only [List.foldr_cons]
    rw [List.nodup_append]
    refine ⟨hfx x (by simp), ?_, ?_⟩
    · refine ih (List.nodup_cons.mp hnd).2 (fun y hy => hfx y (by simp [hy])) ?_
      intro a ha b hb hab
      exact hdisj a (by simp [ha]) b (by simp [hb]) hab
    · intro p hpx hpfold
      obtain ⟨y, hy, hpy⟩ := (mem_foldr_append f xs p).mp hpfold
      have hxy : x ≠ y := fun he => (List.nodup_cons.mp hnd).1 (he ▸ hy)
      exact hdisj x (by simp) y (by simp [hy]) hxy p hpx hpy

theorem spAux_branch_key (G : Graph) (tgts : List String) (n : Nat)
    (path : List String) (ch : String) (q : List String)
    (hq : q ∈ (if ch ∈ path then []
       else (if ch ∈ tgts then [path ++ [ch]] else []) ++
         spAux G tgts (path ++ [ch]) ch n)) :
    (q.drop path.length).head? = some ch := by
  by_cases hchp : ch ∈ path
  · rw [if_pos hchp] at hq
    simp at hq
  · rw [if_neg hchp] at hq
    rcases List.mem_append.mp hq with h1 | h2
    · have hq1 : q = path ++ [ch] := by
        by_cases ht : ch ∈ tgts
        · rw [if_pos ht, List.mem_singleton] at h1
          exact h1
        · rw [if_neg ht] at h1
          simp at h1
      rw [hq1, List.drop_left]
      rfl
    · obtain ⟨ext, he, _⟩ := (spAux_mem_iff G tgts n (path ++ [ch]) ch q).mp h2
      rw [he, List.append_assoc, List.drop_left]
      rfl

theorem spAux_nodup (G : Graph) (tgts : List String)
    (hnb : ∀ x, (neighbors G x).Nodup) :
    ∀ (n : Nat) (path : List String) (cur : String),
      (spAux G tgts path cur n).Nodup := by
  intro n
  induction n with
  | zero =>
    intro path cur
    rw [spAux]
    exact List.nodup_nil
  | succ n ih =>
    intro path cur
    rw [spAux]
    apply nodup_foldr_append _ _ (hnb cur)
    · intro ch _
      by_cases hchp : ch ∈ path
      · rw [if_pos hchp]
        exact List.nodup_nil
      · rw [if_neg hchp]
        rw [List.nodup_append]
        refine ⟨?_, ih (path ++ [ch]) ch, ?_⟩
        · by_cases ht : ch ∈ tgts
          · rw [if_pos ht]
            exact List.nodup_singleton _
          · rw [if_neg ht]
            exact List.nodup_nil
        · intro q hq1 hq2
          have h1 : q = path ++ [ch] := by
            by_cases ht : ch ∈ tgts
            · rw [if_pos ht, List.mem_singleton] at hq1
              exact hq1
            · rw [if_neg ht] at hq1
              simp at hq1
          obtain ⟨ext, he, hne, _⟩ :=
            (spAux_mem_iff G tgts n (path ++ [ch]) ch q).mp hq2
          rw [h1] at he
          have hl := congrArg List.length he
          simp only [List.length_append, List.length_singleton] at hl
          have : ext.length = 0 := by omega
          exact hne (List.length_eq_zero.mp this)
    · intro x hx y hy hxy q hqx hqy
      have h1 := spAux_branch_key G tgts n path x q hqx
      have h2 := spAux_branch_key G tgts n path y q hqy
      rw [h1] at h2
      exact hxy (Option.some_inj.mp h2)

/-- A simple path from a to b in the graph: at least one edge, no repeated
node, consecutive nodes adjacent. -/
def isSimplePath (G : Graph) (a b : String) (p : List String) : Prop :=
  p.head? = some a ∧ p.getLast? = some b ∧ 2 ≤ p.length ∧ p.Nodup ∧
    p.Chain' (fun u v => v ∈ neighbors G u)

/-- The simple paths the code enumerates and records under the ordered pair
(a, b): paths from a, among the other developers of devs, with cutoff 4,
ending at b. -/
def pathEnum (G : Graph) (devs : List String) (a b : String) : List (List String) :=
  (allSimplePaths G a (devs.filter (fun d => decide (d ≠ a))) 4).filter
    (fun p => decide (p.getLast? = some b))

theorem devPairLens_eq_pathEnum (G : Graph) (devs : List String) (a b : String) :
    devPairLens G devs a b = (pathEnum G devs a b).map (fun p => p.length - 1) :=
  rfl

theorem pathEnum_mem_iff (G : Graph) (D : List String) (a b : String)
    (hb : b ∈ D) (hba : b ≠ a) (p : List String) :
    p ∈ pathEnum G D a b ↔ isSimplePath G a b p ∧ p.length ≤ 5 := by
  unfold pathEnum allSimplePaths
  rw [List.mem_filter, spAux_mem_iff, decide_eq_true_eq]
  constructor
  · rintro ⟨⟨ext, hpe, hne, hlen, hnp, hnd, hchain, t, hlast, htg⟩, hfil⟩
    subst hpe
    refine ⟨⟨by simp, hfil, ?_, ?_, ?_⟩, ?_⟩
    · have := List.length_pos.mpr hne
      simp only [List.singleton_append, List.length_cons]
      omega
    · rw [List.singleton_append]
      refine List.nodup_cons.mpr ⟨?_, hnd⟩
      intro hc
      exact hnp a hc (by simp)
    · rw [List.singleton_append]
      exact hchain
    · simp only [List.singleton_append, List.length_cons]
      omega
  · rintro ⟨⟨hh, hl, h2, hnd, hch⟩, h5⟩
    cases p with
    | nil => simp at hh
    | cons x ext =>
      have hx : x = a := by
        simp only [List.head?_cons, Option.some_inj] at hh
        exact hh
      subst hx
      have hne : ext ≠ [] := by
        intro he
        rw [he] at h2
        simp at h2
      refine ⟨⟨ext, by simp, hne, ?_, ?_, (List.nodup_cons.mp hnd).2, ?_, b, ?_, ?_⟩, hl⟩
      · simp only [List.length_cons] at h5
        omega
      · intro y hy hym
        rw [List.mem_singleton.mp hym] at hy
        exact (List.nodup_cons.mp hnd).1 hy
      · exact hch
      · cases ext with
        | nil => exact absurd rfl hne
        | cons y ys =>
          rw [List.getLast?_cons_cons] at hl
          exact hl
      · rw [List.mem_filter]
        exact ⟨hb, by simp [hba]⟩

theorem pathEnum_nodup (G : Graph) (D : List String) (a b : String)
    (hp : G.edges.Pairwise (fun e1 e2 => ¬ e1.isPair e2.u e2.v)) :
    (pathEnum G D a b).Nodup :=
  (spAux_nodup G _ (neighbors_nodup G hp) 4 [a] a).filter _

theorem isSimplePath_reverse (G : Graph) (a b : String) (p : List String)
    (h : isSimplePath G a b p) : isSimplePath G b a p.reverse := by
  obtain ⟨hh, hl, h2, hnd, hch⟩ := h
  refine ⟨?_, ?_, by simpa using h2, List.nodup_reverse.mpr hnd, ?_⟩
  · rw [List.head?_reverse]
    exact hl
  · rw [List.getLast?_reverse]
    exact hh
  · rw [List.chain'_reverse]
    exact hch.imp (fun x y hxy => (neighbors_symm G x y).mp hxy)

theorem pathEnum_reverse_perm (G : Graph) (D : List String) (a b : String)
    (hp : G.edges.Pairwise (fun e1 e2 => ¬ e1.isPair e2.u e2.v))
    (ha : a ∈ D) (hb : b ∈ D) (hab : a ≠ b) :
    ((pathEnum G D a b).map List.reverse).Perm (pathEnum G D b a) := by
  apply List.perm_of_nodup_nodup_toFinset_eq
  · exact (pathEnum_nodup G D a b hp).map List.reverse_injective
  · exact pathEnum_nodup G D b a hp
  · ext q
    rw [List.mem_toFinset, List.mem_toFinset, List.mem_map,
      pathEnum_mem_iff G D b a ha hab q]
    constructor
    · rintro ⟨p2, hp2, he⟩
      obtain ⟨hsp, h5⟩ := (pathEnum_mem_iff G D a b hb (Ne.symm hab) p2).mp hp2
      rw [← he]
      exact ⟨isSimplePath_reverse G a b p2 hsp, by simpa using h5⟩
    · rintro ⟨hsp, h5⟩
      refine ⟨q.reverse, ?_, by simp⟩
      rw [pathEnum_mem_iff G D a b hb (Ne.symm hab)]
      refine ⟨?_, by simpa using h5⟩
      have := isSimplePath_reverse G b a q hsp
      simpa using this

theorem devPairLens_perm (G : Graph) (D : List String) (a b : String)
    (hp : G.edges.Pairwise (fun e1 e2 => ¬ e1.isPair e2.u e2.v))
    (ha : a ∈ D) (hb : b ∈ D) (hab : a ≠ b) :
    (devPairLens G D a b).Perm (devPairLens G D b a) := by
  rw [devPairLens_eq_pathEnum, devPairLens_eq_pathEnum]
  have hperm := (pathEnum_reverse_perm G D a b hp ha hb hab).map
    (fun p : List String => p.length - 1)
  rw [List.map_map] at hperm
  have hc : ((fun p : List String => p.length - 1) ∘ List.reverse) =
      (fun p : List String => p.length - 1) := by
    funext p
    simp
  rw [hc] at hperm
  exact hperm

theorem pairsOf_mem {A : Type} : ∀ (l : List A) (a b : A),
    (a, b) ∈ pairsOf l → a ∈ l ∧ b ∈ l := by
  intro l
  induction l with
  | nil =>
    intro a b h
    simp [pairsOf] at h
  | cons x xs ih =>
    intro a b h
    rw [pairsOf] at h
    rcases List.mem_append.mp h with h1 | h2
    · obtain ⟨y, hy, he⟩ := List.mem_map.mp h1
      cases he
      exact ⟨by simp, by simp [hy]⟩
    · obtain ⟨ha, hb⟩ := ih a b h2
      exact ⟨by simp [ha], by simp [hb]⟩

theorem pairsOf_ne {A : Type} : ∀ (l : List A), l.Nodup → ∀ a b,
    (a, b) ∈ pairsOf l → a ≠ b := by
  intro l
  induction l with
  | nil =>
    intro _ a b h
    simp [pairsOf] at h
  | cons x xs ih =>
    intro hnd a b h
    rw [pairsOf] at h
    rcases List.mem_append.mp h with h1 | h2
    · obtain ⟨y, hy, he⟩ := List.mem_map.mp h1
      cases he
      intro hxy
      exact (List.nodup_cons.mp hnd).1 (hxy ▸ hy)
    · exact ih (List.nodup_cons.mp hnd).2 a b h2

theorem pairsOf_no_swap {A : Type} : ∀ (l : List A), l.Nodup → ∀ a b,
    (a, b) ∈ pairsOf l → (b, a) ∉ pairsOf l := by
  intro l
  induction l with
  | nil =>
    intro _ a b h
    simp [pairsOf] at h
  | cons x xs ih =>
    intro hnd a b hab hba
    rw [pairsOf] at hab hba
    have hx : x ∉ xs := (List.nodup_cons.mp hnd).1
    rcases List.mem_append.mp hab with h1 | h2
    · obtain ⟨y, hy, he⟩ := List.mem_map.mp h1
      simp only [Prod.mk.injEq] at he
      obtain ⟨hea, heb⟩ := he
      rcases List.mem_append.mp hba with g1 | g2
      · obtain ⟨z, hz, hez⟩ := List.mem_map.mp g1
        simp only [Prod.mk.injEq] at hez
        refine hx ?_
        rw [hez.1, ← heb]
        exact hy
      · refine hx ?_
        rw [hea]
        exact (pairsOf_mem xs b a g2).2
    · rcases List.mem_append.mp hba with g1 | g2
      · obtain ⟨z, hz, hez⟩ := List.mem_map.mp g1
        simp only [Prod.mk.injEq] at hez
        refine hx ?_
        rw [hez.1]
        exact (pairsOf_mem xs a b h2).2
      · exact ih (List.nodup_cons.mp hnd).2 a b h2 g2

theorem devGLookup_cases (f : String × String → Option ℚ) (a b : String) :
    ∀ (l : List (String × String)), (b, a) ∉ l →
      (∀ r, f (a, b) = some r → 0 < r) →
      devGLookup ((l.filterMap (fun p => (f p).map (fun r => (p, r)))).filter
          (fun e => decide (0 < e.2))) a b =
        (if (a, b) ∈ l then f (a, b) else none) := by
  intro l
  induction l with
  | nil =>
    intro _ _
    simp [devGLookup]
  | cons q l ih =>
    intro hswap hpos
    have hswap2 : (b, a) ∉ l := fun h => hswap (List.mem_cons.mpr (Or.inr h))
    have hqswap : q ≠ (b, a) := fun h => hswap (List.mem_cons.mpr (Or.inl h.symm))
    by_cases hq : q = (a, b)
    · subst hq
      cases hf : f (a, b) with
      | none =>
        rw [List.filterMap_cons_none (by rw [hf]; rfl), ih hswap2 hpos,
          if_pos (List.mem_cons_self _ _), hf]
        exact ite_self none
      | some r =>
        have hr := hpos r hf
        rw [List.filterMap_cons_some (by rw [hf]; rfl)]
        rw [List.filter_cons_of_pos (by simp [hr])]
        unfold devGLookup
        rw [List.find?_cons_of_pos _ (by simp)]
        simp [hf]
    · cases hf : f q with
      | none =>
        rw [List.filterMap_cons_none (by rw [hf]; rfl), ih hswap2 hpos]
        by_cases h : (a, b) ∈ l
        · rw [if_pos h, if_pos (List.mem_cons.mpr (Or.inr h))]
        · rw [if_neg h, if_neg ?_]
          intro hm
          rcases List.mem_cons.mp hm with hm1 | hm2
          · exact hq hm1.symm
          · exact h hm2
      | some r =>
        have hpred : ¬ (((q, r).1.1 = a ∧ (q, r).1.2 = b) ∨
            ((q, r).1.1 = b ∧ (q, r).1.2 = a)) := by
          rintro (⟨h1, h2⟩ | ⟨h1, h2⟩)
          · apply hq
            obtain ⟨q1, q2⟩ := q
            simp only at h1 h2
            rw [h1, h2]
          · apply hqswap
            obtain ⟨q1, q2⟩ := q
            simp only at h1 h2
            rw [h1, h2]
        rw [List.filterMap_cons_some (by rw [hf]; rfl)]
        by_cases hr : 0 < r
        · rw [List.filter_cons_of_pos (by simp [hr])]
          unfold devGLookup at ih ⊢
          rw [List.find?_cons_of_neg _ (by simpa using hpred), ih hswap2 hpos]
          by_cases h : (a, b) ∈ l
          · rw [if_pos h, if_pos (List.mem_cons.mpr (Or.inr h))]
          · rw [if_neg h, if_neg ?_]
            intro hm
            rcases List.mem_cons.mp hm with hm1 | hm2
            · exact hq hm1.symm
            · exact h hm2
        · rw [List.filter_cons_of_neg (by simp [hr]), ih hswap2 hpos]
          by_cases h : (a, b) ∈ l
          · rw [if_pos h, if_pos (List.mem_cons.mpr (Or.inr h))]
          · rw [if_neg h, if_neg ?_]
            intro hm
            rcases List.mem_cons.mp hm with hm1 | hm2
            · exact hq hm1.symm
            · exact h hm2

theorem rsrdEntry_eq (G : Graph) (D : List String) (a b : String) :
    rsrdEntry G D a b =
      (if devPairLens G D a b = [] then none
       else if ((devPairLens G D a b).map (fun d : Nat => (1 : ℚ) / (d : ℚ))).sum = 0
         then none
         else some (1 / ((devPairLens G D a b).map
           (fun d : Nat => (1 : ℚ) / (d : ℚ))).sum)) := rfl

theorem devPairLens_ge_one (G : Graph) (D : List String) (a b : String) :
    ∀ n ∈ devPairLens G D a b, 1 ≤ n := by
  intro n hn
  rw [devPairLens_eq_pathEnum] at hn
  obtain ⟨p, hp, he⟩ := List.mem_map.mp hn
  unfold pathEnum allSimplePaths at hp
  rw [List.mem_filter, spAux_mem_iff] at hp
  obtain ⟨⟨ext, hpe, hne, _⟩, _⟩ := hp
  have hl := List.length_pos.mpr hne
  rw [← he, hpe]
  simp only [List.singleton_append, List.length_cons]
  omega

theorem srd_pos (G : Graph) (D : List String) (a b : String)
    (hne : devPairLens G D a b ≠ []) :
    0 < ((devPairLens G D a b).map (fun d : Nat => (1 : ℚ) / (d : ℚ))).sum := by
  apply List.sum_pos
  · intro x hx
    obtain ⟨n, hn, he⟩ := List.mem_map.mp hx
    have h1 := devPairLens_ge_one G D a b n hn
    rw [← he]
    apply div_pos one_pos
    exact_mod_cast Nat.lt_of_lt_of_le Nat.zero_lt_one h1
  · intro h
    exact hne (List.map_eq_nil.mp h)

theorem rsrdEntry_pos (G : Graph) (D : List String) (a b : String) (r : ℚ)
    (h : rsrdEntry G D a b = some r) : 0 < r := by
  rw [rsrdEntry_eq] at h
  by_cases hl : devPairLens G D a b = []
  · rw [if_pos hl] at h
    exact absurd h (by simp)
  · rw [if_neg hl] at h
    have hs := srd_pos G D a b hl
    rw [if_neg hs.ne'] at h
    have hr : r = 1 / ((devPairLens G D a b).map (fun d : Nat => (1 : ℚ) / (d : ℚ))).sum :=
      (Option.some_inj.mp h).symm
    rw [hr]
    exact div_pos one_pos hs

theorem devGLookup_rsrd (s : HGState) (a b : String)
    (hpair : (a, b) ∈ pairsOf (getDevelopers s).dedup) :
    devGLookup (getDeveloperGraph s) a b =
      rsrdEntry s.G (getDevelopers s).dedup a b := by
  have hD : ((getDevelopers s).dedup).Nodup := List.nodup_dedup _
  have hswap := pairsOf_no_swap _ hD a b hpair
  have h := devGLookup_cases
    (fun p : String × String => rsrdEntry s.G ((getDevelopers s).dedup) p.1 p.2)
    a b (pairsOf ((getDevelopers s).dedup)) hswap
    (fun r hr => rsrdEntry_pos s.G _ a b r hr)
  rw [if_pos hpair] at h
  exact h

/-- C7: for the developer pairs enumerated from the current graph, the
recorded path-length multiset is the same in either direction; whenever some
simple path of at most 4 edges connects the pair, the collaboration-graph
distance is the reciprocal of the sum of reciprocal recorded lengths; and
when every simple path between them has 5 or more edges, the pair has no
edge in the collaboration graph. -/
theorem c7_collaboration_distance (s : HGState) (a b : String)
    (hwf : WFGraph s.G)
    (hpair : (a, b) ∈ pairsOf (getDevelopers s).dedup) :
    (devPairLens s.G (getDevelopers s).dedup a b).Perm
      (devPairLens s.G (getDevelopers s).dedup b a) ∧
    ((∃ p, isSimplePath s.G a b p ∧ p.length ≤ 5) →
      devGLookup (getDeveloperGraph s) a b =
        some (1 / ((devPairLens s.G (getDevelopers s).dedup a b).map
          (fun d : Nat => (1 : ℚ) / (d : ℚ))).sum)) ∧
    ((∀ p, isSimplePath s.G a b p → ¬ p.length ≤ 5) →
      devGLookup (getDeveloperGraph s) a b = none) := by
  obtain ⟨hnodes, hedges, hclosed⟩ := hwf
  have hD : ((getDevelopers s).dedup).Nodup := List.nodup_dedup _
  obtain ⟨haD, hbD⟩ := pairsOf_mem _ a b hpair
  have hab : a ≠ b := pairsOf_ne _ hD a b hpair
  refine ⟨devPairLens_perm s.G _ a b hedges haD hbD hab, ?_, ?_⟩
  · rintro ⟨p, hsp, h5⟩
    have hpe : p ∈ pathEnum s.G ((getDevelopers s).dedup) a b :=
      (pathEnum_mem_iff s.G _ a b hbD (Ne.symm hab) p).mpr ⟨hsp, h5⟩
    have hlens : devPairLens s.G ((getDevelopers s).dedup) a b ≠ [] := by
      rw [devPairLens_eq_pathEnum]
      intro h
      rw [List.map_eq_nil] at h
      rw [h] at hpe
      simp at hpe
    rw [devGLookup_rsrd s a b hpair, rsrdEntry_eq, if_neg hlens,
      if_neg (srd_pos s.G _ a b hlens).ne']
  · intro hnone
    have hlens : devPairLens s.G ((getDevelopers s).dedup) a b = [] := by
      rw [devPairLens_eq_pathEnum, List.map_eq_nil]
      by_contra h
      obtain ⟨p, hp⟩ := List.exists_mem_of_ne_nil _ h
      obtain ⟨hsp, h5⟩ := (pathEnum_mem_iff s.G _ a b hbD (Ne.symm hab) p).mp hp
      exact hnone p hsp h5
    rw [devGLookup_rsrd s a b hpair, rsrdEntry_eq, if_pos hlens]

/-- Witness state for C7: two developers joined by the single 4-edge simple
path d1 - C1 - F1 - C2 - d2. -/
def c7State : HGState :=
  ⟨⟨1, 10, 50, 5 / 1000000⟩,
   ⟨[(dayLen - 1,
      [⟨"C1", "d1", dayLen - 1, [], [⟨"F1", "ADD", none⟩], 1⟩,
       ⟨"C2", "d2", dayLen - 1, [], [⟨"F1", "MODIFY", none⟩], 1⟩])], 1,
     some (dayLen - 1), some (dayLen - 1)⟩,
   ⟨[("C1", some "ChangeSet"), ("d1", some "Developer"), ("F1", some "File"),
     ("C2", some "ChangeSet"), ("d2", some "Developer")],
    [⟨"d1", "C1", none, none⟩, ⟨"C1", "F1", some (dayLen - 1), some "include"⟩,
     ⟨"d2", "C2", none, none⟩, ⟨"C2", "F1", some (dayLen - 1), some "include"⟩]⟩,
   1, CacheData.empty⟩

theorem c7_witness :
    (WFGraph c7State.G ∧
      ("d1", "d2") ∈ pairsOf (getDevelopers c7State).dedup) ∧
    ((devPairLens c7State.G (getDevelopers c7State).dedup "d1" "d2").Perm
      (devPairLens c7State.G (getDevelopers c7State).dedup "d2" "d1") ∧
    ((∃ p, isSimplePath c7State.G "d1" "d2" p ∧ p.length ≤ 5) →
      devGLookup (getDeveloperGraph c7State) "d1" "d2" =
        some (1 / ((devPairLens c7State.G (getDevelopers c7State).dedup "d1" "d2").map
          (fun d : Nat => (1 : ℚ) / (d : ℚ))).sum)) ∧
    ((∀ p, isSimplePath c7State.G "d1" "d2" p → ¬ p.length ≤ 5) →
      devGLookup (getDeveloperGraph c7State) "d1" "d2" = none)) := by
  have h1 : WFGraph c7State.G := by
    unfold WFGraph
    refine ⟨by decide, by decide, by decide⟩
  have h2 : ("d1", "d2") ∈ pairsOf (getDevelopers c7State).dedup := by
    simp [getDevelopers, filterNodesByKind, c7State, pairsOf]
  exact ⟨⟨h1, h2⟩, c7_collaboration_distance c7State "d1" "d2" h1 h2⟩

/-! ## Claim C1: incremental slide versus full rebuild -/

theorem isPair_trans (e1 e0 : Edge) (u v : String)
    (h1 : e1.isPair u v) (h0 : e0.isPair u v) : e1.isPair e0.u e0.v := by
  unfold Edge.isPair at h1 h0 ⊢
  rcases h1 with ⟨a1, b1⟩ | ⟨a1, b1⟩ <;> rcases h0 with ⟨a0, b0⟩ | ⟨a0, b0⟩
  · exact Or.inl ⟨a1.trans a0.symm, b1.trans b0.symm⟩
  · exact Or.inr ⟨a1.trans b0.symm, b1.trans a0.symm⟩
  · exact Or.inr ⟨a1.trans b0.symm, b1.trans a0.symm⟩
  · exact Or.inl ⟨a1.trans a0.symm, b1.trans b0.symm⟩

theorem mergeNode_names_mem (ns : List (String × Option String)) (a : String)
    (k : Option String) (x : String) :
    x ∈ (mergeNode ns a k).map Prod.fst ↔ x ∈ ns.map Prod.fst ∨ x = a := by
  induction ns with
  | nil => simp [mergeNode]
  | cons q qs ih =>
    simp only [mergeNode]
    by_cases hq : q.1 = a
    · rw [if_pos hq]
      simp only [List.map_cons, List.mem_cons]
      constructor
      · rintro (h | h)
        · exact Or.inl (Or.inl h)
        · exact Or.inl (Or.inr h)
      · rintro ((h | h) | h)
        · exact Or.inl h
        · exact Or.inr h
        · exact Or.inl (h.trans hq.symm)
    · rw [if_neg hq]
      simp only [List.map_cons, List.mem_cons, ih]
      tauto

theorem mergeNode_names_nodup (ns : List (String × Option String)) (a : String)
    (k : Option String) (h : (ns.map Prod.fst).Nodup) :
    ((mergeNode ns a k).map Prod.fst).Nodup := by
  induction ns with
  | nil => simp [mergeNode]
  | cons q qs ih =>
    simp only [List.map_cons, List.nodup_cons] at h
    simp only [mergeNode]
    by_cases hq : q.1 = a
    · rw [if_pos hq]
      simp only [List.map_cons, List.nodup_cons]
      exact ⟨h.1, h.2⟩
    · rw [if_neg hq]
      simp only [List.map_cons, List.nodup_cons]
      refine ⟨?_, ih h.2⟩
      intro hc
      rw [mergeNode_names_mem] at hc
      rcases hc with hc | hc
      · exact h.1 hc
      · exact hq hc

theorem mergeNode_kinds (ns : List (String × Option String)) (a : String)
    (k : String) (cl : String → String)
    (hns : ∀ p ∈ ns, p.2 = some (cl p.1)) (ha : cl a = k) :
    ∀ p ∈ mergeNode ns a (some k), p.2 = some (cl p.1) := by
  induction ns with
  | nil =>
    intro p hp
    simp only [mergeNode, List.mem_singleton] at hp
    rw [hp]
    simp [ha]
  | cons q qs ih =>
    intro p hp
    simp only [mergeNode] at hp
    by_cases hq : q.1 = a
    · rw [if_pos hq] at hp
      rcases List.mem_cons.mp hp with h | h
      · rw [h]
        simp only
        rw [hq, ha]
      · exact hns p (List.mem_cons_of_mem q h)
    · rw [if_neg hq] at hp
      rcases List.mem_cons.mp hp with h | h
      · rw [h]
        exact hns q (List.mem_cons_self q qs)
      · exact ih (fun p2 hp2 => hns p2 (List.mem_cons_of_mem q hp2)) p h

theorem mergeNode_none_of_mem (ns : List (String × Option String)) (a : String)
    (h : a ∈ ns.map Prod.fst) : mergeNode ns a none = ns := by
  induction ns with
  | nil => simp at h
  | cons q qs ih =>
    simp only [List.map_cons, List.mem_cons] at h
    simp only [mergeNode]
    by_cases hq : q.1 = a
    · rw [if_pos hq]
    · rw [if_neg hq]
      rcases h with h | h
      · exact absurd h.symm hq
      · rw [ih h]

theorem upsertEdge_pairwise (es : List Edge) (u v : String) (dt : Option Nat)
    (ek : Option String)
    (h : es.Pairwise (fun e1 e2 => ¬ e1.isPair e2.u e2.v)) :
    (upsertEdge es u v dt ek).Pairwise (fun e1 e2 => ¬ e1.isPair e2.u e2.v) := by
  induction es with
  | nil =>
    simp only [upsertEdge]
    exact List.pairwise_singleton _ _
  | cons e es ih =>
    rw [List.pairwise_cons] at h
    simp only [upsertEdge]
    by_cases hp : e.isPair u v
    · rw [if_pos hp]
      rw [List.pairwise_cons]
      exact ⟨fun e2 he2 hc => h.1 e2 he2 hc, h.2⟩
    · rw [if_neg hp]
      rw [List.pairwise_cons]
      refine ⟨?_, ih h.2⟩
      intro e2 he2
      rcases upsertEdge_mem es u v dt ek e2 he2 with hm | hm | hm
      · exact h.1 e2 hm
      · obtain ⟨e0, he0, h1, h2, _, _⟩ := hm
        intro hc
        apply h.1 e0 he0
        unfold Edge.isPair at hc ⊢
        rw [h1, h2] at hc
        exact hc
      · obtain ⟨h1, h2, _, _⟩ := hm
        intro hc
        apply hp
        unfold Edge.isPair at hc ⊢
        rw [h1, h2] at hc
        exact hc

theorem upsertEdge_mem_iff (u v : String) (dt : Option Nat) (ek : Option String) :
    ∀ (es : List Edge), es.Pairwise (fun e1 e2 => ¬ e1.isPair e2.u e2.v) →
      ∀ e, (e ∈ upsertEdge es u v dt ek ↔
        (e ∈ es ∧ ¬ e.isPair u v) ∨
        (∃ e0 ∈ es, e0.isPair u v ∧ e = ⟨e0.u, e0.v, dt, ek⟩) ∨
        ((∀ e0 ∈ es, ¬ e0.isPair u v) ∧ e = ⟨u, v, dt, ek⟩)) := by
  intro es
  induction es with
  | nil =>
    intro _ e
    simp only [upsertEdge, List.mem_singleton]
    constructor
    · intro h
      right; right
      exact ⟨by simp, h⟩
    · rintro (⟨h, _⟩ | ⟨e0, he0, _⟩ | ⟨_, h⟩)
      · simp at h
      · simp at he0
      · exact h
  | cons e1 es ih =>
    intro hpw e
    rw [List.pairwise_cons] at hpw
    obtain ⟨hhd, htl⟩ := hpw
    simp only [upsertEdge]
    by_cases hp : e1.isPair u v
    · rw [if_pos hp]
      constructor
      · intro h
        rcases List.mem_cons.mp h with h | h
        · right; left
          exact ⟨e1, List.mem_cons_self e1 es, hp, h⟩
        · left
          refine ⟨List.mem_cons_of_mem e1 h, ?_⟩
          intro hc
          exact hhd e h (isPair_trans e1 e u v hp hc)
      · rintro (⟨hm, hc⟩ | ⟨e0, he0, hp0, he⟩ | ⟨hall, he⟩)
        · rcases List.mem_cons.mp hm with h | h
          · cases h
            exact absurd hp hc
          · exact List.mem_cons_of_mem _ h
        · rcases List.mem_cons.mp he0 with h | h
          · rw [he, h]
            exact List.mem_cons_self _ _
          · exact absurd (isPair_trans e1 e0 u v hp hp0) (hhd e0 h)
        · exact absurd hp (hall e1 (List.mem_cons_self e1 es))
    · rw [if_neg hp]
      constructor
      · intro h
        rcases List.mem_cons.mp h with h | h
        · cases h
          exact Or.inl ⟨List.mem_cons_self e1 es, hp⟩
        · rcases (ih htl e).mp h with ⟨hm, hc⟩ | ⟨e0, he0, hp0, he⟩ | ⟨hall, he⟩
          · exact Or.inl ⟨List.mem_cons_of_mem e1 hm, hc⟩
          · exact Or.inr (Or.inl ⟨e0, List.mem_cons_of_mem e1 he0, hp0, he⟩)
          · refine Or.inr (Or.inr ⟨?_, he⟩)
            intro e0 he0
            rcases List.mem_cons.mp he0 with h0 | h0
            · rw [h0]
              exact hp
            · exact hall e0 h0
      · rintro (⟨hm, hc⟩ | ⟨e0, he0, hp0, he⟩ | ⟨hall, he⟩)
        · rcases List.mem_cons.mp hm with h | h
          · cases h
            exact List.mem_cons_self _ _
          · exact List.mem_cons_of_mem e1 ((ih htl e).mpr (Or.inl ⟨h, hc⟩))
        · rcases List.mem_cons.mp he0 with h | h
          · rw [h] at hp0
            exact absurd hp0 hp
          · exact List.mem_cons_of_mem e1
              ((ih htl e).mpr (Or.inr (Or.inl ⟨e0, h, hp0, he⟩)))
        · exact List.mem_cons_of_mem e1 ((ih htl e).mpr (Or.inr (Or.inr
            ⟨fun e0 he0 => hall e0 (List.mem_cons_of_mem e1 he0), he⟩)))

theorem hasIncident_iff (G : Graph) (a : String) :
    G.hasIncident a = true ↔ ∃ e ∈ G.edges, e.u = a ∨ e.v = a := by
  unfold Graph.hasIncident
  rw [List.any_eq_true]
  constructor
  · rintro ⟨e, he, hd⟩
    rw [decide_eq_true_eq] at hd
    exact ⟨e, he, hd⟩
  · rintro ⟨e, he, hd⟩
    exact ⟨e, he, by rw [decide_eq_true_eq]; exact hd⟩

theorem mem_isolates_iff (G : Graph) (x : String) :
    x ∈ G.isolates ↔
      x ∈ G.nodes.map Prod.fst ∧ ¬ ∃ e ∈ G.edges, e.u = x ∨ e.v = x := by
  unfold Graph.isolates
  rw [List.mem_filter]
  constructor
  · rintro ⟨h1, h2⟩
    refine ⟨h1, ?_⟩
    intro hc
    have hinc := (hasIncident_iff G x).mpr hc
    rw [hinc] at h2
    simp at h2
  · rintro ⟨h1, h2⟩
    refine ⟨h1, ?_⟩
    cases hhi : G.hasIncident x
    · simp
    · exact absurd ((hasIncident_iff G x).mp hhi) h2

theorem removeNodes_edges_eq (G : Graph) (ns : List String) (h : ns ≠ []) :
    (G.removeNodes ns).edges =
      G.edges.filter (fun e => decide (e.u ∉ ns ∧ e.v ∉ ns)) := by
  unfold Graph.removeNodes
  rw [if_neg h]
  have hall : ∀ e ∈ (G.removeNodesFrom ns).edges,
      (decide (e.u ∉ (G.removeNodesFrom ns).isolates ∧
        e.v ∉ (G.removeNodesFrom ns).isolates)) = true := by
    intro e he
    rw [decide_eq_true_eq]
    constructor
    · intro hc
      exact ((mem_isolates_iff _ _).mp hc).2 ⟨e, he, Or.inl rfl⟩
    · intro hc
      exact ((mem_isolates_iff _ _).mp hc).2 ⟨e, he, Or.inr rfl⟩
  show ((G.removeNodesFrom ns).edges).filter _ = _
  rw [List.filter_eq_self.mpr hall]
  rfl

theorem removeNodes_nodes_mem (G : Graph) (ns : List String) (h : ns ≠ [])
    (p : String × Option String) :
    p ∈ (G.removeNodes ns).nodes ↔
      p ∈ G.nodes ∧ p.1 ∉ ns ∧
        ∃ e ∈ G.edges, (e.u ∉ ns ∧ e.v ∉ ns) ∧ (e.u = p.1 ∨ e.v = p.1) := by
  unfold Graph.removeNodes
  rw [if_neg h]
  show p ∈ ((G.removeNodesFrom ns).nodes.filter _) ↔ _
  rw [List.mem_filter]
  have hG1n : (G.removeNodesFrom ns).nodes =
      G.nodes.filter (fun q => decide (q.1 ∉ ns)) := rfl
  rw [hG1n, List.mem_filter]
  simp only [decide_eq_true_eq]
  constructor
  · rintro ⟨⟨h1, h2⟩, h3⟩
    refine ⟨h1, h2, ?_⟩
    by_contra hc
    push_neg at hc
    apply h3
    rw [mem_isolates_iff]
    constructor
    · rw [hG1n]
      exact List.mem_map_of_mem Prod.fst
        (List.mem_filter.mpr ⟨h1, by rw [decide_eq_true_eq]; exact h2⟩)
    · rintro ⟨e, he, hd⟩
      have he2 := List.mem_filter.mp he
      rw [decide_eq_true_eq] at he2
      have hcc := hc e he2.1 he2.2
      rcases hd with hd | hd
      · exact hcc.1 hd
      · exact hcc.2 hd
  · rintro ⟨h1, h2, e, he, hsurv, hinc⟩
    refine ⟨⟨h1, h2⟩, ?_⟩
    intro hc
    obtain ⟨_, hno⟩ := (mem_isolates_iff _ _).mp hc
    apply hno
    refine ⟨e, ?_, hinc⟩
    exact List.mem_filter.mpr ⟨he, by rw [decide_eq_true_eq]; exact hsurv⟩

theorem removeNodes_names_mem (G : Graph) (ns : List String) (h : ns ≠ [])
    (x : String) :
    x ∈ (G.removeNodes ns).nodes.map Prod.fst ↔
      x ∈ G.nodes.map Prod.fst ∧ x ∉ ns ∧
        ∃ e ∈ G.edges, (e.u ∉ ns ∧ e.v ∉ ns) ∧ (e.u = x ∨ e.v = x) := by
  constructor
  · intro hx
    obtain ⟨p, hp, he⟩ := List.mem_map.mp hx
    obtain ⟨h1, h2, h3⟩ := (removeNodes_nodes_mem G ns h p).mp hp
    rw [← he]
    exact ⟨List.mem_map_of_mem Prod.fst h1, h2, h3⟩
  · rintro ⟨hx, h2, h3⟩
    obtain ⟨p, hp, he⟩ := List.mem_map.mp hx
    rw [← he] at h2 h3
    rw [← he]
    exact List.mem_map_of_mem Prod.fst
      ((removeNodes_nodes_mem G ns h p).mpr ⟨hp, h2, h3⟩)

/-- A rename mapping whose sources and targets are all classified as files. -/
def FileMap (cl : String → String) (m : List (String × String)) : Prop :=
  ∀ p ∈ m, cl p.1 = "File" ∧ cl p.2 = "File"

/-- A change set whose identifiers live in the four disjoint kind namespaces
given by the classifier cl. -/
def ClassifiedCS (cl : String → String) (cs : ChangeSet) : Prop :=
  cl cs.commitHash = "ChangeSet" ∧ cl cs.author = "Developer" ∧
  (∀ cc ∈ cs.codeChanges, cl cc.filePath = "File" ∧
    (cc.changeType = "RENAME" → cl (cc.oldFilePath.getD "") = "File")) ∧
  (∀ i ∈ cs.issues, cl i = "Issue")

theorem upsertPair_mem (a b : String) : ∀ (m : List (String × String)),
    ∀ p ∈ upsertPair m a b, p ∈ m ∨ (p.1 = a ∧ p.2 = b) := by
  intro m
  induction m with
  | nil =>
    intro p hp
    simp only [upsertPair, List.mem_singleton] at hp
    right
    rw [hp]
    exact ⟨rfl, rfl⟩
  | cons q qs ih =>
    intro p hp
    simp only [upsertPair] at hp
    by_cases hq : q.1 = a
    · rw [if_pos hq] at hp
      rcases List.mem_cons.mp hp with h | h
      · right
        rw [h]
        exact ⟨hq, rfl⟩
      · left
        exact List.mem_cons_of_mem q h
    · rw [if_neg hq] at hp
      rcases List.mem_cons.mp hp with h | h
      · left
        rw [h]
        exact List.mem_cons_self q qs
      · rcases ih p h with h2 | h2
        · left
          exact List.mem_cons_of_mem q h2
        · right
          exact h2

theorem renameDict_fileMap (cl : String → String) (cs : ChangeSet)
    (h : ClassifiedCS cl cs) : FileMap cl (renameDict cs) := by
  obtain ⟨_, _, hcc, _⟩ := h
  unfold renameDict
  have haux : ∀ (l : List CodeChange), (∀ cc ∈ l, cc ∈ cs.codeChanges) →
      ∀ (init : List (String × String)), FileMap cl init →
      FileMap cl (l.foldl (fun m cc =>
        if cc.changeType = "RENAME" then upsertPair m (cc.oldFilePath.getD "") cc.filePath
        else m) init) := by
    intro l
    induction l with
    | nil =>
      intro _ init hinit
      exact hinit
    | cons cc ccs ih =>
      intro hsub init hinit
      simp only [List.foldl_cons]
      refine ih (fun c hc => hsub c (List.mem_cons_of_mem cc hc)) _ ?_
      by_cases hr : cc.changeType = "RENAME"
      · rw [if_pos hr]
        intro p hp
        rcases upsertPair_mem _ _ init p hp with h2 | h2
        · exact hinit p h2
        · have hc := hcc cc (hsub cc (List.mem_cons_self cc ccs))
          rw [h2.1, h2.2]
          exact ⟨hc.2 hr, hc.1⟩
      · rw [if_neg hr]
        exact hinit
  exact haux cs.codeChanges (fun c hc => hc) [] (fun p hp => absurd hp (List.not_mem_nil p))

theorem mapName_cl (cl : String → String) (m : List (String × String))
    (hm : FileMap cl m) (x : String) : cl (mapName m x) = cl x := by
  unfold mapName
  cases hfind : m.find? (fun p => decide (p.1 = x)) with
  | none => rfl
  | some p =>
    have hpm := List.mem_of_find?_eq_some hfind
    have hpx : p.1 = x := by
      have := List.find?_some hfind
      rwa [decide_eq_true_eq] at this
    have h2 := hm p hpm
    rw [h2.2, ← hpx, h2.1]

theorem mapName_id_of_ne_file (cl : String → String) (m : List (String × String))
    (hm : FileMap cl m) (x : String) (hx : cl x ≠ "File") : mapName m x = x := by
  unfold mapName
  cases hfind : m.find? (fun p => decide (p.1 = x)) with
  | none => rfl
  | some p =>
    have hpm := List.mem_of_find?_eq_some hfind
    have hpx : p.1 = x := by
      have := List.find?_some hfind
      rwa [decide_eq_true_eq] at this
    exact absurd (hpx ▸ (hm p hpm).1) hx

theorem foldl_mergeNode_names_iff (m : List (String × String)) :
    ∀ (l : List (String × Option String)) (init : List (String × Option String))
      (x : String),
      x ∈ (l.foldl (fun acc p => mergeNode acc (mapName m p.1) p.2) init).map Prod.fst ↔
        x ∈ init.map Prod.fst ∨ ∃ y ∈ l, mapName m y.1 = x := by
  intro l
  induction l with
  | nil =>
    intro init x
    simp
  | cons q qs ih =>
    intro init x
    simp only [List.foldl_cons]
    rw [ih, mergeNode_names_mem]
    constructor
    · rintro ((h | h) | h)
      · exact Or.inl h
      · exact Or.inr ⟨q, List.mem_cons_self q qs, h.symm⟩
      · obtain ⟨y, hy, he⟩ := h
        exact Or.inr ⟨y, List.mem_cons_of_mem q hy, he⟩
    · rintro (h | ⟨y, hy, he⟩)
      · exact Or.inl (Or.inl h)
      · rcases List.mem_cons.mp hy with h0 | h0
        · refine Or.inl (Or.inr ?_)
          rw [← h0]
          exact he.symm
        · exact Or.inr ⟨y, h0, he⟩

theorem foldl_mergeNode_names_nodup2 (m : List (String × String)) :
    ∀ (l : List (String × Option String)) (init : List (String × Option String)),
      (init.map Prod.fst).Nodup →
      ((l.foldl (fun acc p => mergeNode acc (mapName m p.1) p.2) init).map
        Prod.fst).Nodup := by
  intro l
  induction l with
  | nil =>
    intro init h
    exact h
  | cons q qs ih =>
    intro init h
    simp only [List.foldl_cons]
    exact ih _ (mergeNode_names_nodup init (mapName m q.1) q.2 h)

theorem foldl_mergeNode_kinds (cl : String → String) (m : List (String × String))
    (hcompat : ∀ x, cl (mapName m x) = cl x) :
    ∀ (l : List (String × Option String)) (init : List (String × Option String)),
      (∀ p ∈ init, p.2 = some (cl p.1)) → (∀ p ∈ l, p.2 = some (cl p.1)) →
      ∀ p ∈ l.foldl (fun acc q => mergeNode acc (mapName m q.1) q.2) init,
        p.2 = some (cl p.1) := by
  intro l
  induction l with
  | nil =>
    intro init hinit _ p hp
    exact hinit p hp
  | cons q qs ih =>
    intro init hinit hl p hp
    simp only [List.foldl_cons] at hp
    have hq2 : q.2 = some (cl q.1) := hl q (List.mem_cons_self q qs)
    have hmq : mergeNode init (mapName m q.1) q.2 =
        mergeNode init (mapName m q.1) (some (cl q.1)) := by rw [hq2]
    rw [hmq] at hp
    refine ih _ ?_ (fun p2 hp2 => hl p2 (List.mem_cons_of_mem q hp2)) p hp
    exact mergeNode_kinds init (mapName m q.1) (cl q.1) cl hinit (hcompat q.1)

theorem upsertEdge_mem_iff_of_agree (es : List Edge) (u v : String)
    (dt : Option Nat) (ek : Option String)
    (hpw : es.Pairwise (fun e1 e2 => ¬ e1.isPair e2.u e2.v))
    (hagree : ∀ e0 ∈ es, e0.isPair u v → e0 = ⟨u, v, dt, ek⟩) (x : Edge) :
    x ∈ upsertEdge es u v dt ek ↔ x ∈ es ∨ x = ⟨u, v, dt, ek⟩ := by
  rw [upsertEdge_mem_iff u v dt ek es hpw x]
  constructor
  · rintro (⟨h1, _⟩ | ⟨e0, he0, hp0, he⟩ | ⟨_, he⟩)
    · exact Or.inl h1
    · right
      rw [he, hagree e0 he0 hp0]
    · exact Or.inr he
  · rintro (h | h)
    · by_cases hp : x.isPair u v
      · refine Or.inr (Or.inl ⟨x, h, hp, ?_⟩)
        rw [hagree x h hp]
      · exact Or.inl ⟨h, hp⟩
    · by_cases hex : ∃ e0 ∈ es, e0.isPair u v
      · obtain ⟨e0, he0, hp0⟩ := hex
        refine Or.inr (Or.inl ⟨e0, he0, hp0, ?_⟩)
        rw [h, hagree e0 he0 hp0]
      · push_neg at hex
        exact Or.inr (Or.inr ⟨hex, h⟩)

theorem foldl_upsert_mapped (m : List (String × String)) (F : List Edge)
    (hcoll : ∀ e1 ∈ F, ∀ e2 ∈ F,
      (Edge.mk (mapName m e1.u) (mapName m e1.v) e1.edate e1.ekind).isPair
        (mapName m e2.u) (mapName m e2.v) →
      Edge.mk (mapName m e1.u) (mapName m e1.v) e1.edate e1.ekind =
        Edge.mk (mapName m e2.u) (mapName m e2.v) e2.edate e2.ekind) :
    ∀ (l : List Edge), (∀ e ∈ l, e ∈ F) →
      ∀ (acc : List Edge),
        acc.Pairwise (fun e1 e2 => ¬ e1.isPair e2.u e2.v) →
        (∀ x ∈ acc, ∃ e ∈ F,
          x = Edge.mk (mapName m e.u) (mapName m e.v) e.edate e.ekind) →
        (∀ x, (x ∈ l.foldl (fun acc2 e =>
            upsertEdge acc2 (mapName m e.u) (mapName m e.v) e.edate e.ekind) acc ↔
          x ∈ acc ∨ ∃ e ∈ l,
            x = Edge.mk (mapName m e.u) (mapName m e.v) e.edate e.ekind)) ∧
        (l.foldl (fun acc2 e =>
            upsertEdge acc2 (mapName m e.u) (mapName m e.v) e.edate e.ekind)
          acc).Pairwise (fun e1 e2 => ¬ e1.isPair e2.u e2.v) := by
  intro l
  induction l with
  | nil =>
    intro _ acc hpw _
    refine ⟨?_, hpw⟩
    intro x
    simp
  | cons e l ih =>
    intro hl acc hpw himg
    have heF : e ∈ F := hl e (List.mem_cons_self e l)
    have hagree : ∀ e0 ∈ acc,
        e0.isPair (mapName m e.u) (mapName m e.v) →
        e0 = ⟨mapName m e.u, mapName m e.v, e.edate, e.ekind⟩ := by
      intro e0 h0 hp
      obtain ⟨e1, he1F, hx⟩ := himg e0 h0
      rw [hx] at hp ⊢
      exact hcoll e1 he1F e heF hp
    have hstep := fun x => upsertEdge_mem_iff_of_agree acc
      (mapName m e.u) (mapName m e.v) e.edate e.ekind hpw hagree x
    have hpw2 := upsertEdge_pairwise acc
      (mapName m e.u) (mapName m e.v) e.edate e.ekind hpw
    have himg2 : ∀ x ∈ upsertEdge acc (mapName m e.u) (mapName m e.v) e.edate e.ekind,
        ∃ e2 ∈ F, x = Edge.mk (mapName m e2.u) (mapName m e2.v) e2.edate e2.ekind := by
      intro x hx
      rcases (hstep x).mp hx with h | h
      · exact himg x h
      · exact ⟨e, heF, h⟩
    obtain ⟨hmem, hpf⟩ := ih (fun e2 he2 => hl e2 (List.mem_cons_of_mem e he2)) _
      hpw2 himg2
    refine ⟨?_, hpf⟩
    intro x
    simp only [List.foldl_cons]
    rw [hmem x, hstep x]
    constructor
    · rintro ((h | h) | h)
      · exact Or.inl h
      · exact Or.inr ⟨e, List.mem_cons_self e l, h⟩
      · obtain ⟨e2, he2, hx⟩ := h
        exact Or.inr ⟨e2, List.mem_cons_of_mem e he2, hx⟩
    · rintro (h | ⟨e2, he2, hx⟩)
      · exact Or.inl (Or.inl h)
      · rcases List.mem_cons.mp he2 with h0 | h0
        · refine Or.inl (Or.inr ?_)
          rw [h0] at hx
          exact hx
        · exact Or.inr ⟨e2, h0, hx⟩

theorem renameNodes_names_iff (G : Graph) (m : List (String × String))
    (hm : m ≠ []) (x : String) :
    x ∈ (G.renameNodes m).nodes.map Prod.fst ↔
      ∃ y ∈ G.nodes.map Prod.fst, mapName m y = x := by
  unfold Graph.renameNodes
  rw [if_neg hm]
  show x ∈ (G.nodes.foldl (fun acc p => mergeNode acc (mapName m p.1) p.2) []).map
      Prod.fst ↔ _
  rw [foldl_mergeNode_names_iff]
  simp only [List.map_nil, List.not_mem_nil, false_or]
  constructor
  · rintro ⟨y, hy, he⟩
    exact ⟨y.1, List.mem_map_of_mem Prod.fst hy, he⟩
  · rintro ⟨n, hn, he⟩
    obtain ⟨p, hp, hpe⟩ := List.mem_map.mp hn
    refine ⟨p, hp, ?_⟩
    rw [hpe]
    exact he

theorem renameNodes_kinds (G : Graph) (m : List (String × String))
    (cl : String → String) (hcompat : ∀ x, cl (mapName m x) = cl x)
    (h4 : ∀ p ∈ G.nodes, p.2 = some (cl p.1)) :
    ∀ p ∈ (G.renameNodes m).nodes, p.2 = some (cl p.1) := by
  unfold Graph.renameNodes
  by_cases hm : m = []
  · rw [if_pos hm]
    exact h4
  · rw [if_neg hm]
    exact foldl_mergeNode_kinds cl m hcompat G.nodes [] (by simp) h4

theorem renameNodes_names_nodup (G : Graph) (m : List (String × String))
    (h : (G.nodes.map Prod.fst).Nodup) :
    ((G.renameNodes m).nodes.map Prod.fst).Nodup := by
  unfold Graph.renameNodes
  by_cases hm : m = []
  · rw [if_pos hm]
    exact h
  · rw [if_neg hm]
    exact foldl_mergeNode_names_nodup2 m G.nodes [] (by simp)

theorem renameNodes_edges_iff (G : Graph) (m : List (String × String))
    (hm : m ≠ [])
    (hpw : G.edges.Pairwise (fun e1 e2 => ¬ e1.isPair e2.u e2.v))
    (hcoll : ∀ e1 ∈ G.edges, ∀ e2 ∈ G.edges,
      (Edge.mk (mapName m e1.u) (mapName m e1.v) e1.edate e1.ekind).isPair
        (mapName m e2.u) (mapName m e2.v) →
      Edge.mk (mapName m e1.u) (mapName m e1.v) e1.edate e1.ekind =
        Edge.mk (mapName m e2.u) (mapName m e2.v) e2.edate e2.ekind) (x : Edge) :
    x ∈ (G.renameNodes m).edges ↔
      ∃ e ∈ G.edges, x = Edge.mk (mapName m e.u) (mapName m e.v) e.edate e.ekind := by
  unfold Graph.renameNodes
  rw [if_neg hm]
  have h := foldl_upsert_mapped m G.edges hcoll G.edges (fun e he => he) []
    List.Pairwise.nil (by simp)
  rw [(h.1 x)]
  simp

theorem renameNodes_edges_pairwise (G : Graph) (m : List (String × String))
    (hpw : G.edges.Pairwise (fun e1 e2 => ¬ e1.isPair e2.u e2.v))
    (hcoll : ∀ e1 ∈ G.edges, ∀ e2 ∈ G.edges,
      (Edge.mk (mapName m e1.u) (mapName m e1.v) e1.edate e1.ekind).isPair
        (mapName m e2.u) (mapName m e2.v) →
      Edge.mk (mapName m e1.u) (mapName m e1.v) e1.edate e1.ekind =
        Edge.mk (mapName m e2.u) (mapName m e2.v) e2.edate e2.ekind) :
    (G.renameNodes m).edges.Pairwise (fun e1 e2 => ¬ e1.isPair e2.u e2.v) := by
  unfold Graph.renameNodes
  by_cases hm : m = []
  · rw [if_pos hm]
    exact hpw
  · rw [if_neg hm]
    exact (foldl_upsert_mapped m G.edges hcoll G.edges (fun e he => he) []
      List.Pairwise.nil (by simp)).2

theorem foldl_upsert_const (u0 : String) (dt : Option Nat) (ek : Option String) :
    ∀ (fs : List String), (∀ f ∈ fs, f ≠ u0) →
    ∀ (acc : List Edge),
      acc.Pairwise (fun e1 e2 => ¬ e1.isPair e2.u e2.v) →
      (∀ x ∈ acc, ∀ f ∈ fs, x.isPair u0 f → x = ⟨u0, f, dt, ek⟩) →
      (∀ x, (x ∈ fs.foldl (fun acc2 f => upsertEdge acc2 u0 f dt ek) acc ↔
        x ∈ acc ∨ ∃ f ∈ fs, x = ⟨u0, f, dt, ek⟩)) ∧
      (fs.foldl (fun acc2 f => upsertEdge acc2 u0 f dt ek) acc).Pairwise
        (fun e1 e2 => ¬ e1.isPair e2.u e2.v) := by
  intro fs
  induction fs with
  | nil =>
    intro _ acc hpw _
    refine ⟨?_, hpw⟩
    intro x
    simp
  | cons f fs ih =>
    intro hfs acc hpw hno
    have hf : f ≠ u0 := hfs f (List.mem_cons_self f fs)
    have hagree : ∀ e0 ∈ acc, e0.isPair u0 f → e0 = ⟨u0, f, dt, ek⟩ :=
      fun e0 h0 hp => hno e0 h0 f (List.mem_cons_self f fs) hp
    have hstep := fun x => upsertEdge_mem_iff_of_agree acc u0 f dt ek hpw hagree x
    have hpw2 := upsertEdge_pairwise acc u0 f dt ek hpw
    have hno2 : ∀ x ∈ upsertEdge acc u0 f dt ek, ∀ f2 ∈ fs,
        x.isPair u0 f2 → x = ⟨u0, f2, dt, ek⟩ := by
      intro x hx f2 hf2 hp
      rcases (hstep x).mp hx with h | h
      · exact hno x h f2 (List.mem_cons_of_mem f hf2) hp
      · rw [h] at hp ⊢
        unfold Edge.isPair at hp
        simp only at hp
        rcases hp with ⟨_, h2⟩ | ⟨h1, _⟩
        · rw [h2]
        · exact absurd h1.symm (hfs f2 (List.mem_cons_of_mem f hf2))
    obtain ⟨hmem, hpf⟩ := ih (fun f2 hf2 => hfs f2 (List.mem_cons_of_mem f hf2)) _
      hpw2 hno2
    refine ⟨?_, hpf⟩
    intro x
    simp only [List.foldl_cons]
    rw [hmem x, hstep x]
    constructor
    · rintro ((h | h) | h)
      · exact Or.inl h
      · exact Or.inr ⟨f, List.mem_cons_self f fs, h⟩
      · obtain ⟨f2, hf2, hx⟩ := h
        exact Or.inr ⟨f2, List.mem_cons_of_mem f hf2, hx⟩
    · rintro (h | ⟨f2, hf2, hx⟩)
      · exact Or.inl (Or.inl h)
      · rcases List.mem_cons.mp hf2 with h0 | h0
        · refine Or.inl (Or.inr ?_)
          rw [h0] at hx
          exact hx
        · exact Or.inr ⟨f2, h0, hx⟩

theorem ensureNode_of_mem (G : Graph) (a : String)
    (h : a ∈ G.nodes.map Prod.fst) : G.ensureNode a = G := by
  unfold Graph.ensureNode
  rw [mergeNode_none_of_mem G.nodes a h]

theorem addEdge_of_mem (G : Graph) (u v : String) (dt : Option Nat)
    (ek : Option String) (hu : u ∈ G.nodes.map Prod.fst)
    (hv : v ∈ G.nodes.map Prod.fst) :
    G.addEdge u v dt ek = { G with edges := upsertEdge G.edges u v dt ek } := by
  unfold Graph.addEdge
  rw [ensureNode_of_mem G u hu, ensureNode_of_mem G v hv]

theorem foldl_addNode_nodes (k : String) :
    ∀ (fs : List String) (G : Graph),
      ((fs.foldl (fun g f => g.addNode f k) G).edges = G.edges) ∧
      (∀ x, x ∈ (fs.foldl (fun g f => g.addNode f k) G).nodes.map Prod.fst ↔
        x ∈ G.nodes.map Prod.fst ∨ x ∈ fs) := by
  intro fs
  induction fs with
  | nil =>
    intro G
    refine ⟨rfl, ?_⟩
    intro x
    simp
  | cons f fs ih =>
    intro G
    simp only [List.foldl_cons]
    obtain ⟨he, hn⟩ := ih (G.addNode f k)
    refine ⟨he, ?_⟩
    intro x
    rw [hn x]
    show x ∈ (mergeNode G.nodes f (some k)).map Prod.fst ∨ x ∈ fs ↔ _
    rw [mergeNode_names_mem]
    simp only [List.mem_cons]
    tauto

theorem foldl_addNode_kinds (k : String) (cl : String → String) :
    ∀ (fs : List String), (∀ f ∈ fs, cl f = k) →
    ∀ (G : Graph), (∀ p ∈ G.nodes, p.2 = some (cl p.1)) →
      ∀ p ∈ (fs.foldl (fun g f => g.addNode f k) G).nodes, p.2 = some (cl p.1) := by
  intro fs
  induction fs with
  | nil =>
    intro _ G hG
    exact hG
  | cons f fs ih =>
    intro hfs G hG
    simp only [List.foldl_cons]
    refine ih (fun f2 hf2 => hfs f2 (List.mem_cons_of_mem f hf2)) _ ?_
    exact mergeNode_kinds G.nodes f k cl hG (hfs f (List.mem_cons_self f fs))

theorem foldl_addNode_nodup (k : String) :
    ∀ (fs : List String) (G : Graph), (G.nodes.map Prod.fst).Nodup →
      ((fs.foldl (fun g f => g.addNode f k) G).nodes.map Prod.fst).Nodup := by
  intro fs
  induction fs with
  | nil =>
    intro G h
    exact h
  | cons f fs ih =>
    intro G h
    simp only [List.foldl_cons]
    exact ih _ (mergeNode_names_nodup G.nodes f (some k) h)

theorem foldl_addEdge_split (u0 : String) (dt : Option Nat) (ek : Option String) :
    ∀ (fs : List String) (G : Graph), u0 ∈ G.nodes.map Prod.fst →
      (∀ f ∈ fs, f ∈ G.nodes.map Prod.fst) →
      (fs.foldl (fun g f => g.addEdge u0 f dt ek) G).nodes = G.nodes ∧
      (fs.foldl (fun g f => g.addEdge u0 f dt ek) G).edges =
        fs.foldl (fun es f => upsertEdge es u0 f dt ek) G.edges := by
  intro fs
  induction fs with
  | nil =>
    intro G _ _
    exact ⟨rfl, rfl⟩
  | cons f fs ih =>
    intro G hu hfs
    simp only [List.foldl_cons]
    have hstep : G.addEdge u0 f dt ek =
        { G with edges := upsertEdge G.edges u0 f dt ek } :=
      addEdge_of_mem G u0 f dt ek hu (hfs f (List.mem_cons_self f fs))
    rw [hstep]
    exact ih _ hu (fun f2 hf2 => hfs f2 (List.mem_cons_of_mem f hf2))

/-- Shape of every edge the program ever creates: an authored edge from a
developer to a change set (no date, no kind), or a dated include/link edge
from a change set to a file/issue. -/
def EdgeShape (cl : String → String) (e : Edge) : Prop :=
  (cl e.u = "Developer" ∧ cl e.v = "ChangeSet" ∧ e.edate = none ∧ e.ekind = none) ∨
  (cl e.u = "ChangeSet" ∧
    ((cl e.v = "File" ∧ e.ekind = some "include") ∨
     (cl e.v = "Issue" ∧ e.ekind = some "link")))

/-- The structural invariant of graphs built by the program under a kind
classifier: unique node names, no duplicate edge pairs, closed edge
endpoints, kinds given by the classifier, classified edge shapes, and a
single date per edge source. -/
def INV (cl : String → String) (G : Graph) : Prop :=
  (G.nodes.map Prod.fst).Nodup ∧
  G.edges.Pairwise (fun e1 e2 => ¬ e1.isPair e2.u e2.v) ∧
  (∀ e ∈ G.edges, e.u ∈ G.nodes.map Prod.fst ∧ e.v ∈ G.nodes.map Prod.fst) ∧
  (∀ p ∈ G.nodes, p.2 = some (cl p.1)) ∧
  (∀ e ∈ G.edges, EdgeShape cl e) ∧
  (∀ e1 ∈ G.edges, ∀ e2 ∈ G.edges, e1.u = e2.u → e1.edate = e2.edate)

/-- Every ChangeSet-classified node of the graph is one of the applied commit
hashes. -/
def HashesBound (cl : String → String) (H : List String) (G : Graph) : Prop :=
  ∀ p ∈ G.nodes, cl p.1 = "ChangeSet" → p.1 ∈ H

theorem filesAddModify_cl (cl : String → String) (cs : ChangeSet)
    (h : ClassifiedCS cl cs) : ∀ f ∈ filesAddModify cs, cl f = "File" := by
  intro f hf
  obtain ⟨cc, hcc, he⟩ := List.mem_map.mp hf
  rw [← he]
  exact (h.2.2.1 cc (List.mem_of_mem_filter hcc)).1

theorem filesDelete_cl (cl : String → String) (cs : ChangeSet)
    (h : ClassifiedCS cl cs) : ∀ f ∈ filesDelete cs, cl f = "File" := by
  intro f hf
  obtain ⟨cc, hcc, he⟩ := List.mem_map.mp hf
  rw [← he]
  exact (h.2.2.1 cc (List.mem_of_mem_filter hcc)).1

theorem mapped_collision_eq (cl : String → String) (m : List (String × String))
    (hm : FileMap cl m) (G : Graph)
    (hshape : ∀ e ∈ G.edges, EdgeShape cl e)
    (hdate : ∀ e1 ∈ G.edges, ∀ e2 ∈ G.edges, e1.u = e2.u → e1.edate = e2.edate) :
    ∀ e1 ∈ G.edges, ∀ e2 ∈ G.edges,
      (Edge.mk (mapName m e1.u) (mapName m e1.v) e1.edate e1.ekind).isPair
        (mapName m e2.u) (mapName m e2.v) →
      Edge.mk (mapName m e1.u) (mapName m e1.v) e1.edate e1.ekind =
        Edge.mk (mapName m e2.u) (mapName m e2.v) e2.edate e2.ekind := by
  intro e1 h1 e2 h2 hp
  have hc1 := hshape e1 h1
  have hc2 := hshape e2 h2
  have hcu1 : cl (mapName m e1.u) = cl e1.u := mapName_cl cl m hm _
  have hcv1 : cl (mapName m e1.v) = cl e1.v := mapName_cl cl m hm _
  have hcu2 : cl (mapName m e2.u) = cl e2.u := mapName_cl cl m hm _
  have hcv2 : cl (mapName m e2.v) = cl e2.v := mapName_cl cl m hm _
  unfold Edge.isPair at hp
  simp only at hp
  simp only [Edge.mk.injEq]
  rcases hc1 with ⟨hA1, hB1, hD1, hK1⟩ | ⟨hA1, hBK1⟩
  · rcases hc2 with ⟨hA2, hB2, hD2, hK2⟩ | ⟨hA2, hBK2⟩
    · -- both authored
      rcases hp with ⟨hx, hy⟩ | ⟨hx, hy⟩
      · refine ⟨hx, hy, ?_, ?_⟩
        · rw [hD1, hD2]
        · rw [hK1, hK2]
      · exfalso
        have : cl (mapName m e1.u) = cl (mapName m e2.v) := by rw [hx]
        rw [hcu1, hcv2, hA1, hB2] at this
        exact absurd this (by decide)
    · -- authored vs dated
      rcases hp with ⟨hx, _⟩ | ⟨hx, _⟩
      · exfalso
        have : cl (mapName m e1.u) = cl (mapName m e2.u) := by rw [hx]
        rw [hcu1, hcu2, hA1, hA2] at this
        exact absurd this (by decide)
      · exfalso
        have : cl (mapName m e1.u) = cl (mapName m e2.v) := by rw [hx]
        rw [hcu1, hcv2, hA1] at this
        rcases hBK2 with ⟨hX, _⟩ | ⟨hX, _⟩
        · rw [hX] at this
          exact absurd this (by decide)
        · rw [hX] at this
          exact absurd this (by decide)
  · rcases hc2 with ⟨hA2, hB2, hD2, hK2⟩ | ⟨hA2, hBK2⟩
    · -- dated vs authored
      rcases hp with ⟨hx, _⟩ | ⟨_, hy⟩
      · exfalso
        have : cl (mapName m e1.u) = cl (mapName m e2.u) := by rw [hx]
        rw [hcu1, hcu2, hA1, hA2] at this
        exact absurd this (by decide)
      · exfalso
        have : cl (mapName m e1.v) = cl (mapName m e2.u) := by rw [hy]
        rw [hcv1, hcu2, hA2] at this
        rcases hBK1 with ⟨hX, _⟩ | ⟨hX, _⟩
        · rw [hX] at this
          exact absurd this (by decide)
        · rw [hX] at this
          exact absurd this (by decide)
    · -- both dated
      rcases hp with ⟨hx, hy⟩ | ⟨hx, _⟩
      · -- aligned: same mapped source and target
        have hu12 : e1.u = e2.u := by
          have hu1 : mapName m e1.u = e1.u :=
            mapName_id_of_ne_file cl m hm _ (by rw [hA1]; decide)
          have hu2 : mapName m e2.u = e2.u :=
            mapName_id_of_ne_file cl m hm _ (by rw [hA2]; decide)
          rw [← hu1, ← hu2, hx]
        refine ⟨hx, hy, hdate e1 h1 e2 h2 hu12, ?_⟩
        have hclv : cl e1.v = cl e2.v := by
          rw [← hcv1, ← hcv2, hy]
        rcases hBK1 with ⟨hX1, hKK1⟩ | ⟨hX1, hKK1⟩ <;>
          rcases hBK2 with ⟨hX2, hKK2⟩ | ⟨hX2, hKK2⟩
        · rw [hKK1, hKK2]
        · exfalso
          rw [hX1, hX2] at hclv
          exact absurd hclv (by decide)
        · exfalso
          rw [hX1, hX2] at hclv
          exact absurd hclv (by decide)
        · rw [hKK1, hKK2]
      · exfalso
        have : cl (mapName m e1.u) = cl (mapName m e2.v) := by rw [hx]
        rw [hcu1, hcv2, hA1] at this
        rcases hBK2 with ⟨hX, _⟩ | ⟨hX, _⟩
        · rw [hX] at this
          exact absurd this (by decide)
        · rw [hX] at this
          exact absurd this (by decide)

/-- The rename-then-delete prefix of the per-change-set loop body. -/
def renameDelete (G : Graph) (cs : ChangeSet) : Graph :=
  (G.renameNodes (renameDict cs)).removeNodes (filesDelete cs)

/-- The node-and-edge-adding suffix of the per-change-set loop body. -/
def addSegment (G2 : Graph) (cs : ChangeSet) : Graph :=
  let fam := filesAddModify cs
  let G3 := G2.addNode cs.commitHash "ChangeSet"
  let G4 := G3.addNode cs.author "Developer"
  let G5 := G4.addEdge cs.author cs.commitHash none none
  let G6 := fam.foldl (fun g f => g.addNode f "File") G5
  let G7 := fam.foldl
    (fun g f => g.addEdge cs.commitHash f (some cs.date) (some "include")) G6
  let G8 := cs.issues.foldl (fun g i => g.addNode i "Issue") G7
  cs.issues.foldl (fun g i => g.addEdge cs.commitHash i (some cs.date) (some "link")) G8

theorem applyChangeSet_large (lim : Nat) (G : Graph) (cs : ChangeSet)
    (h : (filesAddModify cs).length > lim) :
    applyChangeSet lim G cs = renameDelete G cs := by
  unfold applyChangeSet renameDelete
  rw [if_pos h]

theorem applyChangeSet_small (lim : Nat) (G : Graph) (cs : ChangeSet)
    (h : ¬ (filesAddModify cs).length > lim) :
    applyChangeSet lim G cs = addSegment (renameDelete G cs) cs := by
  unfold applyChangeSet renameDelete addSegment
  rw [if_neg h]

theorem addSegment_spec (cl : String → String) (G2 : Graph) (cs : ChangeSet)
    (hinv : INV cl G2) (hcs : ClassifiedCS cl cs)
    (hfresh : cs.commitHash ∉ G2.nodes.map Prod.fst) :
    (∀ x, x ∈ (addSegment G2 cs).nodes.map Prod.fst ↔
      x ∈ G2.nodes.map Prod.fst ∨ x = cs.commitHash ∨ x = cs.author ∨
        x ∈ filesAddModify cs ∨ x ∈ cs.issues) ∧
    (∀ e, e ∈ (addSegment G2 cs).edges ↔
      e ∈ G2.edges ∨ e = ⟨cs.author, cs.commitHash, none, none⟩ ∨
        (∃ f ∈ filesAddModify cs,
          e = ⟨cs.commitHash, f, some cs.date, some "include"⟩) ∨
        (∃ i ∈ cs.issues, e = ⟨cs.commitHash, i, some cs.date, some "link"⟩)) ∧
    INV cl (addSegment G2 cs) := by
  obtain ⟨hnd, hpw, hclosed, h4, hshape, hdate⟩ := hinv
  have hch := hcs.1
  have hca := hcs.2.1
  have hFile := filesAddModify_cl cl cs hcs
  have hIss := hcs.2.2.2
  have hfh : ∀ f ∈ filesAddModify cs, f ≠ cs.commitHash := by
    intro f hf he
    have h1 := hFile f hf
    rw [he, hch] at h1
    exact absurd h1 (by decide)
  have hih : ∀ i ∈ cs.issues, i ≠ cs.commitHash := by
    intro i hi he
    have h1 := hIss i hi
    rw [he, hch] at h1
    exact absurd h1 (by decide)
  have hah : cs.author ≠ cs.commitHash := by
    intro he
    have h1 : cl cs.author = cl cs.commitHash := by rw [he]
    rw [hca, hch] at h1
    exact absurd h1 (by decide)
  have hnoh : ∀ e ∈ G2.edges, e.u ≠ cs.commitHash ∧ e.v ≠ cs.commitHash := by
    intro e he
    exact ⟨fun hc => hfresh (hc ▸ (hclosed e he).1),
      fun hc => hfresh (hc ▸ (hclosed e he).2)⟩
  have hhash4 : cs.commitHash ∈ (mergeNode (mergeNode G2.nodes cs.commitHash
      (some "ChangeSet")) cs.author (some "Developer")).map Prod.fst := by
    rw [mergeNode_names_mem, mergeNode_names_mem]
    exact Or.inl (Or.inr rfl)
  have hauth4 : cs.author ∈ (mergeNode (mergeNode G2.nodes cs.commitHash
      (some "ChangeSet")) cs.author (some "Developer")).map Prod.fst := by
    rw [mergeNode_names_mem]
    exact Or.inr rfl
  have hG5eq : ((G2.addNode cs.commitHash "ChangeSet").addNode cs.author
        "Developer").addEdge cs.author cs.commitHash none none =
      { nodes := mergeNode (mergeNode G2.nodes cs.commitHash (some "ChangeSet"))
          cs.author (some "Developer"),
        edges := G2.edges ++ [⟨cs.author, cs.commitHash, none, none⟩] } := by
    have hG4eq : (G2.addNode cs.commitHash "ChangeSet").addNode cs.author
        "Developer" =
        { nodes := mergeNode (mergeNode G2.nodes cs.commitHash (some "ChangeSet"))
            cs.author (some "Developer"),
          edges := G2.edges } := rfl
    rw [hG4eq, addEdge_of_mem _ _ _ _ _ hauth4 hhash4]
    have hup : upsertEdge G2.edges cs.author cs.commitHash none none =
        G2.edges ++ [⟨cs.author, cs.commitHash, none, none⟩] := by
      refine upsertEdge_append_of_no_pair _ _ _ _ _ ?_
      intro e he hp
      unfold Edge.isPair at hp
      rcases hp with ⟨_, h2⟩ | ⟨h1, _⟩
      · exact (hnoh e he).2 h2
      · exact (hnoh e he).1 h1
    rw [hup]
  have hASeq : addSegment G2 cs =
      cs.issues.foldl
        (fun g i => g.addEdge cs.commitHash i (some cs.date) (some "link"))
        (cs.issues.foldl (fun g i => g.addNode i "Issue")
          ((filesAddModify cs).foldl
            (fun g f => g.addEdge cs.commitHash f (some cs.date) (some "include"))
            ((filesAddModify cs).foldl (fun g f => g.addNode f "File")
              (((G2.addNode cs.commitHash "ChangeSet").addNode cs.author
                "Developer").addEdge cs.author cs.commitHash none none)))) := rfl
  rw [hASeq, hG5eq]
  set G5 : Graph :=
    { nodes := mergeNode (mergeNode G2.nodes cs.commitHash (some "ChangeSet"))
        cs.author (some "Developer"),
      edges := G2.edges ++ [⟨cs.author, cs.commitHash, none, none⟩] } with hG5
  have names5 : ∀ x, x ∈ G5.nodes.map Prod.fst ↔
      x ∈ G2.nodes.map Prod.fst ∨ x = cs.commitHash ∨ x = cs.author := by
    intro x
    rw [hG5]
    show x ∈ (mergeNode (mergeNode G2.nodes cs.commitHash (some "ChangeSet"))
      cs.author (some "Developer")).map Prod.fst ↔ _
    rw [mergeNode_names_mem, mergeNode_names_mem]
    tauto
  have kinds5 : ∀ p ∈ G5.nodes, p.2 = some (cl p.1) :=
    mergeNode_kinds _ _ _ cl (mergeNode_kinds _ _ _ cl h4 hch) hca
  have nodup5 : (G5.nodes.map Prod.fst).Nodup :=
    mergeNode_names_nodup _ _ _ (mergeNode_names_nodup _ _ _ hnd)
  have edges5 : G5.edges = G2.edges ++ [⟨cs.author, cs.commitHash, none, none⟩] :=
    rfl
  have pw5 : G5.edges.Pairwise (fun e1 e2 => ¬ e1.isPair e2.u e2.v) := by
    rw [edges5, List.pairwise_append]
    refine ⟨hpw, List.pairwise_singleton _ _, ?_⟩
    intro e1 he1 e2 he2
    rw [List.mem_singleton.mp he2]
    intro hp
    unfold Edge.isPair at hp
    rcases hp with ⟨h1, h2⟩ | ⟨h1, h2⟩
    · exact (hnoh e1 he1).2 h2
    · exact (hnoh e1 he1).1 h1
  -- stage 6: file nodes
  obtain ⟨edges6, names6⟩ := foldl_addNode_nodes "File" (filesAddModify cs) G5
  have kinds6 := foldl_addNode_kinds "File" cl (filesAddModify cs) hFile G5 kinds5
  have nodup6 := foldl_addNode_nodup "File" (filesAddModify cs) G5 nodup5
  set G6 : Graph := (filesAddModify cs).foldl (fun g f => g.addNode f "File") G5
    with hG6
  -- stage 7: include edges
  have hhash6 : cs.commitHash ∈ G6.nodes.map Prod.fst := by
    rw [names6]
    left
    rw [names5]
    right
    left
    rfl
  have hfam6 : ∀ f ∈ filesAddModify cs, f ∈ G6.nodes.map Prod.fst := by
    intro f hf
    rw [names6]
    right
    exact hf
  obtain ⟨nodes7, edges7⟩ := foldl_addEdge_split cs.commitHash (some cs.date)
    (some "include") (filesAddModify cs) G6 hhash6 hfam6
  have hno7 : ∀ x ∈ G6.edges, ∀ f ∈ filesAddModify cs,
      x.isPair cs.commitHash f →
        x = ⟨cs.commitHash, f, some cs.date, some "include"⟩ := by
    intro x hx f hf hp
    rw [edges6, edges5] at hx
    unfold Edge.isPair at hp
    exfalso
    rcases List.mem_append.mp hx with h | h
    · rcases hp with ⟨h1, _⟩ | ⟨_, h2⟩
      · exact (hnoh x h).1 h1
      · exact (hnoh x h).2 h2
    · rw [List.mem_singleton.mp h] at hp
      simp only at hp
      rcases hp with ⟨h1, _⟩ | ⟨h1, _⟩
      · exact hah h1
      · have h3 := hFile f hf
        rw [← h1, hca] at h3
        exact absurd h3 (by decide)
  have hpw6 : G6.edges.Pairwise (fun e1 e2 => ¬ e1.isPair e2.u e2.v) := by
    rw [edges6]
    exact pw5
  obtain ⟨hmem7, hpw7⟩ := foldl_upsert_const cs.commitHash (some cs.date)
    (some "include") (filesAddModify cs) hfh G6.edges hpw6 hno7
  set G7 : Graph := (filesAddModify cs).foldl
    (fun g f => g.addEdge cs.commitHash f (some cs.date) (some "include")) G6
    with hG7
  have edges7m : ∀ x, x ∈ G7.edges ↔ x ∈ G6.edges ∨
      ∃ f ∈ filesAddModify cs,
        x = ⟨cs.commitHash, f, some cs.date, some "include"⟩ := by
    intro x
    rw [hG7, edges7]
    exact hmem7 x
  have pw7 : G7.edges.Pairwise (fun e1 e2 => ¬ e1.isPair e2.u e2.v) := by
    rw [hG7, edges7]
    exact hpw7
  have names7 : G7.nodes = G6.nodes := by
    rw [hG7, nodes7]
  -- stage 8: issue nodes
  obtain ⟨edges8, names8⟩ := foldl_addNode_nodes "Issue" cs.issues G7
  have kinds8 := foldl_addNode_kinds "Issue" cl cs.issues hIss G7
    (by rw [names7]; exact kinds6)
  have nodup8 := foldl_addNode_nodup "Issue" cs.issues G7
    (by rw [names7]; exact nodup6)
  set G8 : Graph := cs.issues.foldl (fun g i => g.addNode i "Issue") G7 with hG8
  -- stage 9: link edges
  have hhash8 : cs.commitHash ∈ G8.nodes.map Prod.fst := by
    rw [names8]
    left
    rw [names7]
    exact hhash6
  have hiss8 : ∀ i ∈ cs.issues, i ∈ G8.nodes.map Prod.fst := by
    intro i hi
    rw [names8]
    right
    exact hi
  obtain ⟨nodes9, edges9⟩ := foldl_addEdge_split cs.commitHash (some cs.date)
    (some "link") cs.issues G8 hhash8 hiss8
  have hno9 : ∀ x ∈ G8.edges, ∀ i ∈ cs.issues,
      x.isPair cs.commitHash i →
        x = ⟨cs.commitHash, i, some cs.date, some "link"⟩ := by
    intro x hx i hi hp
    rw [edges8] at hx
    exfalso
    rcases (edges7m x).mp hx with h | h
    · rw [edges6, edges5] at h
      rcases List.mem_append.mp h with h | h
      · unfold Edge.isPair at hp
        rcases hp with ⟨h1, _⟩ | ⟨_, h2⟩
        · exact (hnoh x h).1 h1
        · exact (hnoh x h).2 h2
      · rw [List.mem_singleton.mp h] at hp
        unfold Edge.isPair at hp
        simp only at hp
        rcases hp with ⟨h1, _⟩ | ⟨h1, _⟩
        · exact hah h1
        · have h3 := hIss i hi
          rw [← h1, hca] at h3
          exact absurd h3 (by decide)
    · obtain ⟨f, hf, hx2⟩ := h
      rw [hx2] at hp
      unfold Edge.isPair at hp
      simp only at hp
      rcases hp with ⟨_, h2⟩ | ⟨h1, _⟩
      · have h3 := hFile f hf
        have h5 := hIss i hi
        rw [h2, h5] at h3
        exact absurd h3 (by decide)
      · exact absurd h1.symm (hih i hi)
  have hpw8 : G8.edges.Pairwise (fun e1 e2 => ¬ e1.isPair e2.u e2.v) := by
    rw [edges8]
    exact pw7
  obtain ⟨hmem9, hpw9⟩ := foldl_upsert_const cs.commitHash (some cs.date)
    (some "link") cs.issues hih G8.edges hpw8 hno9
  -- assemble the three conjuncts
  have hnamesF : ∀ x,
      x ∈ (cs.issues.foldl (fun g i =>
        g.addEdge cs.commitHash i (some cs.date) (some "link")) G8).nodes.map
          Prod.fst ↔
      x ∈ G2.nodes.map Prod.fst ∨ x = cs.commitHash ∨ x = cs.author ∨
        x ∈ filesAddModify cs ∨ x ∈ cs.issues := by
    intro x
    rw [nodes9, names8, names7, names6, names5]
    tauto
  have hedgesF : ∀ e,
      e ∈ (cs.issues.foldl (fun g i =>
        g.addEdge cs.commitHash i (some cs.date) (some "link")) G8).edges ↔
      e ∈ G2.edges ∨ e = ⟨cs.author, cs.commitHash, none, none⟩ ∨
        (∃ f ∈ filesAddModify cs,
          e = ⟨cs.commitHash, f, some cs.date, some "include"⟩) ∨
        (∃ i ∈ cs.issues, e = ⟨cs.commitHash, i, some cs.date, some "link"⟩) := by
    intro e
    rw [edges9, hmem9 e, edges8, edges7m e, edges6, edges5]
    rw [List.mem_append, List.mem_singleton]
    constructor
    · rintro (((h | h) | h) | h)
      · exact Or.inl h
      · exact Or.inr (Or.inl h)
      · exact Or.inr (Or.inr (Or.inl h))
      · exact Or.inr (Or.inr (Or.inr h))
    · rintro (h | h | h | h)
      · exact Or.inl (Or.inl (Or.inl h))
      · exact Or.inl (Or.inl (Or.inr h))
      · exact Or.inl (Or.inr h)
      · exact Or.inr h
  refine ⟨hnamesF, hedgesF, ?_, ?_, ?_, ?_, ?_, ?_⟩
  · -- nodup
    rw [nodes9]
    exact nodup8
  · -- pairwise
    rw [edges9]
    exact hpw9
  · -- closed
    intro e he
    rcases (hedgesF e).mp he with h | h | h | h
    · exact ⟨(hnamesF _).mpr (Or.inl (hclosed e h).1),
        (hnamesF _).mpr (Or.inl (hclosed e h).2)⟩
    · rw [h]
      exact ⟨(hnamesF _).mpr (Or.inr (Or.inr (Or.inl rfl))),
        (hnamesF _).mpr (Or.inr (Or.inl rfl))⟩
    · obtain ⟨f, hf, he2⟩ := h
      rw [he2]
      exact ⟨(hnamesF _).mpr (Or.inr (Or.inl rfl)),
        (hnamesF _).mpr (Or.inr (Or.inr (Or.inr (Or.inl hf))))⟩
    · obtain ⟨i, hi, he2⟩ := h
      rw [he2]
      exact ⟨(hnamesF _).mpr (Or.inr (Or.inl rfl)),
        (hnamesF _).mpr (Or.inr (Or.inr (Or.inr (Or.inr hi))))⟩
  · -- kinds
    rw [nodes9]
    exact kinds8
  · -- shape
    intro e he
    rcases (hedgesF e).mp he with h | h | h | h
    · exact hshape e h
    · rw [h]
      exact Or.inl ⟨hca, hch, rfl, rfl⟩
    · obtain ⟨f, hf, he2⟩ := h
      rw [he2]
      exact Or.inr ⟨hch, Or.inl ⟨hFile f hf, rfl⟩⟩
    · obtain ⟨i, hi, he2⟩ := h
      rw [he2]
      exact Or.inr ⟨hch, Or.inr ⟨hIss i hi, rfl⟩⟩
  · -- same-source dates
    intro e1 h1 e2 h2 hu
    have hclassify : ∀ e, (e ∈ G2.edges ∨ e = ⟨cs.author, cs.commitHash, none, none⟩ ∨
        (∃ f ∈ filesAddModify cs,
          e = ⟨cs.commitHash, f, some cs.date, some "include"⟩) ∨
        (∃ i ∈ cs.issues, e = ⟨cs.commitHash, i, some cs.date, some "link"⟩)) →
        e ∈ G2.edges ∨ (e.u = cs.author ∧ e.edate = none) ∨
          (e.u = cs.commitHash ∧ e.edate = some cs.date) := by
      intro e h
      rcases h with h | h | h | h
      · exact Or.inl h
      · rw [h]
        exact Or.inr (Or.inl ⟨rfl, rfl⟩)
      · obtain ⟨f, _, he2⟩ := h
        rw [he2]
        exact Or.inr (Or.inr ⟨rfl, rfl⟩)
      · obtain ⟨i, _, he2⟩ := h
        rw [he2]
        exact Or.inr (Or.inr ⟨rfl, rfl⟩)
    have hG2a : ∀ e ∈ G2.edges, e.u = cs.author → e.edate = none := by
      intro e he hea
      rcases hshape e he with ⟨_, _, hD, _⟩ | ⟨hA, _⟩
      · exact hD
      · rw [hea, hca] at hA
        exact absurd hA (by decide)
    rcases hclassify e1 ((hedgesF e1).mp h1) with c1 | ⟨c1u, c1d⟩ | ⟨c1u, c1d⟩ <;>
      rcases hclassify e2 ((hedgesF e2).mp h2) with c2 | ⟨c2u, c2d⟩ | ⟨c2u, c2d⟩
    · exact hdate e1 c1 e2 c2 hu
    · rw [hG2a e1 c1 (hu.trans c2u), c2d]
    · exact absurd (hu.trans c2u) (hnoh e1 c1).1
    · rw [hG2a e2 c2 (hu.symm.trans c1u), c1d]
    · rw [c1d, c2d]
    · exact absurd (c1u.symm.trans (hu.trans c2u)) hah
    · exact absurd (hu.symm.trans c1u) (hnoh e2 c2).1
    · exact absurd (c2u.symm.trans (hu.symm.trans c1u)) hah
    · rw [c1d, c2d]

/-- Equality of the node set and edge set of two graphs. -/
def GEquiv (G H : Graph) : Prop :=
  (∀ p, p ∈ G.nodes ↔ p ∈ H.nodes) ∧ (∀ e, e ∈ G.edges ↔ e ∈ H.edges)

theorem GEquiv.refl (G : Graph) : GEquiv G G :=
  ⟨fun _ => Iff.rfl, fun _ => Iff.rfl⟩

theorem GEquiv.names (G H : Graph) (h : GEquiv G H) :
    ∀ x, x ∈ G.nodes.map Prod.fst ↔ x ∈ H.nodes.map Prod.fst := by
  intro x
  constructor
  · intro hx
    obtain ⟨p, hp, he⟩ := List.mem_map.mp hx
    rw [← he]
    exact List.mem_map_of_mem Prod.fst ((h.1 p).mp hp)
  · intro hx
    obtain ⟨p, hp, he⟩ := List.mem_map.mp hx
    rw [← he]
    exact List.mem_map_of_mem Prod.fst ((h.1 p).mpr hp)

theorem nodes_iff_of_names (cl : String → String) (G H : Graph)
    (h4G : ∀ p ∈ G.nodes, p.2 = some (cl p.1))
    (h4H : ∀ p ∈ H.nodes, p.2 = some (cl p.1))
    (hn : ∀ x, x ∈ G.nodes.map Prod.fst ↔ x ∈ H.nodes.map Prod.fst) :
    ∀ p, p ∈ G.nodes ↔ p ∈ H.nodes := by
  intro p
  constructor
  · intro hp
    have hx := (hn p.1).mp (List.mem_map_of_mem Prod.fst hp)
    obtain ⟨q, hq, he⟩ := List.mem_map.mp hx
    have hq2 := h4H q hq
    have hp2 := h4G p hp
    have : p = q := by
      obtain ⟨p1, p2⟩ := p
      obtain ⟨q1, q2⟩ := q
      simp only at he hq2 hp2
      rw [he] at hq2 ⊢
      rw [hp2, hq2]
    rw [this]
    exact hq
  · intro hp
    have hx := (hn p.1).mpr (List.mem_map_of_mem Prod.fst hp)
    obtain ⟨q, hq, he⟩ := List.mem_map.mp hx
    have hq2 := h4G q hq
    have hp2 := h4H p hp
    have : p = q := by
      obtain ⟨p1, p2⟩ := p
      obtain ⟨q1, q2⟩ := q
      simp only at he hq2 hp2
      rw [he] at hq2 ⊢
      rw [hp2, hq2]
    rw [this]
    exact hq

theorem renameNodes_names_iff2 (G : Graph) (m : List (String × String))
    (x : String) :
    x ∈ (G.renameNodes m).nodes.map Prod.fst ↔
      ∃ y ∈ G.nodes.map Prod.fst, mapName m y = x := by
  by_cases hm : m = []
  · subst hm
    unfold Graph.renameNodes
    rw [if_pos rfl]
    constructor
    · intro h
      exact ⟨x, h, rfl⟩
    · rintro ⟨y, hy, he⟩
      rw [mapName_nil] at he
      rw [← he]
      exact hy
  · exact renameNodes_names_iff G m hm x

theorem renameNodes_edges_iff2 (G : Graph) (m : List (String × String))
    (hpw : G.edges.Pairwise (fun e1 e2 => ¬ e1.isPair e2.u e2.v))
    (hcoll : ∀ e1 ∈ G.edges, ∀ e2 ∈ G.edges,
      (Edge.mk (mapName m e1.u) (mapName m e1.v) e1.edate e1.ekind).isPair
        (mapName m e2.u) (mapName m e2.v) →
      Edge.mk (mapName m e1.u) (mapName m e1.v) e1.edate e1.ekind =
        Edge.mk (mapName m e2.u) (mapName m e2.v) e2.edate e2.ekind) (x : Edge) :
    x ∈ (G.renameNodes m).edges ↔
      ∃ e ∈ G.edges, x = Edge.mk (mapName m e.u) (mapName m e.v) e.edate e.ekind := by
  by_cases hm : m = []
  · subst hm
    unfold Graph.renameNodes
    rw [if_pos rfl]
    constructor
    · intro h
      exact ⟨x, h, rfl⟩
    · rintro ⟨e, he, hx⟩
      rw [hx]
      exact he
  · exact renameNodes_edges_iff G m hm hpw hcoll x

theorem INV_renameNodes (cl : String → String) (G : Graph)
    (m : List (String × String)) (hinv : INV cl G) (hm : FileMap cl m) :
    INV cl (G.renameNodes m) := by
  obtain ⟨hnd, hpw, hclosed, h4, hshape, hdate⟩ := hinv
  have hcoll := mapped_collision_eq cl m hm G hshape hdate
  have hedges := renameNodes_edges_iff2 G m hpw hcoll
  have hnames := renameNodes_names_iff2 G m
  refine ⟨renameNodes_names_nodup G m hnd,
    renameNodes_edges_pairwise G m hpw hcoll, ?_, ?_, ?_, ?_⟩
  · intro e he
    obtain ⟨e0, he0, hx⟩ := (hedges e).mp he
    rw [hx]
    constructor
    · exact (hnames _).mpr ⟨e0.u, (hclosed e0 he0).1, rfl⟩
    · exact (hnames _).mpr ⟨e0.v, (hclosed e0 he0).2, rfl⟩
  · exact renameNodes_kinds G m cl (fun x => mapName_cl cl m hm x) h4
  · intro e he
    obtain ⟨e0, he0, hx⟩ := (hedges e).mp he
    rw [hx]
    rcases hshape e0 he0 with ⟨hA, hB, hD, hK⟩ | ⟨hA, hBK⟩
    · refine Or.inl ⟨?_, ?_, hD, hK⟩
      · rw [mapName_cl cl m hm]
        exact hA
      · rw [mapName_cl cl m hm]
        exact hB
    · refine Or.inr ⟨?_, ?_⟩
      · rw [mapName_cl cl m hm]
        exact hA
      · rcases hBK with ⟨hB, hK⟩ | ⟨hB, hK⟩
        · exact Or.inl ⟨by rw [mapName_cl cl m hm]; exact hB, hK⟩
        · exact Or.inr ⟨by rw [mapName_cl cl m hm]; exact hB, hK⟩
  · intro e1 h1 e2 h2 hu
    obtain ⟨f1, hf1, hx1⟩ := (hedges e1).mp h1
    obtain ⟨f2, hf2, hx2⟩ := (hedges e2).mp h2
    have hid1 : mapName m f1.u = f1.u := by
      rcases hshape f1 hf1 with ⟨hA, _⟩ | ⟨hA, _⟩
      · exact mapName_id_of_ne_file cl m hm _ (by rw [hA]; decide)
      · exact mapName_id_of_ne_file cl m hm _ (by rw [hA]; decide)
    have hid2 : mapName m f2.u = f2.u := by
      rcases hshape f2 hf2 with ⟨hA, _⟩ | ⟨hA, _⟩
      · exact mapName_id_of_ne_file cl m hm _ (by rw [hA]; decide)
      · exact mapName_id_of_ne_file cl m hm _ (by rw [hA]; decide)
    rw [hx1, hx2] at hu
    simp only at hu
    rw [hid1, hid2] at hu
    rw [hx1, hx2]
    simp only
    exact hdate f1 hf1 f2 hf2 hu

theorem INV_removeNodes (cl : String → String) (G : Graph) (ns : List String)
    (hinv : INV cl G) : INV cl (G.removeNodes ns) := by
  obtain ⟨hnd, hpw, hclosed, h4, hshape, hdate⟩ := hinv
  by_cases hns : ns = []
  · subst hns
    unfold Graph.removeNodes
    rw [if_pos rfl]
    exact ⟨hnd, hpw, hclosed, h4, hshape, hdate⟩
  · refine ⟨?_, ?_, ?_, ?_, ?_, ?_⟩
    · -- nodup names
      unfold Graph.removeNodes
      rw [if_neg hns]
      refine List.Nodup.sublist ?_ hnd
      refine List.Sublist.map Prod.fst ?_
      exact ((List.filter_sublist _).trans (List.filter_sublist _))
    · rw [removeNodes_edges_eq G ns hns]
      exact List.Pairwise.sublist (List.filter_sublist _) hpw
    · intro e he
      rw [removeNodes_edges_eq G ns hns] at he
      have he2 := List.mem_filter.mp he
      rw [decide_eq_true_eq] at he2
      constructor
      · rw [removeNodes_names_mem G ns hns]
        exact ⟨(hclosed e he2.1).1, he2.2.1, e, he2.1, he2.2, Or.inl rfl⟩
      · rw [removeNodes_names_mem G ns hns]
        exact ⟨(hclosed e he2.1).2, he2.2.2, e, he2.1, he2.2, Or.inr rfl⟩
    · intro p hp
      exact h4 p (removeNodes_nodes_subset G ns p hp)
    · intro e he
      exact hshape e (removeNodes_edges_subset G ns e he)
    · intro e1 h1 e2 h2 hu
      exact hdate e1 (removeNodes_edges_subset G ns e1 h1)
        e2 (removeNodes_edges_subset G ns e2 h2) hu

theorem INV_applyChangeSet (cl : String → String) (lim : Nat) (G : Graph)
    (cs : ChangeSet) (hinv : INV cl G) (hcs : ClassifiedCS cl cs)
    (hb : ∀ x ∈ G.nodes.map Prod.fst, cl x = "ChangeSet" → x ≠ cs.commitHash) :
    INV cl (applyChangeSet lim G cs) := by
  have hinv2 : INV cl (renameDelete G cs) :=
    INV_removeNodes cl _ _ (INV_renameNodes cl G _ hinv
      (renameDict_fileMap cl cs hcs))
  have hfresh2 : cs.commitHash ∉ (renameDelete G cs).nodes.map Prod.fst := by
    intro hc
    unfold renameDelete at hc
    obtain ⟨p, hp, he⟩ := List.mem_map.mp hc
    have hp2 := removeNodes_nodes_subset _ _ p hp
    have hx := List.mem_map_of_mem Prod.fst hp2
    rw [he] at hx
    obtain ⟨y, hy, hye⟩ := (renameNodes_names_iff2 G _ cs.commitHash).mp hx
    by_cases hyf : cl y = "File"
    · have := mapName_cl cl _ (renameDict_fileMap cl cs hcs) y
      rw [hye, hcs.1, hyf] at this
      exact absurd this (by decide)
    · have hid : mapName (renameDict cs) y = y := by
        by_cases hyy : cl y = "File"
        · exact absurd hyy hyf
        · exact mapName_id_of_ne_file cl _ (renameDict_fileMap cl cs hcs) y hyy
      rw [hid] at hye
      rw [← hye] at hb
      exact hb y hy (by rw [hye, hcs.1]) rfl
  by_cases hlim : (filesAddModify cs).length > lim
  · rw [applyChangeSet_large lim G cs hlim]
    exact hinv2
  · rw [applyChangeSet_small lim G cs hlim]
    exact (addSegment_spec cl _ cs hinv2 hcs hfresh2).2.2

theorem removeNodes_nil (G : Graph) : G.removeNodes [] = G := by
  unfold Graph.removeNodes
  rw [if_pos rfl]

theorem renameDelete_fresh (cl : String → String) (G : Graph) (cs : ChangeSet)
    (hcs : ClassifiedCS cl cs)
    (hb : ∀ x ∈ G.nodes.map Prod.fst, cl x = "ChangeSet" → x ≠ cs.commitHash) :
    cs.commitHash ∉ (renameDelete G cs).nodes.map Prod.fst := by
  intro hc
  unfold renameDelete at hc
  obtain ⟨p, hp, he⟩ := List.mem_map.mp hc
  have hp2 := removeNodes_nodes_subset _ _ p hp
  have hx := List.mem_map_of_mem Prod.fst hp2
  rw [he] at hx
  obtain ⟨y, hy, hye⟩ := (renameNodes_names_iff2 G _ cs.commitHash).mp hx
  by_cases hyf : cl y = "File"
  · have h1 := mapName_cl cl _ (renameDict_fileMap cl cs hcs) y
    rw [hye, hcs.1, hyf] at h1
    exact absurd h1 (by decide)
  · have hid : mapName (renameDict cs) y = y :=
      mapName_id_of_ne_file cl _ (renameDict_fileMap cl cs hcs) y hyf
    rw [hid] at hye
    rw [← hye] at hb
    exact hb y hy (by rw [hye, hcs.1]) rfl

theorem HB_applyChangeSet (cl : String → String) (lim : Nat) (G : Graph)
    (cs : ChangeSet) (H : List String) (hinv : INV cl G)
    (hcs : ClassifiedCS cl cs) (hb : HashesBound cl H G)
    (hfh : cs.commitHash ∉ H) :
    HashesBound cl (H ++ [cs.commitHash]) (applyChangeSet lim G cs) := by
  have hbn : ∀ x ∈ G.nodes.map Prod.fst, cl x = "ChangeSet" →
      x ≠ cs.commitHash := by
    intro x hx hcl he
    obtain ⟨q, hq, hqe⟩ := List.mem_map.mp hx
    have h1 := hb q hq (by rw [hqe]; exact hcl)
    rw [hqe, he] at h1
    exact hfh h1
  have hG2 : ∀ p ∈ (renameDelete G cs).nodes, cl p.1 = "ChangeSet" →
      p.1 ∈ H ++ [cs.commitHash] := by
    intro p hp hcl
    unfold renameDelete at hp
    have hp2 := removeNodes_nodes_subset _ _ p hp
    have hx := List.mem_map_of_mem Prod.fst hp2
    obtain ⟨y, hy, hye⟩ := (renameNodes_names_iff2 G _ p.1).mp hx
    have hcly : cl y = "ChangeSet" := by
      rw [← mapName_cl cl _ (renameDict_fileMap cl cs hcs) y, hye, hcl]
    have hid : mapName (renameDict cs) y = y :=
      mapName_id_of_ne_file cl _ (renameDict_fileMap cl cs hcs) y
        (by rw [hcly]; decide)
    rw [hid] at hye
    obtain ⟨q, hq, hqe⟩ := List.mem_map.mp hy
    refine List.mem_append.mpr (Or.inl ?_)
    rw [← hye, ← hqe]
    exact hb q hq (by rw [hqe, hye]; exact hcl)
  by_cases hlim : (filesAddModify cs).length > lim
  · rw [applyChangeSet_large lim G cs hlim]
    exact hG2
  · rw [applyChangeSet_small lim G cs hlim]
    have hinv2 : INV cl (renameDelete G cs) :=
      INV_removeNodes cl _ _ (INV_renameNodes cl G _ hinv
        (renameDict_fileMap cl cs hcs))
    have hfresh2 := renameDelete_fresh cl G cs hcs hbn
    obtain ⟨hnames, _, _⟩ := addSegment_spec cl _ cs hinv2 hcs hfresh2
    intro p hp hcl
    have hx := List.mem_map_of_mem Prod.fst hp
    rcases (hnames p.1).mp hx with h | h | h | h | h
    · obtain ⟨q, hq, hqe⟩ := List.mem_map.mp h
      rw [← hqe]
      exact hG2 q hq (by rw [hqe]; exact hcl)
    · rw [h]
      exact List.mem_append.mpr (Or.inr (List.mem_singleton.mpr rfl))
    · rw [h, hcs.2.1] at hcl
      exact absurd hcl (by decide)
    · have h1 := filesAddModify_cl cl cs hcs p.1 h
      rw [h1] at hcl
      exact absurd hcl (by decide)
    · have h1 := hcs.2.2.2 p.1 h
      rw [h1] at hcl
      exact absurd hcl (by decide)

theorem mapName_mem_R_iff (cl : String → String) (m : List (String × String))
    (R : List String) (hm : FileMap cl m)
    (hRcl : ∀ r ∈ R, cl r = "ChangeSet") (y : String) :
    mapName m y ∈ R ↔ y ∈ R := by
  constructor
  · intro h
    have h1 := hRcl _ h
    rw [mapName_cl cl m hm] at h1
    have hid : mapName m y = y :=
      mapName_id_of_ne_file cl m hm y (by rw [h1]; decide)
    rw [← hid]
    exact h
  · intro h
    have h1 := hRcl _ h
    have hid : mapName m y = y :=
      mapName_id_of_ne_file cl m hm y (by rw [h1]; decide)
    rw [hid]
    exact h

theorem comm_rename_purge (cl : String → String) (G : Graph)
    (m : List (String × String)) (R : List String) (hinv : INV cl G)
    (hm : FileMap cl m) (hR : R ≠ [])
    (hRcl : ∀ r ∈ R, cl r = "ChangeSet") :
    GEquiv ((G.renameNodes m).removeNodes R) ((G.removeNodes R).renameNodes m) := by
  obtain ⟨hnd, hpw, hclosed, h4, hshape, hdate⟩ := hinv
  have hcoll := mapped_collision_eq cl m hm G hshape hdate
  have hinvR := INV_removeNodes cl G R ⟨hnd, hpw, hclosed, h4, hshape, hdate⟩
  obtain ⟨hndR, hpwR, hclosedR, h4R, hshapeR, hdateR⟩ := hinvR
  have hcollR := mapped_collision_eq cl m hm (G.removeNodes R) hshapeR hdateR
  have hRiff := mapName_mem_R_iff cl m R hm hRcl
  have hedges : ∀ e, e ∈ ((G.renameNodes m).removeNodes R).edges ↔
      e ∈ ((G.removeNodes R).renameNodes m).edges := by
    intro e
    rw [removeNodes_edges_eq _ R hR, List.mem_filter, decide_eq_true_eq,
      renameNodes_edges_iff2 G m hpw hcoll e,
      renameNodes_edges_iff2 (G.removeNodes R) m hpwR hcollR e]
    constructor
    · rintro ⟨⟨e0, he0, hx⟩, hclean⟩
      refine ⟨e0, ?_, hx⟩
      rw [removeNodes_edges_eq _ R hR, List.mem_filter, decide_eq_true_eq]
      rw [hx] at hclean
      simp only at hclean
      exact ⟨he0, fun hc => hclean.1 ((hRiff e0.u).mpr hc),
        fun hc => hclean.2 ((hRiff e0.v).mpr hc)⟩
    · rintro ⟨e0, he0, hx⟩
      rw [removeNodes_edges_eq _ R hR, List.mem_filter, decide_eq_true_eq] at he0
      refine ⟨⟨e0, he0.1, hx⟩, ?_⟩
      rw [hx]
      simp only
      exact ⟨fun hc => he0.2.1 ((hRiff e0.u).mp hc),
        fun hc => he0.2.2 ((hRiff e0.v).mp hc)⟩
  have hnames : ∀ x, x ∈ ((G.renameNodes m).removeNodes R).nodes.map Prod.fst ↔
      x ∈ ((G.removeNodes R).renameNodes m).nodes.map Prod.fst := by
    intro x
    rw [removeNodes_names_mem _ R hR, renameNodes_names_iff2,
      renameNodes_names_iff2]
    constructor
    · rintro ⟨hx, hxR, e, he, hcl2, hinc⟩
      obtain ⟨e0, he0, hee⟩ := (renameNodes_edges_iff2 G m hpw hcoll e).mp he
      rw [hee] at hcl2 hinc
      simp only at hcl2 hinc
      rcases hinc with hinc | hinc
      · refine ⟨e0.u, ?_, hinc⟩
        rw [removeNodes_names_mem _ R hR]
        refine ⟨(hclosed e0 he0).1, fun hc => hcl2.1 ((hRiff e0.u).mpr hc),
          e0, he0, ⟨fun hc => hcl2.1 ((hRiff e0.u).mpr hc),
            fun hc => hcl2.2 ((hRiff e0.v).mpr hc)⟩, Or.inl rfl⟩
      · refine ⟨e0.v, ?_, hinc⟩
        rw [removeNodes_names_mem _ R hR]
        refine ⟨(hclosed e0 he0).2, fun hc => hcl2.2 ((hRiff e0.v).mpr hc),
          e0, he0, ⟨fun hc => hcl2.1 ((hRiff e0.u).mpr hc),
            fun hc => hcl2.2 ((hRiff e0.v).mpr hc)⟩, Or.inr rfl⟩
    · rintro ⟨y, hy, hye⟩
      rw [removeNodes_names_mem _ R hR] at hy
      obtain ⟨hyG, hyR, e0, he0, hcl2, hinc⟩ := hy
      refine ⟨⟨y, hyG, hye⟩, ?_, ?_⟩
      · intro hc
        rw [← hye] at hc
        exact hyR ((hRiff y).mp hc)
      · refine ⟨Edge.mk (mapName m e0.u) (mapName m e0.v) e0.edate e0.ekind,
          (renameNodes_edges_iff2 G m hpw hcoll _).mpr ⟨e0, he0, rfl⟩, ?_, ?_⟩
        · simp only
          exact ⟨fun hc => hcl2.1 ((hRiff e0.u).mp hc),
            fun hc => hcl2.2 ((hRiff e0.v).mp hc)⟩
        · simp only
          rcases hinc with hinc | hinc
          · exact Or.inl (by rw [hinc, hye])
          · exact Or.inr (by rw [hinc, hye])
  have h4L : ∀ p ∈ ((G.renameNodes m).removeNodes R).nodes,
      p.2 = some (cl p.1) := by
    intro p hp
    exact renameNodes_kinds G m cl (fun x => mapName_cl cl m hm x) h4 p
      (removeNodes_nodes_subset _ _ p hp)
  have h4R2 : ∀ p ∈ ((G.removeNodes R).renameNodes m).nodes,
      p.2 = some (cl p.1) :=
    renameNodes_kinds (G.removeNodes R) m cl (fun x => mapName_cl cl m hm x) h4R
  exact ⟨nodes_iff_of_names cl _ _ h4L h4R2 hnames, hedges⟩

theorem comm_remove_remove (cl : String → String) (G : Graph)
    (A B : List String) (hinv : INV cl G) (hA : A ≠ []) (hB : B ≠ []) :
    GEquiv ((G.removeNodes A).removeNodes B) ((G.removeNodes B).removeNodes A) := by
  obtain ⟨hnd, hpw, hclosed, h4, hshape, hdate⟩ := hinv
  have hedges : ∀ e, e ∈ ((G.removeNodes A).removeNodes B).edges ↔
      e ∈ ((G.removeNodes B).removeNodes A).edges := by
    intro e
    rw [removeNodes_edges_eq _ B hB, removeNodes_edges_eq _ A hA,
      removeNodes_edges_eq _ A hA, removeNodes_edges_eq _ B hB]
    simp only [List.mem_filter, decide_eq_true_eq]
    tauto
  have hnames : ∀ x, x ∈ ((G.removeNodes A).removeNodes B).nodes.map Prod.fst ↔
      x ∈ ((G.removeNodes B).removeNodes A).nodes.map Prod.fst := by
    intro x
    rw [removeNodes_names_mem _ B hB, removeNodes_names_mem _ A hA,
      removeNodes_names_mem _ A hA, removeNodes_names_mem _ B hB]
    constructor
    · rintro ⟨⟨hx, hxA, _⟩, hxB, e, he, hcl2, hinc⟩
      rw [removeNodes_edges_eq _ A hA, List.mem_filter, decide_eq_true_eq] at he
      have heB : e ∈ (G.removeNodes B).edges := by
        rw [removeNodes_edges_eq _ B hB, List.mem_filter, decide_eq_true_eq]
        exact ⟨he.1, hcl2.1, hcl2.2⟩
      exact ⟨⟨hx, hxB, e, he.1, hcl2, hinc⟩, hxA, e, heB,
        ⟨he.2.1, he.2.2⟩, hinc⟩
    · rintro ⟨⟨hx, hxB, _⟩, hxA, e, he, hcl2, hinc⟩
      rw [removeNodes_edges_eq _ B hB, List.mem_filter, decide_eq_true_eq] at he
      have heA : e ∈ (G.removeNodes A).edges := by
        rw [removeNodes_edges_eq _ A hA, List.mem_filter, decide_eq_true_eq]
        exact ⟨he.1, hcl2.1, hcl2.2⟩
      exact ⟨⟨hx, hxA, e, he.1, hcl2, hinc⟩, hxB, e, heA,
        ⟨he.2.1, he.2.2⟩, hinc⟩
  have h4A : ∀ p ∈ ((G.removeNodes A).removeNodes B).nodes,
      p.2 = some (cl p.1) := by
    intro p hp
    exact h4 p (removeNodes_nodes_subset _ _ p
      (removeNodes_nodes_subset _ _ p hp))
  have h4B : ∀ p ∈ ((G.removeNodes B).removeNodes A).nodes,
      p.2 = some (cl p.1) := by
    intro p hp
    exact h4 p (removeNodes_nodes_subset _ _ p
      (removeNodes_nodes_subset _ _ p hp))
  exact ⟨nodes_iff_of_names cl _ _ h4A h4B hnames, hedges⟩

theorem GEquiv.symm2 (G H : Graph) (h : GEquiv G H) : GEquiv H G :=
  ⟨fun p => (h.1 p).symm, fun e => (h.2 e).symm⟩

theorem GEquiv.trans2 (G H K : Graph) (h1 : GEquiv G H) (h2 : GEquiv H K) :
    GEquiv G K :=
  ⟨fun p => (h1.1 p).trans (h2.1 p), fun e => (h1.2 e).trans (h2.2 e)⟩

theorem HB_removeNodes (cl : String → String) (H : List String) (G : Graph)
    (ns : List String) (hb : HashesBound cl H G) :
    HashesBound cl H (G.removeNodes ns) :=
  fun p hp hcl => hb p (removeNodes_nodes_subset G ns p hp) hcl

theorem cong_rename (cl : String → String) (G H : Graph)
    (m : List (String × String)) (hinvG : INV cl G) (hinvH : INV cl H)
    (hm : FileMap cl m) (heq : GEquiv G H) :
    GEquiv (G.renameNodes m) (H.renameNodes m) := by
  obtain ⟨_, hpwG, _, h4G, hshapeG, hdateG⟩ := hinvG
  obtain ⟨_, hpwH, _, h4H, hshapeH, hdateH⟩ := hinvH
  have hcollG := mapped_collision_eq cl m hm G hshapeG hdateG
  have hcollH := mapped_collision_eq cl m hm H hshapeH hdateH
  have hnames : ∀ x, x ∈ (G.renameNodes m).nodes.map Prod.fst ↔
      x ∈ (H.renameNodes m).nodes.map Prod.fst := by
    intro x
    rw [renameNodes_names_iff2, renameNodes_names_iff2]
    constructor
    · rintro ⟨y, hy, he⟩
      exact ⟨y, (heq.names G H y).mp hy, he⟩
    · rintro ⟨y, hy, he⟩
      exact ⟨y, (heq.names G H y).mpr hy, he⟩
  have hedges : ∀ e, e ∈ (G.renameNodes m).edges ↔ e ∈ (H.renameNodes m).edges := by
    intro e
    rw [renameNodes_edges_iff2 G m hpwG hcollG e,
      renameNodes_edges_iff2 H m hpwH hcollH e]
    constructor
    · rintro ⟨e0, he0, hx⟩
      exact ⟨e0, (heq.2 e0).mp he0, hx⟩
    · rintro ⟨e0, he0, hx⟩
      exact ⟨e0, (heq.2 e0).mpr he0, hx⟩
  exact ⟨nodes_iff_of_names cl _ _
    (renameNodes_kinds G m cl (fun x => mapName_cl cl m hm x) h4G)
    (renameNodes_kinds H m cl (fun x => mapName_cl cl m hm x) h4H) hnames, hedges⟩

theorem cong_remove (cl : String → String) (G H : Graph) (ns : List String)
    (h4G : ∀ p ∈ G.nodes, p.2 = some (cl p.1))
    (h4H : ∀ p ∈ H.nodes, p.2 = some (cl p.1)) (heq : GEquiv G H) :
    GEquiv (G.removeNodes ns) (H.removeNodes ns) := by
  by_cases hns : ns = []
  · subst hns
    rw [removeNodes_nil, removeNodes_nil]
    exact heq
  · have hnames : ∀ x, x ∈ (G.removeNodes ns).nodes.map Prod.fst ↔
        x ∈ (H.removeNodes ns).nodes.map Prod.fst := by
      intro x
      rw [removeNodes_names_mem _ ns hns, removeNodes_names_mem _ ns hns]
      constructor
      · rintro ⟨hx, hxn, e, he, hcl2, hinc⟩
        exact ⟨(heq.names G H x).mp hx, hxn, e, (heq.2 e).mp he, hcl2, hinc⟩
      · rintro ⟨hx, hxn, e, he, hcl2, hinc⟩
        exact ⟨(heq.names G H x).mpr hx, hxn, e, (heq.2 e).mpr he, hcl2, hinc⟩
    have hedges : ∀ e, e ∈ (G.removeNodes ns).edges ↔
        e ∈ (H.removeNodes ns).edges := by
      intro e
      rw [removeNodes_edges_eq _ ns hns, removeNodes_edges_eq _ ns hns,
        List.mem_filter, List.mem_filter]
      constructor
      · rintro ⟨he, hd⟩
        exact ⟨(heq.2 e).mp he, hd⟩
      · rintro ⟨he, hd⟩
        exact ⟨(heq.2 e).mpr he, hd⟩
    refine ⟨nodes_iff_of_names cl _ _ ?_ ?_ hnames, hedges⟩
    · intro p hp
      exact h4G p (removeNodes_nodes_subset _ _ p hp)
    · intro p hp
      exact h4H p (removeNodes_nodes_subset _ _ p hp)

theorem cong_addSegment (cl : String → String) (G H : Graph) (cs : ChangeSet)
    (hinvG : INV cl G) (hinvH : INV cl H) (hcs : ClassifiedCS cl cs)
    (hfreshG : cs.commitHash ∉ G.nodes.map Prod.fst) (heq : GEquiv G H) :
    GEquiv (addSegment G cs) (addSegment H cs) := by
  have hfreshH : cs.commitHash ∉ H.nodes.map Prod.fst := by
    intro hc
    exact hfreshG ((heq.names G H _).mpr hc)
  obtain ⟨hnG, heG, hiG⟩ := addSegment_spec cl G cs hinvG hcs hfreshG
  obtain ⟨hnH, heH, hiH⟩ := addSegment_spec cl H cs hinvH hcs hfreshH
  have hnames : ∀ x, x ∈ (addSegment G cs).nodes.map Prod.fst ↔
      x ∈ (addSegment H cs).nodes.map Prod.fst := by
    intro x
    rw [hnG x, hnH x]
    constructor
    · rintro (h | h)
      · exact Or.inl ((heq.names G H x).mp h)
      · exact Or.inr h
    · rintro (h | h)
      · exact Or.inl ((heq.names G H x).mpr h)
      · exact Or.inr h
  have hedges : ∀ e, e ∈ (addSegment G cs).edges ↔ e ∈ (addSegment H cs).edges := by
    intro e
    rw [heG e, heH e]
    constructor
    · rintro (h | h)
      · exact Or.inl ((heq.2 e).mp h)
      · exact Or.inr h
    · rintro (h | h)
      · exact Or.inl ((heq.2 e).mpr h)
      · exact Or.inr h
  exact ⟨nodes_iff_of_names cl _ _
    (fun p hp => hiG.2.2.2.1 p hp) (fun p hp => hiH.2.2.2.1 p hp) hnames, hedges⟩

theorem cong_apply (cl : String → String) (lim : Nat) (G H : Graph)
    (cs : ChangeSet) (hinvG : INV cl G) (hinvH : INV cl H)
    (hcs : ClassifiedCS cl cs)
    (hbG : ∀ x ∈ G.nodes.map Prod.fst, cl x = "ChangeSet" → x ≠ cs.commitHash)
    (heq : GEquiv G H) :
    GEquiv (applyChangeSet lim G cs) (applyChangeSet lim H cs) := by
  have hbH : ∀ x ∈ H.nodes.map Prod.fst, cl x = "ChangeSet" →
      x ≠ cs.commitHash := by
    intro x hx
    exact hbG x ((heq.names G H x).mpr hx)
  have hmfm := renameDict_fileMap cl cs hcs
  have hinvRG : INV cl (G.renameNodes (renameDict cs)) :=
    INV_renameNodes cl G _ hinvG hmfm
  have hinvRH : INV cl (H.renameNodes (renameDict cs)) :=
    INV_renameNodes cl H _ hinvH hmfm
  have heq2 : GEquiv (renameDelete G cs) (renameDelete H cs) := by
    unfold renameDelete
    exact cong_remove cl _ _ _
      (renameNodes_kinds G _ cl (fun x => mapName_cl cl _ hmfm x) hinvG.2.2.2.1)
      (renameNodes_kinds H _ cl (fun x => mapName_cl cl _ hmfm x) hinvH.2.2.2.1)
      (cong_rename cl G H _ hinvG hinvH hmfm heq)
  by_cases hlim : (filesAddModify cs).length > lim
  · rw [applyChangeSet_large lim G cs hlim, applyChangeSet_large lim H cs hlim]
    exact heq2
  · rw [applyChangeSet_small lim G cs hlim, applyChangeSet_small lim H cs hlim]
    exact cong_addSegment cl _ _ cs
      (INV_removeNodes cl _ _ hinvRG) (INV_removeNodes cl _ _ hinvRH) hcs
      (renameDelete_fresh cl G cs hcs hbG) heq2

theorem comm_add_purge (cl : String → String) (G2 : Graph) (cs : ChangeSet)
    (R : List String) (hinv2 : INV cl G2) (hcs : ClassifiedCS cl cs)
    (hfresh : cs.commitHash ∉ G2.nodes.map Prod.fst) (hR : R ≠ [])
    (hRcl : ∀ r ∈ R, cl r = "ChangeSet") (hhR : cs.commitHash ∉ R) :
    GEquiv ((addSegment G2 cs).removeNodes R)
      (addSegment (G2.removeNodes R) cs) := by
  have hfresh2 : cs.commitHash ∉ (G2.removeNodes R).nodes.map Prod.fst := by
    intro hc
    obtain ⟨p, hp, he⟩ := List.mem_map.mp hc
    exact hfresh (he ▸ List.mem_map_of_mem Prod.fst
      (removeNodes_nodes_subset _ _ p hp))
  have haR : cs.author ∉ R := by
    intro hc
    have h1 := hRcl _ hc
    rw [hcs.2.1] at h1
    exact absurd h1 (by decide)
  have hfR : ∀ f ∈ filesAddModify cs, f ∉ R := by
    intro f hf hc
    have h1 := hRcl _ hc
    rw [filesAddModify_cl cl cs hcs f hf] at h1
    exact absurd h1 (by decide)
  have hiR : ∀ i ∈ cs.issues, i ∉ R := by
    intro i hi hc
    have h1 := hRcl _ hc
    rw [hcs.2.2.2 i hi] at h1
    exact absurd h1 (by decide)
  obtain ⟨hnA, heA, hiA⟩ := addSegment_spec cl G2 cs hinv2 hcs hfresh
  obtain ⟨hnB, heB, hiB⟩ := addSegment_spec cl (G2.removeNodes R) cs
    (INV_removeNodes cl G2 R hinv2) hcs hfresh2
  -- the four batches of new edges are never incident to R
  have hnewclean : ∀ e : Edge, (e = ⟨cs.author, cs.commitHash, none, none⟩ ∨
      (∃ f ∈ filesAddModify cs,
        e = ⟨cs.commitHash, f, some cs.date, some "include"⟩) ∨
      (∃ i ∈ cs.issues, e = ⟨cs.commitHash, i, some cs.date, some "link"⟩)) →
      e.u ∉ R ∧ e.v ∉ R := by
    intro e h
    rcases h with h | ⟨f, hf, h⟩ | ⟨i, hi, h⟩
    · rw [h]
      exact ⟨haR, hhR⟩
    · rw [h]
      exact ⟨hhR, hfR f hf⟩
    · rw [h]
      exact ⟨hhR, hiR i hi⟩
  have hedges : ∀ e, e ∈ ((addSegment G2 cs).removeNodes R).edges ↔
      e ∈ (addSegment (G2.removeNodes R) cs).edges := by
    intro e
    rw [removeNodes_edges_eq _ R hR, List.mem_filter, decide_eq_true_eq,
      heA e, heB e]
    constructor
    · rintro ⟨h | h, hclean⟩
      · refine Or.inl ?_
        rw [removeNodes_edges_eq _ R hR, List.mem_filter, decide_eq_true_eq]
        exact ⟨h, hclean⟩
      · exact Or.inr h
    · rintro (h | h)
      · rw [removeNodes_edges_eq _ R hR, List.mem_filter, decide_eq_true_eq] at h
        exact ⟨Or.inl h.1, h.2⟩
      · exact ⟨Or.inr h, hnewclean e h⟩
  have hnames : ∀ x, x ∈ ((addSegment G2 cs).removeNodes R).nodes.map Prod.fst ↔
      x ∈ (addSegment (G2.removeNodes R) cs).nodes.map Prod.fst := by
    intro x
    rw [removeNodes_names_mem _ R hR, hnA x, hnB x]
    constructor
    · rintro ⟨hx, hxR, e, he, hclean, hinc⟩
      rcases (heA e).mp he with h | h | h | h
      · -- incident to a surviving old edge, or x is itself a new name
        rcases hx with hx | hx
        · refine Or.inl ?_
          rw [removeNodes_names_mem _ R hR]
          exact ⟨hx, hxR, e, h, hclean, hinc⟩
        · exact Or.inr hx
      · rcases hx with hx | hx
        · -- x is an endpoint of the authored edge, hence a new name
          rw [h] at hinc
          simp only at hinc
          rcases hinc with hinc | hinc
          · exact Or.inr (Or.inr (Or.inl hinc.symm))
          · exact Or.inr (Or.inl hinc.symm)
        · exact Or.inr hx
      · rcases hx with hx | hx
        · obtain ⟨f, hf, he2⟩ := h
          rw [he2] at hinc
          simp only at hinc
          rcases hinc with hinc | hinc
          · exact Or.inr (Or.inl hinc.symm)
          · exact Or.inr (Or.inr (Or.inr (Or.inl (hinc ▸ hf))))
        · exact Or.inr hx
      · rcases hx with hx | hx
        · obtain ⟨i, hi, he2⟩ := h
          rw [he2] at hinc
          simp only at hinc
          rcases hinc with hinc | hinc
          · exact Or.inr (Or.inl hinc.symm)
          · exact Or.inr (Or.inr (Or.inr (Or.inr (hinc ▸ hi))))
        · exact Or.inr hx
    · rintro (h | h)
      · rw [removeNodes_names_mem _ R hR] at h
        obtain ⟨hx, hxR, e, he, hclean, hinc⟩ := h
        exact ⟨Or.inl hx, hxR, e, (heA e).mpr (Or.inl he), hclean, hinc⟩
      · -- x is one of the new names; exhibit its new edge
        rcases h with h | h | h | h
        · refine ⟨Or.inr (Or.inl h), by rw [h]; exact hhR,
            ⟨cs.author, cs.commitHash, none, none⟩,
            (heA _).mpr (Or.inr (Or.inl rfl)), ⟨haR, hhR⟩, ?_⟩
          right
          rw [h]
        · refine ⟨Or.inr (Or.inr (Or.inl h)), by rw [h]; exact haR,
            ⟨cs.author, cs.commitHash, none, none⟩,
            (heA _).mpr (Or.inr (Or.inl rfl)), ⟨haR, hhR⟩, ?_⟩
          left
          rw [h]
        · refine ⟨Or.inr (Or.inr (Or.inr (Or.inl h))), hfR x h,
            ⟨cs.commitHash, x, some cs.date, some "include"⟩,
            (heA _).mpr (Or.inr (Or.inr (Or.inl ⟨x, h, rfl⟩))),
            ⟨hhR, hfR x h⟩, Or.inr rfl⟩
        · refine ⟨Or.inr (Or.inr (Or.inr (Or.inr h))), hiR x h,
            ⟨cs.commitHash, x, some cs.date, some "link"⟩,
            (heA _).mpr (Or.inr (Or.inr (Or.inr ⟨x, h, rfl⟩))),
            ⟨hhR, hiR x h⟩, Or.inr rfl⟩
  refine ⟨nodes_iff_of_names cl _ _ ?_ (fun p hp => hiB.2.2.2.1 p hp) hnames,
    hedges⟩
  intro p hp
  exact hiA.2.2.2.1 p (removeNodes_nodes_subset _ _ p hp)

theorem comm_apply_purge (cl : String → String) (lim : Nat) (G : Graph)
    (cs : ChangeSet) (R : List String) (hinv : INV cl G)
    (hcs : ClassifiedCS cl cs)
    (hbn : ∀ x ∈ G.nodes.map Prod.fst, cl x = "ChangeSet" → x ≠ cs.commitHash)
    (hR : R ≠ []) (hRcl : ∀ r ∈ R, cl r = "ChangeSet")
    (hhR : cs.commitHash ∉ R) :
    GEquiv ((applyChangeSet lim G cs).removeNodes R)
      (applyChangeSet lim (G.removeNodes R) cs) := by
  have hmfm := renameDict_fileMap cl cs hcs
  have hinvRen : INV cl (G.renameNodes (renameDict cs)) :=
    INV_renameNodes cl G _ hinv hmfm
  have hinvRD : INV cl (renameDelete G cs) := INV_removeNodes cl _ _ hinvRen
  have hinvPurge : INV cl (G.removeNodes R) := INV_removeNodes cl G R hinv
  -- commute the purge past the rename-delete prefix
  have hRD : GEquiv ((renameDelete G cs).removeNodes R)
      (renameDelete (G.removeNodes R) cs) := by
    unfold renameDelete
    by_cases hD : filesDelete cs = []
    · rw [hD, removeNodes_nil, removeNodes_nil]
      exact comm_rename_purge cl G _ R hinv hmfm hR hRcl
    · refine GEquiv.trans2 _ _ _
        (comm_remove_remove cl (G.renameNodes (renameDict cs))
          (filesDelete cs) R hinvRen hD hR) ?_
      refine cong_remove cl _ _ (filesDelete cs) ?_ ?_
        (comm_rename_purge cl G _ R hinv hmfm hR hRcl)
      · intro p hp
        exact hinvRen.2.2.2.1 p (removeNodes_nodes_subset _ _ p hp)
      · exact renameNodes_kinds _ _ cl (fun x => mapName_cl cl _ hmfm x)
          hinvPurge.2.2.2.1
  by_cases hlim : (filesAddModify cs).length > lim
  · rw [applyChangeSet_large lim G cs hlim,
      applyChangeSet_large lim (G.removeNodes R) cs hlim]
    exact hRD
  · rw [applyChangeSet_small lim G cs hlim,
      applyChangeSet_small lim (G.removeNodes R) cs hlim]
    refine GEquiv.trans2 _ _ _
      (comm_add_purge cl (renameDelete G cs) cs R hinvRD hcs
        (renameDelete_fresh cl G cs hcs hbn) hR hRcl hhR) ?_
    refine cong_addSegment cl _ _ cs
      (INV_removeNodes cl _ R hinvRD)
      (INV_removeNodes cl _ _ (INV_renameNodes cl _ _ hinvPurge hmfm)) hcs ?_ hRD
    intro hc
    obtain ⟨p, hp, he⟩ := List.mem_map.mp hc
    exact renameDelete_fresh cl G cs hcs hbn
      (he ▸ List.mem_map_of_mem Prod.fst (removeNodes_nodes_subset _ _ p hp))

theorem addChangeSets_cons (lim : Nat) (G : Graph) (cs : ChangeSet)
    (rest : List ChangeSet) :
    addChangeSets lim G (cs :: rest) =
      addChangeSets lim (applyChangeSet lim G cs) rest := rfl

theorem addChangeSets_append (lim : Nat) (G : Graph) (l1 l2 : List ChangeSet) :
    addChangeSets lim G (l1 ++ l2) =
      addChangeSets lim (addChangeSets lim G l1) l2 := by
  unfold addChangeSets
  rw [List.foldl_append]

theorem HB_mono (cl : String → String) (H H2 : List String) (G : Graph)
    (hsub : ∀ x ∈ H, x ∈ H2) (hb : HashesBound cl H G) :
    HashesBound cl H2 G :=
  fun p hp hcl => hsub _ (hb p hp hcl)

theorem INV_empty (cl : String → String) : INV cl Graph.empty := by
  refine ⟨?_, ?_, ?_, ?_, ?_, ?_⟩ <;> simp [Graph.empty]

theorem HB_empty (cl : String → String) : HashesBound cl [] Graph.empty := by
  intro p hp
  simp [Graph.empty] at hp

theorem INV_addChangeSets (cl : String → String) (lim : Nat) :
    ∀ (css : List ChangeSet) (G : Graph) (H : List String),
      INV cl G → HashesBound cl H G →
      (∀ cs ∈ css, ClassifiedCS cl cs) →
      (∀ cs ∈ css, cs.commitHash ∉ H) →
      (css.map (fun cs => cs.commitHash)).Nodup →
      INV cl (addChangeSets lim G css) ∧
        HashesBound cl (H ++ css.map (fun cs => cs.commitHash))
          (addChangeSets lim G css) := by
  intro css
  induction css with
  | nil =>
    intro G H hinv hb _ _ _
    refine ⟨hinv, ?_⟩
    simpa using hb
  | cons cs rest ih =>
    intro G H hinv hb hcls hfresh hnd
    have hcs := hcls cs (List.mem_cons_self cs rest)
    have hfcs := hfresh cs (List.mem_cons_self cs rest)
    have hbn : ∀ x ∈ G.nodes.map Prod.fst, cl x = "ChangeSet" →
        x ≠ cs.commitHash := by
      intro x hx hcl2 he
      obtain ⟨q, hq, hqe⟩ := List.mem_map.mp hx
      have h1 := hb q hq (by rw [hqe]; exact hcl2)
      rw [hqe, he] at h1
      exact hfcs h1
    have hinv2 := INV_applyChangeSet cl lim G cs hinv hcs hbn
    have hb2 := HB_applyChangeSet cl lim G cs H hinv hcs hb hfcs
    simp only [List.map_cons, List.nodup_cons] at hnd
    have hfresh2 : ∀ cs2 ∈ rest, cs2.commitHash ∉ H ++ [cs.commitHash] := by
      intro cs2 hcs2 hc
      rcases List.mem_append.mp hc with h | h
      · exact hfresh cs2 (List.mem_cons_of_mem cs hcs2) h
      · exact hnd.1 ((List.mem_singleton.mp h) ▸
          List.mem_map_of_mem (fun c => c.commitHash) hcs2)
    obtain ⟨hinvF, hbF⟩ := ih (applyChangeSet lim G cs) (H ++ [cs.commitHash])
      hinv2 hb2 (fun c hc => hcls c (List.mem_cons_of_mem cs hc)) hfresh2 hnd.2
    rw [addChangeSets_cons]
    refine ⟨hinvF, ?_⟩
    simp only [List.map_cons]
    have hassoc : H ++ cs.commitHash :: rest.map (fun c => c.commitHash) =
        (H ++ [cs.commitHash]) ++ rest.map (fun c => c.commitHash) := by
      simp
    rw [hassoc]
    exact hbF

theorem cong_addChangeSets (cl : String → String) (lim : Nat) :
    ∀ (css : List ChangeSet) (G G2 : Graph) (H : List String),
      GEquiv G G2 → INV cl G → INV cl G2 →
      HashesBound cl H G → HashesBound cl H G2 →
      (∀ cs ∈ css, ClassifiedCS cl cs) →
      (∀ cs ∈ css, cs.commitHash ∉ H) →
      (css.map (fun cs => cs.commitHash)).Nodup →
      GEquiv (addChangeSets lim G css) (addChangeSets lim G2 css) := by
  intro css
  induction css with
  | nil =>
    intro G G2 H heq _ _ _ _ _ _ _
    exact heq
  | cons cs rest ih =>
    intro G G2 H heq hinvG hinvH hbG hbH hcls hfresh hnd
    have hcs := hcls cs (List.mem_cons_self cs rest)
    have hfcs := hfresh cs (List.mem_cons_self cs rest)
    have hbnG : ∀ x ∈ G.nodes.map Prod.fst, cl x = "ChangeSet" →
        x ≠ cs.commitHash := by
      intro x hx hcl2 he
      obtain ⟨q, hq, hqe⟩ := List.mem_map.mp hx
      have h1 := hbG q hq (by rw [hqe]; exact hcl2)
      rw [hqe, he] at h1
      exact hfcs h1
    simp only [List.map_cons, List.nodup_cons] at hnd
    have hfresh2 : ∀ cs2 ∈ rest, cs2.commitHash ∉ H ++ [cs.commitHash] := by
      intro cs2 hcs2 hc
      rcases List.mem_append.mp hc with h | h
      · exact hfresh cs2 (List.mem_cons_of_mem cs hcs2) h
      · exact hnd.1 ((List.mem_singleton.mp h) ▸
          List.mem_map_of_mem (fun c => c.commitHash) hcs2)
    rw [addChangeSets_cons, addChangeSets_cons]
    exact ih (applyChangeSet lim G cs) (applyChangeSet lim G2 cs)
      (H ++ [cs.commitHash])
      (cong_apply cl lim G G2 cs hinvG hinvH hcs hbnG heq)
      (INV_applyChangeSet cl lim G cs hinvG hcs hbnG)
      (INV_applyChangeSet cl lim G2 cs hinvH hcs (by
        intro x hx hcl2 he
        obtain ⟨q, hq, hqe⟩ := List.mem_map.mp hx
        have h1 := hbH q hq (by rw [hqe]; exact hcl2)
        rw [hqe, he] at h1
        exact hfcs h1))
      (HB_applyChangeSet cl lim G cs H hinvG hcs hbG hfcs)
      (HB_applyChangeSet cl lim G2 cs H hinvH hcs hbH hfcs)
      (fun c hc => hcls c (List.mem_cons_of_mem cs hc)) hfresh2 hnd.2

theorem comm_purge_addChangeSets (cl : String → String) (lim : Nat)
    (R : List String) (hR : R ≠ []) (hRcl : ∀ r ∈ R, cl r = "ChangeSet") :
    ∀ (css : List ChangeSet) (G : Graph) (H : List String),
      INV cl G → HashesBound cl H G →
      (∀ cs ∈ css, ClassifiedCS cl cs) →
      (∀ cs ∈ css, cs.commitHash ∉ H ∧ cs.commitHash ∉ R) →
      (css.map (fun cs => cs.commitHash)).Nodup →
      GEquiv ((addChangeSets lim G css).removeNodes R)
        (addChangeSets lim (G.removeNodes R) css) := by
  intro css
  induction css with
  | nil =>
    intro G H _ _ _ _ _
    exact GEquiv.refl _
  | cons cs rest ih =>
    intro G H hinv hb hcls hfresh hnd
    have hcs := hcls cs (List.mem_cons_self cs rest)
    have hfcs := hfresh cs (List.mem_cons_self cs rest)
    have hbn : ∀ x ∈ G.nodes.map Prod.fst, cl x = "ChangeSet" →
        x ≠ cs.commitHash := by
      intro x hx hcl2 he
      obtain ⟨q, hq, hqe⟩ := List.mem_map.mp hx
      have h1 := hb q hq (by rw [hqe]; exact hcl2)
      rw [hqe, he] at h1
      exact hfcs.1 h1
    simp only [List.map_cons, List.nodup_cons] at hnd
    have hfresh2 : ∀ cs2 ∈ rest,
        cs2.commitHash ∉ H ++ [cs.commitHash] ∧ cs2.commitHash ∉ R := by
      intro cs2 hcs2
      refine ⟨?_, (hfresh cs2 (List.mem_cons_of_mem cs hcs2)).2⟩
      intro hc
      rcases List.mem_append.mp hc with h | h
      · exact (hfresh cs2 (List.mem_cons_of_mem cs hcs2)).1 h
      · exact hnd.1 ((List.mem_singleton.mp h) ▸
          List.mem_map_of_mem (fun c => c.commitHash) hcs2)
    rw [addChangeSets_cons, addChangeSets_cons]
    refine GEquiv.trans2 _ _ _
      (ih (applyChangeSet lim G cs) (H ++ [cs.commitHash])
        (INV_applyChangeSet cl lim G cs hinv hcs hbn)
        (HB_applyChangeSet cl lim G cs H hinv hcs hb hfcs.1)
        (fun c hc => hcls c (List.mem_cons_of_mem cs hc)) hfresh2 hnd.2) ?_
    refine cong_addChangeSets cl lim rest _ _ (H ++ [cs.commitHash])
      (comm_apply_purge cl lim G cs R hinv hcs hbn hR hRcl hfcs.2)
      (INV_removeNodes cl _ R (INV_applyChangeSet cl lim G cs hinv hcs hbn))
      (INV_applyChangeSet cl lim (G.removeNodes R) cs
        (INV_removeNodes cl G R hinv) hcs (by
          intro x hx hcl2 he
          obtain ⟨q, hq, hqe⟩ := List.mem_map.mp hx
          have h1 := HB_removeNodes cl H G R hb q hq (by rw [hqe]; exact hcl2)
          rw [hqe, he] at h1
          exact hfcs.1 h1))
      (HB_removeNodes cl _ _ R
        (HB_applyChangeSet cl lim G cs H hinv hcs hb hfcs.1))
      (HB_applyChangeSet cl lim (G.removeNodes R) cs H
        (INV_removeNodes cl G R hinv) hcs (HB_removeNodes cl H G R hb) hfcs.1)
      (fun c hc => hcls c (List.mem_cons_of_mem cs hc))
      (fun c hc => (hfresh2 c hc).1) hnd.2

theorem purge_all (cl : String → String) (H : List String) (G : Graph)
    (R : List String) (hinv : INV cl G) (hb : HashesBound cl H G)
    (hsub : ∀ x ∈ H, x ∈ R) (hR : R ≠ []) :
    G.removeNodes R = Graph.empty := by
  obtain ⟨_, _, hclosed, _, hshape, _⟩ := hinv
  have hedges : (G.removeNodes R).edges = [] := by
    rw [removeNodes_edges_eq G R hR]
    rw [List.eq_nil_iff_forall_not_mem]
    intro e he
    have he2 := List.mem_filter.mp he
    rw [decide_eq_true_eq] at he2
    obtain ⟨heG, huR, hvR⟩ := he2
    rcases hshape e heG with ⟨_, hB, _, _⟩ | ⟨hA, _⟩
    · -- the target is a change-set node
      obtain ⟨q, hq, hqe⟩ := List.mem_map.mp (hclosed e heG).2
      exact hvR (hsub _ (hqe ▸ hb q hq (by rw [hqe]; exact hB)))
    · obtain ⟨q, hq, hqe⟩ := List.mem_map.mp (hclosed e heG).1
      exact huR (hsub _ (hqe ▸ hb q hq (by rw [hqe]; exact hA)))
  have hnodes : (G.removeNodes R).nodes = [] := by
    rw [List.eq_nil_iff_forall_not_mem]
    intro p hp
    obtain ⟨_, _, e, heG, hclean, _⟩ := (removeNodes_nodes_mem G R hR p).mp hp
    have heM : e ∈ (G.removeNodes R).edges := by
      rw [removeNodes_edges_eq G R hR]
      exact List.mem_filter.mpr ⟨heG, by rw [decide_eq_true_eq]; exact hclean⟩
    rw [hedges] at heM
    exact absurd heM (List.not_mem_nil e)
  have heta : G.removeNodes R =
      ⟨(G.removeNodes R).nodes, (G.removeNodes R).edges⟩ := rfl
  rw [heta, hnodes, hedges]
  rfl

theorem slide_equals_rebuild (cl : String → String) (lim : Nat)
    (css0 csmid csnew : List ChangeSet)
    (hcl : ∀ cs ∈ css0 ++ csmid ++ csnew, ClassifiedCS cl cs)
    (hh : ((css0 ++ csmid ++ csnew).map (fun cs => cs.commitHash)).Nodup) :
    GEquiv (addChangeSets lim
        (removeChangeSets (addChangeSets lim Graph.empty (css0 ++ csmid)) css0)
        csnew)
      (addChangeSets lim Graph.empty (csmid ++ csnew)) := by
  have hcl0 : ∀ cs ∈ css0, ClassifiedCS cl cs := fun c hc =>
    hcl c (List.mem_append_left _ (List.mem_append_left _ hc))
  have hclmid : ∀ cs ∈ csmid, ClassifiedCS cl cs := fun c hc =>
    hcl c (List.mem_append_left _ (List.mem_append_right _ hc))
  have hclnew : ∀ cs ∈ csnew, ClassifiedCS cl cs := fun c hc =>
    hcl c (List.mem_append_right _ hc)
  rw [List.map_append, List.map_append, List.nodup_append] at hh
  obtain ⟨hh1, hndnew, hdisjON⟩ := hh
  rw [List.nodup_append] at hh1
  obtain ⟨hnd0, hndmid, hdisj0m⟩ := hh1
  by_cases h0 : css0 = []
  · subst h0
    simp only [List.nil_append]
    have hre : removeChangeSets (addChangeSets lim Graph.empty csmid)
        ([] : List ChangeSet) = addChangeSets lim Graph.empty csmid := by
      unfold removeChangeSets
      rw [List.map_nil, removeNodes_nil]
    rw [hre, ← addChangeSets_append]
    exact GEquiv.refl _
  · have hR : css0.map (fun cs => cs.commitHash) ≠ [] := by
      intro hc
      exact h0 (List.map_eq_nil.mp hc)
    have hRcl : ∀ r ∈ css0.map (fun cs => cs.commitHash),
        cl r = "ChangeSet" := by
      intro r hr
      obtain ⟨c, hc, he⟩ := List.mem_map.mp hr
      rw [← he]
      exact (hcl0 c hc).1
    have hfreshMidR : ∀ cs ∈ csmid,
        cs.commitHash ∉ css0.map (fun c => c.commitHash) := by
      intro c hc hmem
      exact hdisj0m hmem (List.mem_map_of_mem (fun c2 => c2.commitHash) hc)
    have hfreshNewR : ∀ cs ∈ csnew,
        cs.commitHash ∉ css0.map (fun c => c.commitHash) := by
      intro c hc hmem
      exact hdisjON (List.mem_append_left _ hmem)
        (List.mem_map_of_mem (fun c2 => c2.commitHash) hc)
    have hfreshNewMid : ∀ cs ∈ csnew,
        cs.commitHash ∉ csmid.map (fun c => c.commitHash) := by
      intro c hc hmem
      exact hdisjON (List.mem_append_right _ hmem)
        (List.mem_map_of_mem (fun c2 => c2.commitHash) hc)
    obtain ⟨hinvA, hbA⟩ := INV_addChangeSets cl lim css0 Graph.empty []
      (INV_empty cl) (HB_empty cl) hcl0 (fun c _ hc => absurd hc
        (List.not_mem_nil c.commitHash)) hnd0
    rw [List.nil_append] at hbA
    obtain ⟨hinvAm, hbAm⟩ := INV_addChangeSets cl lim csmid
      (addChangeSets lim Graph.empty css0)
      (css0.map (fun cs => cs.commitHash)) hinvA hbA hclmid hfreshMidR hndmid
    obtain ⟨hinvMid, hbMid⟩ := INV_addChangeSets cl lim csmid Graph.empty []
      (INV_empty cl) (HB_empty cl) hclmid (fun c _ hc => absurd hc
        (List.not_mem_nil c.commitHash)) hndmid
    rw [List.nil_append] at hbMid
    have hpurge : (addChangeSets lim Graph.empty css0).removeNodes
        (css0.map (fun cs => cs.commitHash)) = Graph.empty :=
      purge_all cl (css0.map (fun cs => cs.commitHash)) _
        (css0.map (fun cs => cs.commitHash)) hinvA hbA (fun _ hx => hx) hR
    have hcomm := comm_purge_addChangeSets cl lim
      (css0.map (fun cs => cs.commitHash)) hR hRcl csmid
      (addChangeSets lim Graph.empty css0)
      (css0.map (fun cs => cs.commitHash)) hinvA hbA hclmid
      (fun c hc => ⟨hfreshMidR c hc, hfreshMidR c hc⟩) hndmid
    rw [hpurge] at hcomm
    have hlhs : removeChangeSets (addChangeSets lim Graph.empty (css0 ++ csmid))
        css0 = (addChangeSets lim (addChangeSets lim Graph.empty css0)
          csmid).removeNodes (css0.map (fun cs => cs.commitHash)) := by
      unfold removeChangeSets
      rw [addChangeSets_append]
    rw [hlhs, addChangeSets_append lim Graph.empty csmid csnew]
    refine cong_addChangeSets cl lim csnew _ _
      (css0.map (fun cs => cs.commitHash) ++
        csmid.map (fun cs => cs.commitHash))
      hcomm
      (INV_removeNodes cl _ _ hinvAm) hinvMid
      (HB_removeNodes cl _ _ _ hbAm)
      (HB_mono cl _ _ _ (fun x hx => List.mem_append_right _ hx) hbMid)
      hclnew ?_ hndnew
    intro c hc hmem
    rcases List.mem_append.mp hmem with h | h
    · exact hfreshNewR c hc h
    · exact hfreshNewMid c hc h

/-- **C1** (amended): for every successful advance of the sliding window —
forward_one_day returning the entering change sets and the departing ones —
from a state whose graph was built by adding the departing window prefix and
the kept middle to an empty graph, provided some kind classifier maps every
commit hash to "ChangeSet", every author to "Developer", every file path to
"File" and every issue to "Issue" (disjoint name namespaces) and the commit
hashes of all involved change sets are pairwise distinct, the advance reports
success and the node set and the edge set of the graph after remove-then-add
are exactly those of a graph rebuilt from scratch by applying the add step to
all change sets of the new window in ascending date order. -/
theorem c1_slide_rebuild_equiv (cl : String → String) (s : HGState)
    (css0 csmid csnew : List ChangeSet) (dm2 : DMState)
    (hG : s.G = addChangeSets s.cfg.numFilesLimit Graph.empty (css0 ++ csmid))
    (hfwd : forwardOneDay s.dm = some ((csnew, css0), dm2))
    (hcl : ∀ cs ∈ css0 ++ csmid ++ csnew, ClassifiedCS cl cs)
    (hh : ((css0 ++ csmid ++ csnew).map (fun cs => cs.commitHash)).Nodup) :
    (forwardGraphOneDay s).1 = true ∧
      GEquiv (forwardGraphOneDay s).2.G
        (addChangeSets s.cfg.numFilesLimit Graph.empty (csmid ++ csnew)) := by
  have h2 : (forwardGraphOneDay s).1 = true ∧
      (forwardGraphOneDay s).2.G =
        addChangeSets s.cfg.numFilesLimit (removeChangeSets s.G css0) csnew := by
    unfold forwardGraphOneDay
    rw [hfwd]
    exact ⟨rfl, rfl⟩
  refine ⟨h2.1, ?_⟩
  rw [h2.2, hG]
  exact slide_equals_rebuild cl s.cfg.numFilesLimit css0 csmid csnew hcl hh

/-- A commit whose hash "X" will later collide with a file path. -/
def c1csX : ChangeSet := ⟨"X", "d0", 0, [], [⟨"A", "ADD", none⟩], 1⟩

/-- A commit adding a file named "X", the hash of the earlier commit. -/
def c1cs1 : ChangeSet := ⟨"C1", "d1", dayLen, [], [⟨"X", "ADD", none⟩], 2⟩

/-- The commit of the entering day. -/
def c1cs2 : ChangeSet := ⟨"C2", "d2", 2 * dayLen, [], [⟨"B", "ADD", none⟩], 3⟩

/-- The day-bucketed timeline of the three-commit history. -/
def c1timeline : List (Nat × List ChangeSet) :=
  [(dayLen - 1, [normCs c1csX]), (2 * dayLen - 1, [normCs c1cs1]),
   (3 * dayLen - 1, [normCs c1cs2])]

/-- The HistoryGraph state after the initial two-day window over the
colliding history: the node "X" was created for the commit hash and then
relabeled to kind "File" when the second commit added a file of that name. -/
def c1xState : HGState :=
  ⟨⟨2, 10, 50, 5 / 1000000⟩,
   ⟨c1timeline, 2, some (dayLen - 1), some (2 * dayLen - 1)⟩,
   ⟨[("X", some "File"), ("d0", some "Developer"), ("A", some "File"),
     ("C1", some "ChangeSet"), ("d1", some "Developer")],
    [⟨"d0", "X", none, none⟩, ⟨"X", "A", some (dayLen - 1), some "include"⟩,
     ⟨"d1", "C1", none, none⟩,
     ⟨"C1", "X", some (2 * dayLen - 1), some "include"⟩]⟩,
   2, CacheData.empty⟩

/-- C1 counterexample: on a history where a file path equals the commit hash
of a departing change set, the advance succeeds but the slid graph differs
from the graph rebuilt from the new window: the rebuild holds the file node
"X" while the incremental removal deleted it by name. -/
theorem c1_counterexample :
    mkHistoryGraph ⟨2, 10, 50, 5 / 1000000⟩ [c1csX, c1cs1, c1cs2] =
        some c1xState ∧
      (forwardGraphOneDay c1xState).1 = true ∧
      ("X", some "File") ∈ (addChangeSets 50 Graph.empty
          [normCs c1cs1, normCs c1cs2]).nodes ∧
      ∀ p ∈ (forwardGraphOneDay c1xState).2.G.nodes, p.1 ≠ "X" := by
  have htl : genTimeline [c1csX, c1cs1, c1cs2] = some c1timeline := by
    simp [genTimeline, buildBuckets, bucketAdd, dictAdd, c1csX, c1cs1, c1cs2,
      normCs, maxOfDay, dayLen, fillGaps, bucketTouch, sortByKey,
      List.mergeSort, c1timeline]
  refine ⟨?_, by decide, by decide, by decide⟩
  unfold mkHistoryGraph mkDataManager
  rw [htl]
  simp [getInitialWindow, hasDate, dayLen, c1timeline, addChangeSets,
    applyChangeSet, renameDict, filesDelete, filesAddModify, Graph.renameNodes,
    Graph.removeNodes, Graph.addNode, Graph.ensureNode, Graph.addEdge,
    upsertEdge, mergeNode, Graph.empty, Edge.isPair, c1xState, normCs,
    maxOfDay, c1csX, c1cs1, c1cs2, mapName]

/-- Day-0 commit of the collision-free witness history. -/
def c1w0 : ChangeSet := ⟨"CS0", "e0", 0, [], [⟨"G0", "ADD", none⟩], 1⟩

/-- Day-1 commit of the collision-free witness history. -/
def c1w1 : ChangeSet := ⟨"CS1", "e1", dayLen, [], [⟨"G1", "ADD", none⟩], 2⟩

/-- Day-2 commit of the collision-free witness history. -/
def c1w2 : ChangeSet := ⟨"CS2", "e2", 2 * dayLen, [], [⟨"G2", "ADD", none⟩], 3⟩

/-- A kind classifier with disjoint namespaces for the witness history. -/
def c1wcl : String → String := fun n =>
  if n = "CS0" ∨ n = "CS1" ∨ n = "CS2" then "ChangeSet"
  else if n = "e0" ∨ n = "e1" ∨ n = "e2" then "Developer"
  else "File"

/-- The witness data-manager state at the initial window position. -/
def c1wdm : DMState :=
  ⟨[(dayLen - 1, [normCs c1w0]), (2 * dayLen - 1, [normCs c1w1]),
    (3 * dayLen - 1, [normCs c1w2])], 2, some (dayLen - 1),
   some (2 * dayLen - 1)⟩

/-- The witness data-manager state after sliding one day. -/
def c1wdm2 : DMState :=
  ⟨[(dayLen - 1, [normCs c1w0]), (2 * dayLen - 1, [normCs c1w1]),
    (3 * dayLen - 1, [normCs c1w2])], 2, some (2 * dayLen - 1),
   some (3 * dayLen - 1)⟩

/-- The witness HistoryGraph state at the initial two-day window. -/
def c1wState : HGState :=
  ⟨⟨2, 10, 50, 5 / 1000000⟩, c1wdm,
   addChangeSets 50 Graph.empty [normCs c1w0, normCs c1w1], 2, CacheData.empty⟩

theorem c1_witness :
    (forwardGraphOneDay c1wState).1 = true ∧
      GEquiv (forwardGraphOneDay c1wState).2.G
        (addChangeSets c1wState.cfg.numFilesLimit Graph.empty
          ([normCs c1w1] ++ [normCs c1w2])) :=
  c1_slide_rebuild_equiv c1wcl c1wState [normCs c1w0] [normCs c1w1]
    [normCs c1w2] c1wdm2 rfl (by decide)
    (by
      intro cs hcs
      simp only [List.mem_append, List.mem_singleton] at hcs
      unfold ClassifiedCS
      rcases hcs with (h | h) | h <;> subst h <;> decide)
    (by decide)

end KeyDev
